import Mathlib

/-!
# Verification of the pymwp polynomial algebra and derivation layer

Shallow embedding of the pymwp sources (src/pymwp/polynomial.py,
src/pymwp/relation_list.py, src/pymwp/analysis.py, src/pymwp/__main__.py).

Modules `semiring.py`, `monomial.py`, `relation.py` and `delta_graph.py` are
not part of the given sources; the definitions for those are modelled from the
specification (their doc comments start with `Modelled from the spec:`).
All other definitions are translated from the Python sources.
-/

namespace PyMwp

/-- Modelled from the spec: the five mwp-scalars {0, m, w, p, ∞}
(file semiring.py is missing from the sources).  `z` is the scalar `'0'`,
`i` is the scalar `'i'` (infinity). -/
inductive Scalar where
  | z | m | w | p | i
  deriving DecidableEq, Repr

/-- Modelled from the spec: the totally ordered strength 0 < m < w < p < ∞. -/
def Scalar.strength : Scalar → Nat
  | .z => 0 | .m => 1 | .w => 2 | .p => 3 | .i => 4

/-- Modelled from the spec: scalar sum `⊕` is max by strength
(`semiring.sum_mwp`). -/
def sum_mwp (a b : Scalar) : Scalar :=
  if b.strength ≤ a.strength then a else b

/-- Modelled from the spec: scalar product `⊗` is 0 if either is 0,
∞ if either is ∞ (and the other nonzero), else max (`semiring.prod_mwp`). -/
def prod_mwp (a b : Scalar) : Scalar :=
  if a = .z ∨ b = .z then .z
  else if a = .i ∨ b = .i then .i
  else sum_mwp a b

/-- A delta `δ(value, index)`: stored as the pair (value, index) exactly as in
the Python sources (tuples `(i, j)` with `i` the value and `j` the index). -/
abbrev Delta := Nat × Nat

/-- Modelled from the spec: a monomial is a scalar together with a list of
deltas (file monomial.py is missing from the sources). -/
structure Monomial where
  scalar : Scalar
  deltas : List Delta
  deriving DecidableEq, Repr

/-- The monomial `Monomial(ZERO_MWP)`: scalar 0, no deltas. -/
def Monomial.zeroM : Monomial := ⟨.z, []⟩

/-- Result type of `Polynomial.compare` (constants.Comparison). -/
inductive Comparison where
  | smaller | equal | larger
  deriving DecidableEq, Repr

/-- Result type of `Monomial.inclusion` (constants.SetInclusion). -/
inductive SetInclusion where
  | contains | included | empty
  deriving DecidableEq, Repr

/-- The ordering on single deltas used by `Polynomial.compare`:
`δ(i,j)` is smaller than `δ(m,n)` iff `j < n` or (`j = n` and `i < m`). -/
def deltaBelow (d1 d2 : Delta) : Bool :=
  decide (d1.2 < d2.2 ∨ (d1.2 = d2.2 ∧ d1.1 < d2.1))

/-- `Polynomial.compare` from polynomial.py: compare two delta lists.
The Python code zips the lists, finds the first differing position, and
compares that pair by `deltaBelow`; if the common prefix agrees, the shorter
list is smaller. -/
def Polynomial.compare (l1 l2 : List Delta) : Comparison :=
  match (l1.zip l2).find? (fun ab => ab.1 ≠ ab.2) with
  | some (d1, d2) => if deltaBelow d1 d2 then .smaller else .larger
  | none =>
    if l1.length > l2.length then .larger
    else if l1.length < l2.length then .smaller
    else .equal

/-- Recursive characterization of `Polynomial.compare`, proved from the
zip/find? form; used throughout the proofs. -/
def compareRec (l1 l2 : List Delta) : Comparison :=
  match l1, l2 with
  | [], [] => .equal
  | [], _ :: _ => .smaller
  | _ :: _, [] => .larger
  | a :: xs, b :: ys =>
    if a = b then compareRec xs ys
    else if deltaBelow a b then .smaller else .larger

theorem compare_eq_compareRec (l1 l2 : List Delta) :
    Polynomial.compare l1 l2 = compareRec l1 l2 := by
  induction l1 generalizing l2 with
  | nil =>
    cases l2 with
    | nil => rfl
    | cons b ys => simp [Polynomial.compare, compareRec, List.zip, List.find?]
  | cons a xs ih =>
    cases l2 with
    | nil => simp [Polynomial.compare, compareRec, List.zip, List.find?]
    | cons b ys =>
      by_cases hab : a = b
      · subst hab
        simp only [compareRec, if_pos rfl, ← ih ys]
        simp only [Polynomial.compare, List.zip_cons_cons, List.find?_cons]
        have : (decide ¬(a, a).1 = (a, a).2) = false := by simp
        rw [this]
        cases hfind : (xs.zip ys).find? (fun ab => ab.1 ≠ ab.2) with
        | none => simp [List.length_cons]
        | some v => rfl
      · simp only [compareRec, if_neg hab]
        simp only [Polynomial.compare, List.zip_cons_cons, List.find?_cons]
        have : (decide ¬(a, b).1 = (a, b).2) = true := by
          simp [hab]
        rw [this]

/-! ## Basic facts about the scalar semiring -/

theorem sum_mwp_idem (a : Scalar) : sum_mwp a a = a := by
  cases a <;> rfl

theorem sum_mwp_comm (a b : Scalar) : sum_mwp a b = sum_mwp b a := by
  cases a <;> cases b <;> rfl

theorem sum_mwp_assoc (a b c : Scalar) :
    sum_mwp (sum_mwp a b) c = sum_mwp a (sum_mwp b c) := by
  cases a <;> cases b <;> cases c <;> rfl

theorem sum_mwp_z (a : Scalar) : sum_mwp Scalar.z a = a := by
  cases a <;> rfl

theorem sum_mwp_z_right (a : Scalar) : sum_mwp a Scalar.z = a := by
  cases a <;> rfl

theorem sum_mwp_i (a : Scalar) : sum_mwp Scalar.i a = Scalar.i := by
  cases a <;> rfl

theorem prod_mwp_distrib (a b c : Scalar) :
    prod_mwp a (sum_mwp b c) = sum_mwp (prod_mwp a b) (prod_mwp a c) := by
  cases a <;> cases b <;> cases c <;> rfl

theorem prod_mwp_z_left (a : Scalar) : prod_mwp Scalar.z a = Scalar.z := by
  cases a <;> rfl

theorem prod_mwp_z_right (a : Scalar) : prod_mwp a Scalar.z = Scalar.z := by
  cases a <;> rfl

/-! ## Facts about the monomial order -/

theorem compareRec_self (l : List Delta) : compareRec l l = .equal := by
  induction l with
  | nil => rfl
  | cons a xs ih => simp [compareRec, ih]

theorem compareRec_eq_equal {l1 l2 : List Delta}
    (h : compareRec l1 l2 = .equal) : l1 = l2 := by
  induction l1 generalizing l2 with
  | nil => cases l2 with
    | nil => rfl
    | cons b ys => simp [compareRec] at h
  | cons a xs ih =>
    cases l2 with
    | nil => simp [compareRec] at h
    | cons b ys =>
      by_cases hab : a = b
      · subst hab
        simp only [compareRec, if_pos rfl] at h
        rw [ih h]
      · simp only [compareRec, if_neg hab] at h
        split at h <;> simp_all

theorem deltaBelow_trichotomy (d1 d2 : Delta) :
    d1 = d2 ∨ deltaBelow d1 d2 = true ∨ deltaBelow d2 d1 = true := by
  rcases d1 with ⟨i1, j1⟩; rcases d2 with ⟨i2, j2⟩
  simp only [deltaBelow, decide_eq_true_eq, Prod.mk.injEq]
  omega

theorem deltaBelow_asymm {d1 d2 : Delta} (h : deltaBelow d1 d2 = true) :
    deltaBelow d2 d1 = false := by
  rcases d1 with ⟨i1, j1⟩; rcases d2 with ⟨i2, j2⟩
  simp only [deltaBelow, decide_eq_true_eq, decide_eq_false_iff_not] at *
  omega

theorem deltaBelow_trans {d1 d2 d3 : Delta} (h1 : deltaBelow d1 d2 = true)
    (h2 : deltaBelow d2 d3 = true) : deltaBelow d1 d3 = true := by
  rcases d1 with ⟨i1, j1⟩; rcases d2 with ⟨i2, j2⟩; rcases d3 with ⟨i3, j3⟩
  simp only [deltaBelow, decide_eq_true_eq] at *
  omega

theorem compareRec_swap (l1 l2 : List Delta) :
    compareRec l1 l2 = .smaller ↔ compareRec l2 l1 = .larger := by
  induction l1 generalizing l2 with
  | nil => cases l2 <;> simp [compareRec]
  | cons a xs ih =>
    cases l2 with
    | nil => simp [compareRec]
    | cons b ys =>
      by_cases hab : a = b
      · subst hab; simp only [compareRec, if_pos rfl]; exact ih ys
      · have hba : ¬ b = a := fun h => hab h.symm
        simp only [compareRec, if_neg hab, if_neg hba]
        rcases deltaBelow_trichotomy a b with h | h | h
        · exact absurd h hab
        · rw [if_pos h, deltaBelow_asymm h]; simp
        · rw [deltaBelow_asymm h, if_pos h]; simp

theorem compareRec_trans {l1 l2 l3 : List Delta}
    (h1 : compareRec l1 l2 = .smaller) (h2 : compareRec l2 l3 = .smaller) :
    compareRec l1 l3 = .smaller := by
  induction l1 generalizing l2 l3 with
  | nil =>
    cases l3 with
    | nil =>
      cases l2 with
      | nil => exact h2
      | cons b ys => simp [compareRec] at h2
    | cons c zs => rfl
  | cons a xs ih =>
    cases l2 with
    | nil => simp [compareRec] at h1
    | cons b ys =>
      cases l3 with
      | nil => simp [compareRec] at h2
      | cons c zs =>
        by_cases hab : a = b <;> by_cases hbc : b = c
        · subst hab; subst hbc
          simp only [compareRec, if_pos rfl] at *
          exact ih h1 h2
        · subst hab
          simp only [compareRec, if_pos rfl, if_neg hbc] at *
          exact h2
        · subst hbc
          simp only [compareRec, if_pos rfl, if_neg hab] at *
          exact h1
        · simp only [compareRec, if_neg hab, if_neg hbc] at h1 h2
          have hb1 : deltaBelow a b = true := by
            by_contra h; simp [h] at h1
          have hb2 : deltaBelow b c = true := by
            by_contra h; simp [h] at h2
          have hac : deltaBelow a c = true := deltaBelow_trans hb1 hb2
          have hane : ¬ a = c := by
            intro h; subst h
            exact absurd (deltaBelow_asymm hb2) (by simp [hb1, deltaBelow_trans hb2 hb1] at *)
          simp only [compareRec, if_neg hane, if_pos hac]

/-! ## Subsumption (inclusion) of monomials -/

/-- `a` subsumes `b`: `a`'s delta-set is a subset of `b`'s and `a`'s scalar is
at least `b`'s (spec §4.C). -/
def subsumes (a b : Monomial) : Bool :=
  a.deltas.all (fun d => b.deltas.contains d) &&
    decide (b.scalar.strength ≤ a.scalar.strength)

/-- Modelled from the spec: `Monomial.inclusion` (monomial.py is missing).
The call sites in `Polynomial.contains_filter` fix its meaning:
`m.inclusion(mono) = CONTAINS` when `mono` subsumes `m` (so `m` is removed
from the accumulator), and `INCLUDED` when `m` subsumes `mono` (so `mono` is
not inserted). -/
def Monomial.inclusion (self other : Monomial) : SetInclusion :=
  if subsumes other self then .contains
  else if subsumes self other then .included
  else .empty

/-- Modelled from the spec: `Monomial.eval(choice_vector)` returns the
monomial's scalar if every delta `(val, idx)` matches the vector
(`vector[idx] = val`), otherwise 0. An index outside the vector never
matches. -/
def Monomial.eval (mo : Monomial) (v : List Nat) : Scalar :=
  if mo.deltas.all (fun d => v.get? d.2 == some d.1) then mo.scalar else .z

/-- Modelled from the spec: insert a delta into an index-ordered delta list,
keeping order by index; `none` signals a conflict (same index, different
value). -/
def insertDelta : List Delta → Delta → Option (List Delta)
  | [], d => some [d]
  | e :: es, d =>
    if e.2 = d.2 then (if e.1 = d.1 then some (e :: es) else none)
    else if d.2 < e.2 then some (d :: e :: es)
    else (insertDelta es d).map (fun r => e :: r)

/-- Modelled from the spec: `Monomial.prod`: scalar `⊗`, union of delta lists
keeping order by index; the absent (zero) monomial results if a conflict at
the same index with different values appears or if either scalar is 0. -/
def Monomial.prod (m1 m2 : Monomial) : Monomial :=
  let s := prod_mwp m1.scalar m2.scalar
  if s = .z then Monomial.zeroM
  else
    match m2.deltas.foldl (fun acc d => acc.bind (fun ds => insertDelta ds d))
        (some m1.deltas) with
    | none => Monomial.zeroM
    | some ds => ⟨s, ds⟩

/-! ## `Polynomial.contains_filter` and `Polynomial.inclusion`

The Python `list.remove(m)` removes the first element equal to `m`. -/

/-- Python `list.remove`: remove the first element equal to `m`. -/
def removeFirst : List Monomial → Monomial → List Monomial
  | [], _ => []
  | x :: xs, m => if x = m then xs else x :: removeFirst xs m

theorem length_removeFirst_of_mem {l : List Monomial} {m : Monomial}
    (h : m ∈ l) : (removeFirst l m).length = l.length - 1 := by
  induction l with
  | nil => cases h
  | cons x xs ih =>
    by_cases hx : x = m
    · simp [removeFirst, hx]
    · have hm : m ∈ xs := by
        cases h with
        | head => exact absurd rfl hx
        | tail _ h => exact h
      have hne : xs ≠ [] := by intro h0; rw [h0] at hm; cases hm
      have : 1 ≤ xs.length := by
        cases xs with
        | nil => exact absurd rfl hne
        | cons _ _ => simp
      simp only [removeFirst, if_neg hx, List.length_cons, ih hm]
      omega

/-- `Polynomial.contains_filter` from polynomial.py, its `while` loop made
explicit.  The Python loop scans `list_monom` at position `j`; here the
state is split as `list_monom = kept ++ rest` with `j = kept.length`
(`kept` are the positions already scanned or skipped over).  If the scanned
monomial `m` satisfies `m.inclusion(mono) = CONTAINS` (i.e. `mono` subsumes
`m`), the first monomial equal to `m` is removed (`list.remove(m)` removes
the first value-equal occurrence, which sits in `kept` when `kept` holds a
duplicate of `m`, else is `m` itself), `i` is decremented when `j < i`, and
the scan continues at the same position `j`; on
`m.inclusion(mono) = INCLUDED` the verdict `CONTAINS` is returned at once
with the current list; otherwise the scan advances.  Returns the verdict,
the adjusted index and the filtered list. -/
def containsFilterGo (kept rest : List Monomial) (mono : Monomial)
    (i : Nat) : SetInclusion × Nat × List Monomial :=
  match rest with
  | [] => (.empty, i, kept)
  | m :: rest2 =>
    match Monomial.inclusion m mono with
    | .contains =>
      let i2 := if kept.length < i then i - 1 else i
      if kept.contains m then
        containsFilterGo (removeFirst kept m ++ [m]) rest2 mono i2
      else containsFilterGo kept rest2 mono i2
    | .included => (.contains, i, kept ++ m :: rest2)
    | .empty => containsFilterGo (kept ++ [m]) rest2 mono i

/-- `Polynomial.inclusion` from polynomial.py: wraps `contains_filter`
(scan starting at position 0, i.e. empty `kept` prefix); returns whether
`mono` is to be inserted, plus the adjusted index and the filtered
accumulator list. -/
def inclusionFn (newList : List Monomial) (mono : Monomial) (i : Nat) :
    Bool × Nat × List Monomial :=
  match containsFilterGo [] newList mono i with
  | (.contains, i2, l2) => (false, i2, l2)
  | (_, i2, l2) => (true, i2, l2)

theorem containsFilterGo_len_sub (kept rest : List Monomial)
    (mono : Monomial) (i : Nat) :
    (containsFilterGo kept rest mono i).2.2.length -
        (containsFilterGo kept rest mono i).2.1
      ≤ kept.length + rest.length - i := by
  induction rest generalizing kept i with
  | nil => simp [containsFilterGo]
  | cons m rest2 ih =>
    rw [containsFilterGo]
    cases hinc : Monomial.inclusion m mono with
    | contains =>
      simp only
      split
      · rename_i hmem
        have hk : 0 < kept.length := by
          cases kept with
          | nil => simp at hmem
          | cons _ _ => simp
        have hlen : (removeFirst kept m ++ [m]).length = kept.length := by
          rw [List.length_append,
            length_removeFirst_of_mem (by simpa using hmem)]
          simp
          omega
        have := ih (removeFirst kept m ++ [m])
          (if kept.length < i then i - 1 else i)
        rw [hlen] at this
        refine le_trans this ?_
        split <;> simp <;> omega
      · have := ih kept (if kept.length < i then i - 1 else i)
        refine le_trans this ?_
        split <;> simp <;> omega
    | included => simp <;> omega
    | empty =>
      simp only
      have := ih (kept ++ [m]) i
      refine le_trans this ?_
      simp
      omega

theorem inclusionFn_len_sub (newList : List Monomial) (mono : Monomial)
    (i : Nat) :
    (inclusionFn newList mono i).2.2.length - (inclusionFn newList mono i).2.1
      ≤ newList.length - i := by
  have h := containsFilterGo_len_sub [] newList mono i
  simp only [List.length_nil, Nat.zero_add] at h
  unfold inclusionFn
  cases hgo : containsFilterGo [] newList mono i with
  | mk r rest =>
    rcases rest with ⟨i2, l2⟩
    rw [hgo] at h
    cases r <;> simpa using h

theorem inclusionFn_nil (mono : Monomial) (i : Nat) :
    inclusionFn [] mono i = (true, i, []) := rfl

/-! ## `Polynomial.sort_monomials` -/

/-- The Python base case tests `monomials[0] == ZERO_MWP`, comparing a
`Monomial` object with the scalar string `'0'`.  Monomial equality is by
(scalar, delta-list) (spec §4.B), so a monomial never equals a bare scalar
string: the test is always false (and in consequence `sort_monomials`
never strips zero-scalar monomials in its base case). -/
def monomialIsZeroStr (_ : Monomial) : Bool := false

/-- The combining (`while left and right`) loop of `sort_monomials`: merge
two lists by `Polynomial.compare` on the delta lists; on `EQUAL` the two
heads are fused into one monomial whose scalar is the `sum_mwp` of the two
(dropped when the sum is the zero scalar); the remainder of either list is
appended at the end (`new_list + right + left`). -/
def mergeMono : List Monomial → List Monomial → List Monomial
  | [], right => right
  | lh :: lt, [] => lh :: lt
  | lh :: lt, rh :: rt =>
    match Polynomial.compare lh.deltas rh.deltas with
    | .smaller => lh :: mergeMono lt (rh :: rt)
    | .larger => rh :: mergeMono (lh :: lt) rt
    | .equal =>
      let s := sum_mwp lh.scalar rh.scalar
      if s ≠ Scalar.z then ⟨s, lh.deltas⟩ :: mergeMono lt rt
      else mergeMono lt rt

/-- `Polynomial.sort_monomials` from polynomial.py: recursive halving merge
sort.  `left` is the sort of the tail half `monomials[mid:]`, `right` of the
head half `monomials[:mid]`. -/
def sort_monomials (monomials : List Monomial) : List Monomial :=
  if h : monomials.length < 2 then
    match monomials with
    | [] => []
    | m0 :: rest => if monomialIsZeroStr m0 then [] else m0 :: rest
  else
    let mid := monomials.length / 2
    let left := sort_monomials (monomials.drop mid)
    let right := sort_monomials (monomials.take mid)
    mergeMono left right
termination_by monomials.length
decreasing_by
  · simp only [List.length_drop]; omega
  · simp only [List.length_take]; omega

theorem compare_self (l : List Delta) : Polynomial.compare l l = .equal := by
  rw [compare_eq_compareRec]; exact compareRec_self l

/-! ## `Polynomial.add` -/

/-- The `Polynomial` constructor applied to a freshly built monomial list:
`self.list = monomials or [Monomial(ZERO_MWP)]`, i.e. an empty list is
replaced by the single zero monomial. -/
def Polynomial.ofList (l : List Monomial) : List Monomial :=
  if l = [] then [Monomial.zeroM] else l

/-- The `for m in polynomial.list[j:]` loop inside `Polynomial.add` reached
when the insertion index equals the accumulator length: each remaining
monomial of the second polynomial is run through `Polynomial.inclusion` and
appended at the end when it survives the filter. -/
def addRestFold (qs : List Monomial) (j : Nat) (nl : List Monomial)
    (i : Nat) : List Monomial :=
  ((qs.drop j).foldl (fun st m =>
    match inclusionFn st.1 m st.2 with
    | (true, i2, nl2) => (nl2 ++ [m], i2)
    | (false, i2, nl2) => (nl2, i2)) (nl, i)).1

/-- The main `while j < poly_len` loop of `Polynomial.add`.  `qs` is the
second polynomial's monomial list, `newList` the accumulator (initially a
copy of the first polynomial's list), `i` the insertion index and `j` the
position in `qs`.  Each iteration runs `Polynomial.inclusion`; a monomial
rejected by the filter is skipped; when the accumulator became empty the
whole remainder `qs[j:]` is appended (the source's
`new_list = new_list + polynomial.list[j:]`), when `i` reached the end the
remainder is folded in by `addRestFold`, and otherwise the accumulator head
at `i` is compared with the monomial: `SMALLER` advances `i`, `LARGER`
inserts at `i`, `EQUAL` fuses the scalars with `sum_mwp` in place.
(The index returned by the filter is clamped to the accumulator length; on
every state the Python code can reach, `i` never exceeds the length, so the
clamp never changes a reachable value.) -/
def addGo (qs : List Monomial) (newList : List Monomial) (i j : Nat) :
    List Monomial :=
  if h : j < qs.length then
    let mono2 := qs.get ⟨j, h⟩
    match hinc : inclusionFn newList mono2 i with
    | (false, i2, nl2) => addGo qs nl2 i2 (j + 1)
    | (true, i2, nl2) =>
      let i3 := min i2 nl2.length
      let nl3 := if nl2 = [] then nl2 ++ qs.drop j else nl2
      if i3 = nl3.length then addRestFold qs j nl3 i3
      else if h2 : i3 < nl3.length then
        let mono1 := nl3.get ⟨i3, h2⟩
        match hcmp : Polynomial.compare mono1.deltas mono2.deltas with
        | .smaller => addGo qs nl3 (i3 + 1) j
        | .larger => addGo qs (nl3.insertIdx i3 mono2) (i3 + 1) (j + 1)
        | .equal =>
          addGo qs
            (nl3.set i3 ⟨sum_mwp mono1.scalar mono2.scalar, mono1.deltas⟩)
            i3 (j + 1)
      else nl3
  else newList
termination_by (qs.length - j, (if newList = [] then qs.length + 1
  else newList.length - i))
decreasing_by
  · exact Prod.Lex.left _ _ (by omega)
  · -- `SMALLER` branch: `j` unchanged, the accumulator unchanged, `i` grows.
    by_cases hnl2 : nl2 = []
    · -- bulk case: the head at the clamped index is `mono2` itself,
      -- so compare cannot return SMALLER
      exfalso
      subst hnl2
      unfold_let mono1 mono2 nl3 i3 at hcmp
      unfold_let nl3 i3 at h2
      simp only [List.length_nil, Nat.min_zero, List.nil_append,
        List.get_eq_getElem, if_pos, dite_eq_ite, if_true] at h2 hcmp
      have h2d : (0 : Nat) < (qs.drop j).length := by
        simpa using h2
      have hget : (qs.drop j)[0] = qs[j] := by
        rw [List.getElem_drop]
        simp
      rw [hget, compare_self] at hcmp
      cases hcmp
    · apply Prod.Lex.right
      unfold_let nl3 i3 at h2 ⊢
      have hsub := inclusionFn_len_sub newList (qs.get ⟨j, h⟩) i
      rw [hinc] at hsub
      simp only at hsub
      have hnew : newList ≠ [] := by
        intro hN
        rw [hN, inclusionFn_nil] at hinc
        have : ([] : List Monomial) = nl2 :=
          congrArg (fun x => x.2.2) hinc
        exact hnl2 this.symm
      rw [dif_neg hnl2] at h2 ⊢
      rw [if_neg hnl2, if_neg hnew]
      have hi2 : i2 < nl2.length := by
        rcases Nat.lt_or_ge i2 nl2.length with hc | hc
        · exact hc
        · rw [Nat.min_eq_right hc] at h2; omega
      rw [Nat.min_eq_left (Nat.le_of_lt hi2)]
      omega
  · exact Prod.Lex.left _ _ (by omega)
  · exact Prod.Lex.left _ _ (by omega)

/-- `Polynomial.add` from polynomial.py.  The two polynomials are given by
their monomial lists; the accumulator starts as a copy of the first list and
the result is `Polynomial(sort_monomials(new_list))`. -/
def Polynomial.add (p q : List Monomial) : List Monomial :=
  if p = [] ∧ q = [] then Polynomial.ofList []
  else if p = [] then q
  else if q = [] then p
  else Polynomial.ofList (sort_monomials (addGo q p 0 0))

/-! ## `Polynomial.times` -/

/-- Step 1 of `Polynomial.times`: the table of products
`[[m1 * m2 for m1 in self.list if scalar ≠ 0] for m2 in polynomial.list]`
with the empty rows filtered out. -/
def prodTable (p q : List Monomial) : List (List Monomial) :=
  (q.map (fun m2 =>
    (p.map (fun m1 => m1.prod m2)).filter (fun mo => mo.scalar ≠ Scalar.z)))
    |>.filter (fun row => row ≠ [])

/-- The inner scan of step 2 of `Polynomial.times`: insert index `idx` before
the first position whose table head compares `SMALLER`-above it, else append.
(`table[k][0]` is read with a default for the—never occurring—empty row.) -/
def insertIndexList (table : List (List Monomial)) (t1 : List Delta)
    (acc : List Nat) (idx : Nat) : List Nat :=
  match acc with
  | [] => [idx]
  | k :: ks =>
    if Polynomial.compare t1 (((table.getD k []).headD Monomial.zeroM).deltas)
        = .smaller
    then idx :: k :: ks
    else k :: insertIndexList table t1 ks idx

/-- Step 2 of `Polynomial.times`: the list of table indices ordered by the
deltas of each row's first monomial, built by successive insertion starting
from `[0]`. -/
def buildIndexList (table : List (List Monomial)) : List Nat :=
  ((List.range table.length).drop 1).foldl (fun acc idx =>
    insertIndexList table
      (((table.getD idx []).headD Monomial.zeroM).deltas) acc idx) [0]

/-- Step 6 of `Polynomial.times`: re-insert index `smallest` before the first
position whose table head compares `LARGER` than the new head of
`table[smallest]`, else append.  (The source really compares with `LARGER`
here, unlike the `SMALLER` used when first building the index list.) -/
def reinsertIndex (table : List (List Monomial)) (t1 : List Delta)
    (acc : List Nat) (smallest : Nat) : List Nat :=
  match acc with
  | [] => [smallest]
  | k :: ks =>
    if Polynomial.compare t1 (((table.getD k []).headD Monomial.zeroM).deltas)
        = .larger
    then smallest :: k :: ks
    else k :: reinsertIndex table t1 ks smallest

/-- Sum of the row lengths of the product table (termination measure of the
main loop of `times`). -/
def tableSize (table : List (List Monomial)) : Nat :=
  (table.map List.length).sum

theorem tableSize_set {table : List (List Monomial)} {k : Nat}
    {row : List Monomial} (hk : k < table.length) :
    tableSize (table.set k row) + (table.get ⟨k, hk⟩).length
      = tableSize table + row.length := by
  induction table generalizing k with
  | nil => simp at hk
  | cons r rs ih =>
    cases k with
    | zero => simp [tableSize]; omega
    | succ k =>
      have hk2 : k < rs.length := by simpa using hk
      have := ih hk2
      simp only [List.set, tableSize, List.map_cons, List.sum_cons,
        List.get] at *
      omega

theorem reinsertIndex_length (table : List (List Monomial)) (t1 : List Delta)
    (acc : List Nat) (s : Nat) :
    (reinsertIndex table t1 acc s).length = acc.length + 1 := by
  induction acc with
  | nil => rfl
  | cons k ks ih =>
    rw [reinsertIndex]
    split
    · simp
    · simp [ih]

/-- Steps 3–7 of `Polynomial.times`, the `while index_list` loop: pop the
first index, pop the head of its table row, append it to the result unless
the inclusion filter rejects it, and when the row is still non-empty
re-insert the index by `reinsertIndex`.  (A row that is already empty is
skipped; with the loop invariant—every listed index points to a non-empty
row—that branch is never taken, matching the Python `pop(0)`.) -/
def timesGo (table : List (List Monomial)) (indexList : List Nat)
    (result : List Monomial) : List Monomial :=
  match indexList with
  | [] => result
  | smallest :: rest =>
    match hrow : table.getD smallest [] with
    | [] => timesGo table rest result
    | mono2 :: row2 =>
      let table2 := table.set smallest row2
      let res2 := match inclusionFn result mono2 0 with
        | (true, _, r2) => r2 ++ [mono2]
        | (false, _, r2) => r2
      let idx2 :=
        if row2 = [] then rest
        else reinsertIndex table2
          (((table2.getD smallest []).headD Monomial.zeroM).deltas)
          rest smallest
      timesGo table2 idx2 res2
termination_by (tableSize table + indexList.length)
decreasing_by
  · simp only [List.length_cons]; omega
  · have hk : k < table.length := by
      by_contra hge
      rw [List.getD_eq_default _ _ (by omega)] at hrow
      cases hrow
    have hgete : table.get ⟨k, hk⟩ = mono2 :: row2 := by
      rw [List.get_eq_getElem, ← List.getD_eq_getElem table [] hk]
      exact hrow
    have hts := @tableSize_set table k row2 hk
    rw [hgete] at hts
    simp only [List.length_cons] at hts ⊢
    split
    · omega
    · rw [reinsertIndex_length]
      omega

/-- `Polynomial.times` from polynomial.py: build the product table, order the
indices, and run the merge loop; `Polynomial()` when the table is empty. -/
def Polynomial.times (p q : List Monomial) : List Monomial :=
  let table := prodTable p q
  if table = [] then Polynomial.ofList []
  else Polynomial.ofList (timesGo table (buildIndexList table) [])

/-! ## `Polynomial.eval` and `Polynomial.equal` -/

/-- The loop of `Polynomial.eval`: fold `sum_mwp` over the monomial
evaluations, stopping early once the accumulated result is infinity. -/
def evalGo (v : List Nat) : List Monomial → Scalar → Scalar
  | [], acc => acc
  | mo :: rest, acc =>
    let acc2 := sum_mwp acc (mo.eval v)
    if acc2 = Scalar.i then acc2 else evalGo v rest acc2

/-- `Polynomial.eval` from polynomial.py. -/
def Polynomial.eval (p : List Monomial) (v : List Nat) : Scalar :=
  evalGo v p Scalar.z

/-- `Polynomial.equal` from polynomial.py: element-wise equality of scalars
and delta lists over the zipped lists, plus equality of lengths. -/
def Polynomial.equal (p q : List Monomial) : Bool :=
  ((p.zip q).all (fun mm =>
    mm.1.scalar = mm.2.scalar ∧ mm.1.deltas = mm.2.deltas)) &&
    p.length == q.length

theorem Polynomial.equal_iff (p q : List Monomial) :
    Polynomial.equal p q = true ↔ p = q := by
  induction p generalizing q with
  | nil => cases q <;> simp [Polynomial.equal]
  | cons a xs ih =>
    cases q with
    | nil => simp [Polynomial.equal]
    | cons b ys =>
      have hih := ih ys
      simp only [Polynomial.equal, List.zip_cons_cons, List.all_cons,
        Bool.and_eq_true, List.length_cons, beq_iff_eq,
        decide_eq_true_eq] at *
      constructor
      · rintro ⟨⟨⟨hs, hd⟩, hall⟩, hlen⟩
        have hab : a = b := by
          cases a; cases b; simp_all
        rw [hab, hih.mp ⟨hall, by omega⟩]
      · rintro h
        injection h with h1 h2
        subst h1; subst h2
        have := hih.mpr rfl
        exact ⟨⟨⟨rfl, rfl⟩, this.1⟩, by omega⟩

/-! ## Delta graph (spec-modelled; delta_graph.py is missing) -/

/-- Set-inclusion of one delta list in another. -/
def listSubset (a b : List Delta) : Bool := a.all (fun d => b.contains d)

/-- Modelled from the spec: the delta graph stores a collection of infinity
clauses, each a conjunction (list) of deltas. -/
structure DeltaGraph where
  clauses : List (List Delta)
  deriving DecidableEq, Repr

/-- Modelled from the spec: `DeltaGraph.add`: insert a clause; skip when a
smaller (subset) clause already exists; remove any existing larger clause. -/
def DeltaGraph.add (dg : DeltaGraph) (cl : List Delta) : DeltaGraph :=
  if dg.clauses.any (fun c => listSubset c cl) then dg
  else ⟨cl :: dg.clauses.filter (fun c => !(listSubset cl c))⟩

/-- Modelled from the spec: `DeltaGraph.fusion`: close the insertion rule
over all pairs by re-adding every clause. -/
def DeltaGraph.fusion (dg : DeltaGraph) : DeltaGraph :=
  dg.clauses.foldl (fun g c => g.add c) ⟨[]⟩

/-- Modelled from the spec: `is_empty` is true iff no clauses exist. -/
def DeltaGraph.is_empty (dg : DeltaGraph) : Bool := dg.clauses.isEmpty

/-! ## Relation (spec-modelled; relation.py is missing) -/

/-- A variable label of a relation.  The Python code stores names, but the
`binary_op` rule can also place `None` in the variable list (when an operand
is a constant, `non_constants` holds `None`); `Option String` captures both. -/
abbrev VarName := Option String

/-- The polynomial consisting of the single scalar-`m` monomial. -/
def polyM : List Monomial := [⟨Scalar.m, []⟩]

/-- The polynomial consisting of the single zero monomial (scalar `o`/`0`). -/
def polyO : List Monomial := [Monomial.zeroM]

/-- Modelled from the spec: a relation is a labeled square matrix of
polynomials: a variable list and a grid with cell (row x, column y) the
contribution of input `x` to output `y`. -/
structure Relation where
  varList : List VarName
  matrix : List (List (List Monomial))
  deriving DecidableEq, Repr

/-- Modelled from the spec: the identity relation: scalar `m` polynomials on
the diagonal, zero polynomials elsewhere.  The `Relation(variables)`
constructor used by `RelationList` builds this identity (the `constant` rule
describes its output as "the identity over {x}"). -/
def Relation.identity (vars : List VarName) : Relation :=
  ⟨vars, (List.range vars.length).map (fun r =>
    (List.range vars.length).map (fun c => if r = c then polyM else polyO))⟩

/-- Modelled from the spec: `replace_column(vec, var)` places the polynomial
vector `vec` into the column of `var`: cell (row r, column of `var`) becomes
`vec[r]`. -/
def Relation.replace_column (rel : Relation) (vec : List (List Monomial))
    (v : VarName) : Relation :=
  match rel.varList.indexOf? v with
  | none => rel
  | some c =>
    ⟨rel.varList, rel.matrix.enum.map (fun rrow =>
      rrow.2.set c (vec.getD rrow.1 polyO))⟩

/-- Modelled from the spec: the ordered union of two variable lists used when
padding for composition and sum. -/
def unionVars (v1 v2 : List VarName) : List VarName :=
  v1 ++ v2.filter (fun x => !(v1.contains x))

/-- Modelled from the spec: pad a relation to a larger variable list; cells
between old variables are kept, all others are identity cells. -/
def Relation.pad (rel : Relation) (vars : List VarName) : Relation :=
  ⟨vars, vars.map (fun vr => vars.map (fun vc =>
    match rel.varList.indexOf? vr, rel.varList.indexOf? vc with
    | some r, some c => (rel.matrix.getD r []).getD c polyO
    | _, _ => if vr = vc then polyM else polyO))⟩

/-- Modelled from the spec: relation composition: align the variable sets by
the ordered union, pad both matrices, and multiply over the polynomial
algebra: `out[i][j] = Σ_k self[i][k] · r[k][j]`. -/
def Relation.composition (r1 r2 : Relation) : Relation :=
  let vars := unionVars r1.varList r2.varList
  let a := (r1.pad vars).matrix
  let b := (r2.pad vars).matrix
  ⟨vars, (List.range vars.length).map (fun rr =>
    (List.range vars.length).map (fun cc =>
      (List.range vars.length).foldl (fun acc k =>
        Polynomial.add acc (Polynomial.times
          ((a.getD rr []).getD k polyO)
          ((b.getD k []).getD cc polyO))) polyO))⟩

/-- Modelled from the spec: elementwise sum of two relations after padding. -/
def Relation.sumR (r1 r2 : Relation) : Relation :=
  let vars := unionVars r1.varList r2.varList
  let a := (r1.pad vars).matrix
  let b := (r2.pad vars).matrix
  ⟨vars, (List.range vars.length).map (fun rr =>
    (List.range vars.length).map (fun cc =>
      Polynomial.add ((a.getD rr []).getD cc polyO)
        ((b.getD rr []).getD cc polyO)))⟩

/-- The saturation loop of the fixpoint: keep accumulating
`acc ⊕ M^(k+1)` until the matrix stops changing (or the fuel runs out; the
spec notes the sequence stabilizes in finitely many steps because the
semiring has finite height, so enough fuel makes the cut immaterial). -/
def fixGo (rel : Relation) : Nat → Relation → Relation → Relation
  | 0, acc, _ => acc
  | Nat.succ f, acc, pow =>
    let pow2 := pow.composition rel
    let acc2 := acc.sumR pow2
    if acc2.matrix = acc.matrix then acc else fixGo rel f acc2 pow2

/-- Modelled from the spec: `fixpoint` computes the star
`I ⊕ M ⊕ M² ⊕ …` by saturation. -/
def Relation.fixpoint (rel : Relation) : Relation :=
  let idm := Relation.identity rel.varList
  fixGo rel (4 * rel.varList.length * rel.varList.length + 4)
    (idm.sumR rel) rel

/-- Modelled from the spec: `while_correction(dg)`: every monomial of a
diagonal cell whose scalar is stronger than `m` contributes its delta
conjunction to the delta graph as an infinity clause. -/
def Relation.while_correction (rel : Relation) (dg : DeltaGraph) :
    DeltaGraph :=
  (((List.range rel.varList.length).map (fun k =>
      (rel.matrix.getD k []).getD k polyO)).flatten.filter
    (fun mo => mo.scalar ≠ Scalar.z ∧ mo.scalar ≠ Scalar.m)).foldl
    (fun g mo => g.add mo.deltas) dg

/-- Modelled from the spec: `loop_correction(ctrl_var, dg)`: forbid non-weak
dependencies on the controlling variable: every monomial in the controller's
row whose scalar is stronger than `w` contributes its delta conjunction. -/
def Relation.loop_correction (rel : Relation) (x : VarName)
    (dg : DeltaGraph) : DeltaGraph :=
  match rel.varList.indexOf? x with
  | none => dg
  | some k =>
    ((rel.matrix.getD k []).flatten.filter (fun mo =>
      mo.scalar ≠ Scalar.z ∧ mo.scalar ≠ Scalar.m ∧
        mo.scalar ≠ Scalar.w)).foldl (fun g mo => g.add mo.deltas) dg

/-! ## RelationList (from src/pymwp/relation_list.py) -/

/-- `RelationList` from relation_list.py: a list of relations. -/
structure RelationList where
  list : List Relation
  deriving DecidableEq, Repr

/-- `RelationList(variables)`: one relation over the given variables
(`RelationList()` passes `None`, giving the empty variable list). -/
def RelationList.ofVars (vars : List VarName) : RelationList :=
  ⟨[Relation.identity vars]⟩

/-- `RelationList()`: the default list holding `Relation(None)`. -/
def RelationList.empty : RelationList := RelationList.ofVars []

/-- `RelationList.identity` from relation_list.py. -/
def RelationList.identity (vars : List VarName) : RelationList :=
  ⟨[Relation.identity vars]⟩

/-- `RelationList.replace_column` from relation_list.py:
`self.list = [rel.replace_column(value, variable) for rel in self.list
for value in vector]` — the comprehension iterates over the **elements** of
`vector`, so each single polynomial `value` is passed where
`Relation.replace_column` expects a whole vector (here embedded as the
one-element vector `[value]`), and the result holds
`len(self.list) * len(vector)` relations. -/
def RelationList.replace_column (rl : RelationList)
    (vector : List (List Monomial)) (v : VarName) : RelationList :=
  ⟨(rl.list.map (fun rel =>
    vector.map (fun value => rel.replace_column [value] v))).flatten⟩

/-- `RelationList.unique` from relation_list.py.  The source line
`not any(m.matrix == matrix in m for m in matrix_list)` is a chained
comparison `(m.matrix == matrix) and (matrix in m)`; the second conjunct is
only evaluated on a matrix match and is modelled as true (a containment test
on the matching relation). -/
def RelationList.unique (matrix : List (List (List Monomial)))
    (matrix_list : List Relation) : Bool :=
  !(matrix_list.any (fun m => decide (m.matrix = matrix)))

/-- `RelationList.composition` from relation_list.py: pairwise composition
of the two bags, appending each output whose matrix is not already
present. -/
def RelationList.composition (rl other : RelationList) : RelationList :=
  ⟨rl.list.foldl (fun acc r1 => other.list.foldl (fun acc2 r2 =>
    let output := r1.composition r2
    if RelationList.unique output.matrix acc2 then acc2 ++ [output]
    else acc2) acc) []⟩

/-- `RelationList.__add__` from relation_list.py: cartesian sum of bags. -/
def RelationList.add (rl other : RelationList) : RelationList :=
  ⟨(rl.list.map (fun r1 => other.list.map (fun r2 => r1.sumR r2))).flatten⟩

/-- `RelationList.fixpoint` from relation_list.py. -/
def RelationList.fixpoint (rl : RelationList) : RelationList :=
  ⟨rl.list.map (fun rel => rel.fixpoint)⟩

/-- `RelationList.while_correction` as the spec and the caller
`Analysis.while_loop` require it: thread the delta graph through each
relation's correction.  (In src/pymwp/relation_list.py the method takes no
delta-graph argument at all — see the C1 analysis; the spec's version is
modelled here so the rest of the derivation can be embedded.) -/
def RelationList.while_correction (rl : RelationList) (dg : DeltaGraph) :
    DeltaGraph :=
  rl.list.foldl (fun g rel => rel.while_correction g) dg

/-- The for-loop analogue used by `Analysis.for_loop`
(`relations.loop_correction(x_var, dg)`). -/
def RelationList.loop_correction (rl : RelationList) (x : VarName)
    (dg : DeltaGraph) : DeltaGraph :=
  rl.list.foldl (fun g rel => rel.loop_correction x g) dg

/-! ## The AST shape consumed by the derivation (src/pymwp/analysis.py) -/

/-- An atomic operand of a binary or unary operation: `pr.Constant` or
`pr.ID`.  (`Analysis.binary_op` treats any other operand shape as
unsupported, returning a skip.) -/
inductive Atom where
  | const (val : Int)
  | var (name : String)
  deriving DecidableEq, Repr

/-- The right-hand side of an assignment `x = …` whose lvalue is an `ID`:
a binary operation, a constant, a unary operation over an atom, or a plain
variable. -/
inductive Rhs where
  | binOp (op : String) (y z : Atom)
  | constE (val : Int)
  | unaryE (op : String) (e : Atom)
  | varE (name : String)
  deriving DecidableEq, Repr

/-- The AST nodes dispatched by `Analysis.compute_relation`.  `ret`, `brk`,
`cont`, `empty` and `decl` are the skip-like nodes (`pr.Return`, `pr.Break`,
`pr.Continue`, `pr.EmptyStatement`, `pr.Decl`); `whileLoop` covers
`pr.While` and `pr.DoWhile`; `forLoop` carries the result of
`Coverage.loop_compat` (the coverage module is outside the given sources);
`funcCall` is a call statement with the callee name; the unary statement's
operand is a variable (`node.expr.name`). -/
inductive Node where
  | ret | brk | cont | empty | decl
  | assign (x : String) (rhs : Rhs)
  | stmtUnary (op : String) (exp : String)
  | ifStmt (iftrue : Option Node) (iffalse : Option Node)
  | whileLoop (stmt : Node)
  | forLoop (compat : Bool) (xvar : String) (stmt : Node)
  | compound (items : List Node)
  | funcCall (name : String)
  deriving Repr

/-- `Polynomial.from_scalars(index, a, b, c)`.  Modelled from the spec:
"(a,b,c) at index k is the polynomial a·δ(0,k) + b·δ(1,k) + c·δ(2,k)".
The method is **absent** from the `Polynomial` class of
src/pymwp/polynomial.py although `Analysis.create_vector` calls it (the C1
analysis); this definition follows the spec so the rest of the derivation
can be embedded. -/
def Polynomial.from_scalars (index : Nat) (a b c : Scalar) :
    List Monomial :=
  [⟨a, [(0, index)]⟩, ⟨b, [(1, index)]⟩, ⟨c, [(2, index)]⟩]

/-- `Coverage.INC_DEC` (coverage module outside the given sources): the
unary increment/decrement operators, prefix and postfix. -/
def incDecOps : List String := ["++", "--", "p++", "p--"]

/-- The increment operators (`Coverage.INC`): used to choose `+` over `-`
when lowering `++`/`--`; the source tests `op in ('p++', '++')`. -/
def incOps : List String := ["p++", "++"]

/-- `Analysis.create_vector` from analysis.py: build the polynomial vector
for `x = y op z`.  The zero polynomial is prepended when the assigned
variable occurs on neither side; each branch then builds one or two
`from_scalars` vectors as in the source; the returned index is `index + 1`
on every path. -/
def Analysis.create_vector (index : Nat) (op : String)
    (vars3 : Option String × Option String × Option String) :
    Nat × List (List Monomial) :=
  let (x, y, z) := vars3
  let pre : List (List Monomial) :=
    if x ≠ y ∧ x ≠ z then [polyO] else []
  let rest : List (List Monomial) :=
    if y = none ∨ z = none then
      [Polynomial.from_scalars index .m .m .m]
    else if op = "*" ∧ y = z then
      [Polynomial.from_scalars index .w .w .w]
    else if op = "*" ∧ y ≠ z then
      [Polynomial.from_scalars index .w .w .w,
       Polynomial.from_scalars index .w .w .w]
    else if (op = "+" ∨ op = "-") ∧ y = z then
      [Polynomial.from_scalars index .p .p .w]
    else if (op = "+" ∨ op = "-") ∧ y ≠ z then
      [Polynomial.from_scalars index .m .p .w,
       Polynomial.from_scalars index .p .m .w]
    else []
  (index + 1, pre ++ rest)

/-- Order-preserving deduplication (`list(dict.fromkeys(non_constants))`). -/
def dedupKeys (l : List (Option String)) : List (Option String) :=
  l.foldl (fun acc x => if acc.contains x then acc else acc ++ [x]) []

/-- The name of an atom, `None` for a constant (the `non_constants`
tuple). -/
def Atom.nameOpt : Atom → Option String
  | .const _ => none
  | .var n => some n

/-- `Analysis.binary_op` from analysis.py.  `x` is the lvalue's name when it
has one (`None` when the statement was synthesized by `unary_op`, whose
lvalue is a plain string without a `.name` attribute, so no column is
replaced). -/
def Analysis.binary_op (index : Nat) (x : Option String) (op : String)
    (y z : Atom) : Nat × RelationList × Bool :=
  let yn := y.nameOpt
  let zn := z.nameOpt
  let iv := Analysis.create_vector index op (x, yn, zn)
  let vlist := dedupKeys [x, yn, zn]
  let rl := RelationList.identity vlist
  match x with
  | some xn => (iv.1, rl.replace_column iv.2 (some xn), false)
  | none => (iv.1, rl, false)

/-- `Analysis.constant` from analysis.py: `x = c` introduces `x` as a fresh
input; the relation list holds the identity over `{x}`; the index is
unchanged. -/
def Analysis.constant (index : Nat) (x : String) :
    Nat × RelationList × Bool :=
  (index, RelationList.ofVars [some x], false)

/-- `Analysis.id` from analysis.py: `x = y`.  An `ID` lvalue with a
constant rvalue, or `x = x`, returns the skip triple; otherwise the vector
`[Polynomial('o'), Polynomial('m')]` (embedded as the zero and `m`
single-scalar polynomials) is placed into the column of `x` of the identity
over `[x, y]` by `RelationList.replace_column`, and the index is
unchanged. -/
def Analysis.idRule (index : Nat) (x : String) (rv : Atom) :
    Nat × RelationList × Bool :=
  match rv with
  | .const _ => (index, RelationList.empty, false)
  | .var yv =>
    if x = yv then (index, RelationList.empty, false)
    else
      let vector : List (List Monomial) := [polyO, polyM]
      let rl := RelationList.identity [some x, some yv]
      (index, rl.replace_column vector (some x), false)

/-- `Analysis.unary_asgn` from analysis.py: `x = unary(y)`; `++`/`--` are
lowered to `x = y ± 1`, `!` to `x = 1`, `sizeof` to `x = 64`, unary `+` to
`x = y`, unary `-` to `x = y * (-1)`; anything else is unsupported and
skips. -/
def Analysis.unary_asgn (index : Nat) (x : String) (op : String)
    (e : Atom) : Nat × RelationList × Bool :=
  match e with
  | .const _ => Analysis.constant index x
  | .var exp =>
    if incDecOps.contains op then
      let opCode := if incOps.contains op then "+" else "-"
      Analysis.binary_op index (some x) opCode (.var exp) (.const 1)
    else if op = "!" then Analysis.idRule index x (.const 1)
    else if op = "sizeof" then Analysis.idRule index x (.const 64)
    else if op = "+" then Analysis.idRule index x (.var exp)
    else if op = "-" then
      Analysis.binary_op index (some x) "*" (.var exp) (.const (-1))
    else (index, RelationList.empty, false)

/-- `Analysis.unary_op` from analysis.py (statement-level unary operation):
`++`/`--` expand to `exp = exp ± 1`, but the synthesized assignment's lvalue
is the plain string `exp` (not an `ID` node), so `binary_op` sees no
`.name` on it (`x = None`); all other operators do nothing. -/
def Analysis.unary_op (index : Nat) (op : String) (exp : String) :
    Nat × RelationList × Bool :=
  if incDecOps.contains op then
    let opCode := if incOps.contains op then "+" else "-"
    Analysis.binary_op index none opCode (.var exp) (.const 1)
  else (index, RelationList.empty, false)

mutual

/-- `Analysis.compute_relation` from analysis.py: dispatch on the node
shape.  Skip-like nodes, `assert`/`assume` calls and unsupported nodes
return the index unchanged with an empty relation list and a false exit
flag; the delta graph is threaded through in place of the Python mutation
of the `dg` argument. -/
def Analysis.compute_relation (index : Nat) (node : Node)
    (dg : DeltaGraph) : Nat × RelationList × Bool × DeltaGraph :=
  match node with
  | .ret | .brk | .cont | .empty | .decl =>
    (index, RelationList.empty, false, dg)
  | .assign x rhs =>
    match rhs with
    | .binOp op y z =>
      let r := Analysis.binary_op index (some x) op y z
      (r.1, r.2.1, r.2.2, dg)
    | .constE _ =>
      let r := Analysis.constant index x
      (r.1, r.2.1, r.2.2, dg)
    | .unaryE op e =>
      let r := Analysis.unary_asgn index x op e
      (r.1, r.2.1, r.2.2, dg)
    | .varE y =>
      let r := Analysis.idRule index x (.var y)
      (r.1, r.2.1, r.2.2, dg)
  | .stmtUnary op exp =>
    let r := Analysis.unary_op index op exp
    (r.1, r.2.1, r.2.2, dg)
  | .ifStmt iftrue iffalse => Analysis.if_stmt index iftrue iffalse dg
  | .whileLoop stmt => Analysis.while_loop index stmt dg
  | .forLoop compat xvar stmt => Analysis.for_loop index compat xvar stmt dg
  | .compound items =>
    Analysis.compound_items index items RelationList.empty dg
  | .funcCall _ => (index, RelationList.empty, false, dg)
termination_by (sizeOf node, 0)

/-- `Analysis.if_stmt` from analysis.py: analyze the two branches; an exit
flag from either branch is propagated at once with that branch's list;
otherwise the result is `false_relation + true_relation`. -/
def Analysis.if_stmt (index : Nat) (iftrue iffalse : Option Node)
    (dg : DeltaGraph) : Nat × RelationList × Bool × DeltaGraph :=
  let t := Analysis.if_branch index iftrue RelationList.empty dg
  if t.2.1 then (t.1, t.2.2.1, true, t.2.2.2)
  else
    let f := Analysis.if_branch t.1 iffalse RelationList.empty t.2.2.2
    if f.2.1 then (f.1, f.2.2.1, true, f.2.2.2)
    else (f.1, (f.2.2.1).add t.2.2.1, false, f.2.2.2)
termination_by (sizeOf iftrue + sizeOf iffalse, 1)
decreasing_by
  all_goals
    first
      | decreasing_tactic
      | (simp_wf
         have h1 : 0 < sizeOf iffalse := by cases iffalse <;> simp_arith
         have h2 : 0 < sizeOf iftrue := by cases iftrue <;> simp_arith
         apply Prod.Lex.left
         omega)

/-- `Analysis.if_branch` from analysis.py: a missing branch does nothing;
a compound branch iterates its items, any other branch is the single
statement; each child is analyzed and composed, stopping at an exit
flag.  Returns (index, exit, relation list, delta graph). -/
def Analysis.if_branch (index : Nat) (node : Option Node)
    (rl : RelationList) (dg : DeltaGraph) :
    Nat × Bool × RelationList × DeltaGraph :=
  match node with
  | none => (index, false, rl, dg)
  | some (.compound items) => Analysis.branch_items index items rl dg
  | some n =>
    let r := Analysis.compute_relation index n dg
    if r.2.2.1 then (r.1, true, rl, r.2.2.2)
    else (r.1, false, rl.composition r.2.1, r.2.2.2)
termination_by (sizeOf node, 0)

/-- The per-child loop of `Analysis.if_branch`: the exit flag is checked
before the composition. -/
def Analysis.branch_items (index : Nat) (items : List Node)
    (rl : RelationList) (dg : DeltaGraph) :
    Nat × Bool × RelationList × DeltaGraph :=
  match items with
  | [] => (index, false, rl, dg)
  | n :: rest =>
    let r := Analysis.compute_relation index n dg
    if r.2.2.1 then (r.1, true, rl, r.2.2.2)
    else Analysis.branch_items r.1 rest (rl.composition r.2.1) r.2.2.2
termination_by (sizeOf items, 0)

/-- `Analysis.while_loop` from analysis.py: analyze the loop body (the
`hasattr(node, 'block_items')` test is on the while node itself, which has
no such attribute, so the body is always the single `node.stmt`), compose,
take the fixpoint, apply the while correction to the delta graph, fuse, and
return `dg.is_empty` as the exit flag. -/
def Analysis.while_loop (index : Nat) (stmt : Node) (dg : DeltaGraph) :
    Nat × RelationList × Bool × DeltaGraph :=
  let relations := RelationList.empty
  let r := Analysis.compute_relation index stmt dg
  if r.2.2.1 then (r.1, r.2.1, r.2.2.1, r.2.2.2)
  else
    let relations := relations.composition r.2.1
    let relations := relations.fixpoint
    let dg2 := relations.while_correction r.2.2.2
    let dg3 := dg2.fusion
    (r.1, relations, dg3.is_empty, dg3)
termination_by (sizeOf stmt, 1)

/-- `Analysis.for_loop` from analysis.py: an incompatible loop shape skips;
otherwise analyze the single-statement body against a relation list over
the controlling variable, fixpoint, loop-correct, fuse, and return
`dg.is_empty` as the exit flag. -/
def Analysis.for_loop (index : Nat) (compat : Bool) (xvar : String)
    (stmt : Node) (dg : DeltaGraph) :
    Nat × RelationList × Bool × DeltaGraph :=
  if !compat then (index, RelationList.empty, false, dg)
  else
    let relations := RelationList.ofVars [some xvar]
    let r := Analysis.compute_relation index stmt dg
    if r.2.2.1 then (r.1, r.2.1, true, r.2.2.2)
    else
      let relations := relations.composition r.2.1
      let relations := relations.fixpoint
      let dg2 := relations.loop_correction (some xvar) r.2.2.2
      let dg3 := dg2.fusion
      (r.1, relations, dg3.is_empty, dg3)
termination_by (sizeOf stmt, 1)

/-- The per-child loop of `Analysis.compound`: each child is analyzed and
composed; the exit check happens after the composition. -/
def Analysis.compound_items (index : Nat) (items : List Node)
    (relations : RelationList) (dg : DeltaGraph) :
    Nat × RelationList × Bool × DeltaGraph :=
  match items with
  | [] => (index, relations, false, dg)
  | n :: rest =>
    let r := Analysis.compute_relation index n dg
    let relations2 := relations.composition r.2.1
    if r.2.2.1 then (r.1, relations2, true, r.2.2.2)
    else Analysis.compound_items r.1 rest relations2 r.2.2.2
termination_by (sizeOf items, 0)

end


/-! ## Instrumented sort (write log), for the frame/effect analysis

`sort_monomials`'s combining loop executes `monomial = lhead;
monomial.scalar = sum_mwp(lhead.scalar, rhead.scalar)` on `EQUAL`: an
in-place write into the monomial object `lhead`, which (lists are sliced but
monomial objects are shared) belongs to the input list.  The instrumented
variant returns, besides the sorted list, the log of these destructive
writes as pairs (monomial value before the write, scalar written). -/

/-- `mergeMono` with the write log of the `EQUAL` branch. -/
def mergeMonoWrites : List Monomial → List Monomial →
    List Monomial × List (Monomial × Scalar)
  | [], right => (right, [])
  | lh :: lt, [] => (lh :: lt, [])
  | lh :: lt, rh :: rt =>
    match Polynomial.compare lh.deltas rh.deltas with
    | .smaller =>
      let r := mergeMonoWrites lt (rh :: rt)
      (lh :: r.1, r.2)
    | .larger =>
      let r := mergeMonoWrites (lh :: lt) rt
      (rh :: r.1, r.2)
    | .equal =>
      let s := sum_mwp lh.scalar rh.scalar
      let r := mergeMonoWrites lt rt
      if s ≠ Scalar.z then (⟨s, lh.deltas⟩ :: r.1, (lh, s) :: r.2)
      else (r.1, (lh, s) :: r.2)

/-- `sort_monomials` with the write log of its merges. -/
def sortMonomialsWrites (monomials : List Monomial) :
    List Monomial × List (Monomial × Scalar) :=
  if h : monomials.length < 2 then
    match monomials with
    | [] => ([], [])
    | m0 :: rest => if monomialIsZeroStr m0 then ([], [])
      else (m0 :: rest, [])
  else
    let mid := monomials.length / 2
    let lef := sortMonomialsWrites (monomials.drop mid)
    let rig := sortMonomialsWrites (monomials.take mid)
    let mer := mergeMonoWrites lef.1 rig.1
    (mer.1, lef.2 ++ rig.2 ++ mer.2)
termination_by monomials.length
decreasing_by
  · simp only [List.length_drop]; omega
  · simp only [List.length_take]; omega

/-! ## Source-shape facts for the totality and CLI claims -/

/-- The methods defined by `class Polynomial` in src/pymwp/polynomial.py
(in source order). -/
def polynomialClassMethods : List String :=
  ["__init__", "__str__", "__eq__", "__add__", "__mul__", "contains_filter",
   "inclusion", "add_old", "add", "times_old", "times", "eval", "equal",
   "copy", "show", "compare", "sort_monomials"]

/-- Parameters of `RelationList.while_correction` in
src/pymwp/relation_list.py (line 81, `def while_correction(self) -> None`),
excluding `self`. -/
def relationListWhileCorrectionParams : Nat := 0

/-- Arguments passed at the call `relations.while_correction(dg)` in
`Analysis.while_loop` (src/pymwp/analysis.py line 482), excluding the
receiver. -/
def whileLoopWhileCorrectionArgs : Nat := 1

/-- Positional arguments `main` passes to `Analysis.run`
(src/pymwp/__main__.py lines 29–30: `args.file, file_out, args.no_save,
not args.no_cpp, args.cpp, args.cpp_args`). -/
def mainRunCallPositionalArgs : Nat := 6

/-- Positional parameters `Analysis.run` accepts (src/pymwp/analysis.py
line 38: `ast, res, fin, strict`; `**kwargs` collects keywords only). -/
def analysisRunPositionalParams : Nat := 4

/-- The exit-code behaviour of `main` in src/pymwp/__main__.py.  With no
positional input file, `parser.print_help(); sys.exit(1)`.  With an input
file, `main` calls `Analysis.run` with six positional arguments; a Python
call succeeds only when the positional argument count does not exceed the
positional parameter count (no `*args` in `run`'s signature), otherwise the
`TypeError` propagates out of `main` and the interpreter exits with
status 1. -/
def mainExitCode (fileArg : Option String) : Nat :=
  match fileArg with
  | none => 1
  | some _ =>
    if mainRunCallPositionalArgs ≤ analysisRunPositionalParams then 0 else 1

/-! ## Index bookkeeping of the derivation (claim C10) -/

theorem create_vector_index (index : Nat) (op : String)
    (vars3 : Option String × Option String × Option String) :
    (Analysis.create_vector index op vars3).1 = index + 1 := by
  rcases vars3 with ⟨x, y, z⟩
  rfl

theorem binary_op_index (index : Nat) (x : Option String) (op : String)
    (y z : Atom) : (Analysis.binary_op index x op y z).1 = index + 1 := by
  cases x <;> simp [Analysis.binary_op, create_vector_index]

theorem constant_index (index : Nat) (x : String) :
    (Analysis.constant index x).1 = index := rfl

theorem idRule_index (index : Nat) (x : String) (rv : Atom) :
    (Analysis.idRule index x rv).1 = index := by
  cases rv with
  | const _ => rfl
  | var yv =>
    by_cases h : x = yv <;> simp [Analysis.idRule, h]

theorem unary_asgn_index_le (index : Nat) (x : String) (op : String)
    (e : Atom) : index ≤ (Analysis.unary_asgn index x op e).1 := by
  cases e with
  | const _ => exact Nat.le_of_eq (constant_index index x).symm
  | var exp =>
    rw [Analysis.unary_asgn]
    split
    · rw [binary_op_index]; omega
    · split
      · rw [idRule_index]
      · split
        · rw [idRule_index]
        · split
          · rw [idRule_index]
          · split
            · rw [binary_op_index]; omega
            · exact Nat.le_refl index

theorem unary_op_index_le (index : Nat) (op : String) (exp : String) :
    index ≤ (Analysis.unary_op index op exp).1 := by
  rw [Analysis.unary_op]
  split
  · rw [binary_op_index]; omega
  · exact Nat.le_refl index

/-- Joint index monotonicity of the mutually recursive derivation
functions, by strong induction on the node size. -/
theorem mono_all (n : Nat) :
    (∀ node index dg, sizeOf node ≤ n →
      index ≤ (Analysis.compute_relation index node dg).1) ∧
    (∀ t f index dg, sizeOf t + sizeOf f ≤ n →
      index ≤ (Analysis.if_stmt index t f dg).1) ∧
    (∀ onode index rl dg, sizeOf onode ≤ n →
      index ≤ (Analysis.if_branch index onode rl dg).1) ∧
    (∀ items index rl dg, sizeOf items ≤ n →
      index ≤ (Analysis.branch_items index items rl dg).1) ∧
    (∀ stmt index dg, sizeOf stmt ≤ n →
      index ≤ (Analysis.while_loop index stmt dg).1) ∧
    (∀ c x stmt index dg, sizeOf stmt ≤ n →
      index ≤ (Analysis.for_loop index c x stmt dg).1) ∧
    (∀ items index rel dg, sizeOf items ≤ n →
      index ≤ (Analysis.compound_items index items rel dg).1) := by
  induction n using Nat.strong_induction_on with
  | _ n ih =>
    have hcr : ∀ node index dg, sizeOf node ≤ n →
        index ≤ (Analysis.compute_relation index node dg).1 := by
      intro node index dg hsz
      cases node with
      | ret => rw [Analysis.compute_relation]
      | brk => rw [Analysis.compute_relation]
      | cont => rw [Analysis.compute_relation]
      | empty => rw [Analysis.compute_relation]
      | decl => rw [Analysis.compute_relation]
      | assign x rhs =>
        cases rhs with
        | binOp op y z =>
          rw [Analysis.compute_relation]
          simp [binary_op_index]
        | constE c =>
          rw [Analysis.compute_relation]
          simp [constant_index]
        | unaryE op e =>
          rw [Analysis.compute_relation]
          simpa using unary_asgn_index_le index x op e
        | varE y =>
          rw [Analysis.compute_relation]
          simp [idRule_index]
      | stmtUnary op exp =>
        rw [Analysis.compute_relation]
        simpa using unary_op_index_le index op exp
      | ifStmt t f =>
        rw [Analysis.compute_relation]
        have hn : sizeOf t + sizeOf f < n := by
          simp only [Node.ifStmt.sizeOf_spec] at hsz; omega
        exact ((ih _ hn).2.1) t f index dg (Nat.le_refl _)
      | whileLoop stmt =>
        rw [Analysis.compute_relation]
        have hn : sizeOf stmt < n := by
          simp only [Node.whileLoop.sizeOf_spec] at hsz; omega
        exact ((ih _ hn).2.2.2.2.1) stmt index dg (Nat.le_refl _)
      | forLoop c x stmt =>
        rw [Analysis.compute_relation]
        have hn : sizeOf stmt < n := by
          simp only [Node.forLoop.sizeOf_spec] at hsz
          cases c <;> simp at hsz <;> omega
        exact ((ih _ hn).2.2.2.2.2.1) c x stmt index dg (Nat.le_refl _)
      | compound items =>
        rw [Analysis.compute_relation]
        have hn : sizeOf items < n := by
          simp only [Node.compound.sizeOf_spec] at hsz; omega
        exact ((ih _ hn).2.2.2.2.2.2) items index _ dg (Nat.le_refl _)
      | funcCall name => rw [Analysis.compute_relation]
    refine ⟨hcr, ?_, ?_, ?_, ?_, ?_, ?_⟩
    · -- if_stmt
      intro t f index dg hsz
      have h1 : 0 < sizeOf t := by cases t <;> simp
      have h2 : 0 < sizeOf f := by cases f <;> simp
      have hbt : sizeOf t < n := by omega
      have hbf : sizeOf f < n := by omega
      have hb1 := ((ih _ hbt).2.2.1) t index RelationList.empty dg
        (Nat.le_refl _)
      have hb2 := ((ih _ hbf).2.2.1) f
        (Analysis.if_branch index t RelationList.empty dg).1
        RelationList.empty
        (Analysis.if_branch index t RelationList.empty dg).2.2.2
        (Nat.le_refl _)
      rw [Analysis.if_stmt]
      cases ht1 : (Analysis.if_branch index t RelationList.empty dg).2.1
      · simp only [ht1, Bool.false_eq_true, if_false]
        cases hf1 : (Analysis.if_branch
            (Analysis.if_branch index t RelationList.empty dg).1 f
            RelationList.empty
            (Analysis.if_branch index t RelationList.empty dg).2.2.2).2.1
        · simp only [hf1, Bool.false_eq_true, if_false]
          omega
        · simp only [hf1, if_true]
          omega
      · simp only [ht1, if_true]
        exact hb1
    · -- if_branch
      intro onode index rl dg hsz
      cases onode with
      | none => rw [Analysis.if_branch]
      | some nd =>
        cases nd with
        | compound items =>
          rw [Analysis.if_branch]
          have hn : sizeOf items < n := by
            simp only [Option.some.sizeOf_spec, Node.compound.sizeOf_spec]
              at hsz
            omega
          exact ((ih _ hn).2.2.2.1) items index rl dg (Nat.le_refl _)
        | ret =>
          have hle := hcr Node.ret index dg (by simp at hsz ⊢; omega)
          rw [Analysis.if_branch] <;>
            first
              | (cases hr : (Analysis.compute_relation index Node.ret
                    dg).2.2.1 <;>
                  simp only [hr, Bool.false_eq_true, if_false, if_true] <;>
                  omega)
              | simp
        | brk =>
          have hle := hcr Node.brk index dg (by simp at hsz ⊢; omega)
          rw [Analysis.if_branch] <;>
            first
              | (cases hr : (Analysis.compute_relation index Node.brk
                    dg).2.2.1 <;>
                  simp only [hr, Bool.false_eq_true, if_false, if_true] <;>
                  omega)
              | simp
        | cont =>
          have hle := hcr Node.cont index dg (by simp at hsz ⊢; omega)
          rw [Analysis.if_branch] <;>
            first
              | (cases hr : (Analysis.compute_relation index Node.cont
                    dg).2.2.1 <;>
                  simp only [hr, Bool.false_eq_true, if_false, if_true] <;>
                  omega)
              | simp
        | empty =>
          have hle := hcr Node.empty index dg (by simp at hsz ⊢; omega)
          rw [Analysis.if_branch] <;>
            first
              | (cases hr : (Analysis.compute_relation index Node.empty
                    dg).2.2.1 <;>
                  simp only [hr, Bool.false_eq_true, if_false, if_true] <;>
                  omega)
              | simp
        | decl =>
          have hle := hcr Node.decl index dg (by simp at hsz ⊢; omega)
          rw [Analysis.if_branch] <;>
            first
              | (cases hr : (Analysis.compute_relation index Node.decl
                    dg).2.2.1 <;>
                  simp only [hr, Bool.false_eq_true, if_false, if_true] <;>
                  omega)
              | simp
        | assign x rhs =>
          have hle := hcr (Node.assign x rhs) index dg
            (by simp only [Option.some.sizeOf_spec] at hsz; omega)
          rw [Analysis.if_branch] <;>
            first
              | (cases hr : (Analysis.compute_relation index
                    (Node.assign x rhs) dg).2.2.1 <;>
                  simp only [hr, Bool.false_eq_true, if_false, if_true] <;>
                  omega)
              | simp
        | stmtUnary op exp =>
          have hle := hcr (Node.stmtUnary op exp) index dg
            (by simp only [Option.some.sizeOf_spec] at hsz; omega)
          rw [Analysis.if_branch] <;>
            first
              | (cases hr : (Analysis.compute_relation index
                    (Node.stmtUnary op exp) dg).2.2.1 <;>
                  simp only [hr, Bool.false_eq_true, if_false, if_true] <;>
                  omega)
              | simp
        | ifStmt t f =>
          have hle := hcr (Node.ifStmt t f) index dg
            (by simp only [Option.some.sizeOf_spec] at hsz; omega)
          rw [Analysis.if_branch] <;>
            first
              | (cases hr : (Analysis.compute_relation index
                    (Node.ifStmt t f) dg).2.2.1 <;>
                  simp only [hr, Bool.false_eq_true, if_false, if_true] <;>
                  omega)
              | simp
        | whileLoop stmt =>
          have hle := hcr (Node.whileLoop stmt) index dg
            (by simp only [Option.some.sizeOf_spec] at hsz; omega)
          rw [Analysis.if_branch] <;>
            first
              | (cases hr : (Analysis.compute_relation index
                    (Node.whileLoop stmt) dg).2.2.1 <;>
                  simp only [hr, Bool.false_eq_true, if_false, if_true] <;>
                  omega)
              | simp
        | forLoop c x stmt =>
          have hle := hcr (Node.forLoop c x stmt) index dg
            (by simp only [Option.some.sizeOf_spec] at hsz; omega)
          rw [Analysis.if_branch] <;>
            first
              | (cases hr : (Analysis.compute_relation index
                    (Node.forLoop c x stmt) dg).2.2.1 <;>
                  simp only [hr, Bool.false_eq_true, if_false, if_true] <;>
                  omega)
              | simp
        | funcCall name =>
          have hle := hcr (Node.funcCall name) index dg
            (by simp only [Option.some.sizeOf_spec] at hsz; omega)
          rw [Analysis.if_branch] <;>
            first
              | (cases hr : (Analysis.compute_relation index
                    (Node.funcCall name) dg).2.2.1 <;>
                  simp only [hr, Bool.false_eq_true, if_false, if_true] <;>
                  omega)
              | simp
    · -- branch_items
      intro items index rl dg hsz
      cases items with
      | nil => rw [Analysis.branch_items]
      | cons nd rest =>
        have h1 := hcr nd index dg
          (by simp only [List.cons.sizeOf_spec] at hsz; omega)
        have hrest : sizeOf rest < n := by
          have hp : 0 < sizeOf nd := by cases nd <;> simp
          simp only [List.cons.sizeOf_spec] at hsz; omega
        have h2 := ((ih _ hrest).2.2.2.1) rest
          (Analysis.compute_relation index nd dg).1
          (rl.composition (Analysis.compute_relation index nd dg).2.1)
          (Analysis.compute_relation index nd dg).2.2.2 (Nat.le_refl _)
        rw [Analysis.branch_items]
        cases hr : (Analysis.compute_relation index nd dg).2.2.1 <;>
          simp only [hr, Bool.false_eq_true, if_false, if_true] <;> omega
    · -- while_loop
      intro stmt index dg hsz
      have h1 := hcr stmt index dg hsz
      rw [Analysis.while_loop]
      cases hr : (Analysis.compute_relation index stmt dg).2.2.1 <;>
        simp only [hr, Bool.false_eq_true, if_false, if_true] <;> omega
    · -- for_loop
      intro c x stmt index dg hsz
      have h1 := hcr stmt index dg hsz
      rw [Analysis.for_loop]
      cases c with
      | false => simp
      | true =>
        simp only [Bool.not_true, Bool.false_eq_true, if_false]
        cases hr : (Analysis.compute_relation index stmt dg).2.2.1 <;>
          simp only [hr, Bool.false_eq_true, if_false, if_true] <;> omega
    · -- compound_items
      intro items index rel dg hsz
      cases items with
      | nil => rw [Analysis.compound_items]
      | cons nd rest =>
        have h1 := hcr nd index dg
          (by simp only [List.cons.sizeOf_spec] at hsz; omega)
        have hrest : sizeOf rest < n := by
          have hp : 0 < sizeOf nd := by cases nd <;> simp
          simp only [List.cons.sizeOf_spec] at hsz; omega
        have h2 := ((ih _ hrest).2.2.2.2.2.2) rest
          (Analysis.compute_relation index nd dg).1
          (rel.composition (Analysis.compute_relation index nd dg).2.1)
          (Analysis.compute_relation index nd dg).2.2.2 (Nat.le_refl _)
        rw [Analysis.compound_items]
        cases hr : (Analysis.compute_relation index nd dg).2.2.1 <;>
          simp only [hr, Bool.false_eq_true, if_false, if_true] <;> omega

/-! ## Evaluation toolkit -/

/-- Evaluation as a plain left fold, without the early exit of the source's
loop. -/
def evalFold (l : List Monomial) (v : List Nat) : Scalar :=
  l.foldl (fun acc mo => sum_mwp acc (mo.eval v)) Scalar.z

theorem sum_mwp_left_comm (a b c : Scalar) :
    sum_mwp a (sum_mwp b c) = sum_mwp b (sum_mwp a c) := by
  cases a <;> cases b <;> cases c <;> rfl

theorem evalGo_eq_foldl (v : List Nat) (l : List Monomial) (acc : Scalar) :
    evalGo v l acc = l.foldl (fun a mo => sum_mwp a (mo.eval v)) acc := by
  induction l generalizing acc with
  | nil => rfl
  | cons mo rest ih =>
    rw [evalGo]
    simp only [List.foldl_cons]
    split
    · rename_i hi
      rw [← ih (sum_mwp acc (mo.eval v))]
      rw [hi]
      clear ih hi
      induction rest with
      | nil => rfl
      | cons x xs ihx =>
        rw [evalGo]
        simp [sum_mwp_i]
    · exact ih _

theorem eval_eq_evalFold (p : List Monomial) (v : List Nat) :
    Polynomial.eval p v = evalFold p v := by
  unfold Polynomial.eval evalFold
  exact evalGo_eq_foldl v p Scalar.z

theorem foldl_sum_shift (l : List Monomial) (v : List Nat) (acc : Scalar) :
    l.foldl (fun a mo => sum_mwp a (mo.eval v)) acc
      = sum_mwp acc (evalFold l v) := by
  induction l generalizing acc with
  | nil => simp [evalFold, sum_mwp_z_right]
  | cons mo rest ih =>
    simp only [evalFold, List.foldl_cons] at *
    rw [ih, ih (sum_mwp Scalar.z (mo.eval v)), sum_mwp_z, ← sum_mwp_assoc]

theorem evalFold_cons (mo : Monomial) (l : List Monomial) (v : List Nat) :
    evalFold (mo :: l) v = sum_mwp (mo.eval v) (evalFold l v) := by
  unfold evalFold
  simp only [List.foldl_cons]
  rw [foldl_sum_shift, sum_mwp_z]
  rfl

theorem evalFold_append (a b : List Monomial) (v : List Nat) :
    evalFold (a ++ b) v = sum_mwp (evalFold a v) (evalFold b v) := by
  induction a with
  | nil => simp [evalFold, sum_mwp_z]
  | cons mo rest ih =>
    rw [List.cons_append, evalFold_cons, ih, evalFold_cons, sum_mwp_assoc]

theorem evalFold_nil (v : List Nat) : evalFold [] v = Scalar.z := rfl

/-- Pointwise absorption: a subsuming monomial dominates the subsumed one at
every choice vector. -/
theorem subsumes_eval_absorb {x y : Monomial} (h : subsumes x y = true)
    (v : List Nat) : sum_mwp (x.eval v) (y.eval v) = x.eval v := by
  simp only [subsumes, Bool.and_eq_true, List.all_eq_true,
    decide_eq_true_eq] at h
  obtain ⟨hsub, hsc⟩ := h
  unfold Monomial.eval
  by_cases hy : y.deltas.all (fun d => v.get? d.2 == some d.1)
  · have hx : x.deltas.all (fun d => v.get? d.2 == some d.1) = true := by
      simp only [List.all_eq_true] at hy ⊢
      intro d hd
      exact hy d (by simpa using hsub d hd)
    rw [if_pos hx, if_pos hy]
    unfold sum_mwp
    rw [if_pos hsc]
  · rw [if_neg hy]
    split
    · exact sum_mwp_z_right _
    · exact sum_mwp_z_right _

/-- An element of the list that subsumes `y` absorbs `y`'s evaluation into
the fold. -/
theorem evalFold_absorb_of_mem {l : List Monomial} {x y : Monomial}
    (hx : x ∈ l) (h : subsumes x y = true) (v : List Nat) :
    sum_mwp (evalFold l v) (y.eval v) = evalFold l v := by
  induction l with
  | nil => cases hx
  | cons a rest ih =>
    rw [evalFold_cons]
    cases hx with
    | head =>
      rw [sum_mwp_assoc, sum_mwp_comm (evalFold rest v) (y.eval v),
        ← sum_mwp_assoc, subsumes_eval_absorb h]
    | tail _ hmem =>
      rw [sum_mwp_assoc, ih hmem]

theorem evalFold_removeFirst {l : List Monomial} {m : Monomial}
    (hm2 : m ∈ l) (v : List Nat) :
    sum_mwp (evalFold (removeFirst l m) v) (m.eval v) = evalFold l v := by
  induction l with
  | nil => cases hm2
  | cons a rest ih =>
    by_cases ha : a = m
    · subst ha
      simp only [removeFirst, if_pos rfl]
      rw [evalFold_cons]
      exact sum_mwp_comm _ _
    · have hmem : m ∈ rest := by
        cases hm2 with
        | head => exact absurd rfl ha
        | tail _ h => exact h
      simp only [removeFirst, if_neg ha]
      rw [evalFold_cons, evalFold_cons, sum_mwp_assoc, ih hmem]

theorem inclusion_contains_iff (a b : Monomial) :
    Monomial.inclusion a b = .contains ↔ subsumes b a = true := by
  unfold Monomial.inclusion
  split
  · simp_all
  · split <;> simp_all

theorem inclusion_included_imp {a b : Monomial}
    (h : Monomial.inclusion a b = .included) : subsumes a b = true := by
  unfold Monomial.inclusion at h
  split at h
  · cases h
  · split at h
    · assumption
    · cases h

theorem monomial_eval_fuse (s1 s2 : Scalar) (d : List Delta) (v : List Nat) :
    (⟨sum_mwp s1 s2, d⟩ : Monomial).eval v
      = sum_mwp ((⟨s1, d⟩ : Monomial).eval v) ((⟨s2, d⟩ : Monomial).eval v)
    := by
  unfold Monomial.eval
  simp only
  split
  · rfl
  · rfl

theorem evalFold_insertIdx (l : List Monomial) (k : Nat) (x : Monomial)
    (v : List Nat) (hk : k ≤ l.length) :
    evalFold (l.insertIdx k x) v = sum_mwp (x.eval v) (evalFold l v) := by
  induction l generalizing k with
  | nil =>
    have : k = 0 := by simpa using hk
    subst this
    simp [List.insertIdx, evalFold_cons]
  | cons a rest ih =>
    cases k with
    | zero => simp [List.insertIdx, evalFold_cons]
    | succ k =>
      have hk2 : k ≤ rest.length := by simpa using hk
      simp only [List.insertIdx_succ_cons]
      rw [evalFold_cons, ih k hk2, evalFold_cons, sum_mwp_left_comm]

theorem evalFold_set_fuse (l : List Monomial) (k : Nat) (v : List Nat)
    (h : k < l.length) (x : Monomial) (b : Scalar)
    (hx : x.eval v = sum_mwp ((l.get ⟨k, h⟩).eval v) b) :
    evalFold (l.set k x) v = sum_mwp (evalFold l v) b := by
  induction l generalizing k with
  | nil => simp at h
  | cons a rest ih =>
    cases k with
    | zero =>
      simp only [List.set, List.get] at hx ⊢
      rw [evalFold_cons, hx, evalFold_cons, sum_mwp_assoc,
        sum_mwp_comm b (evalFold rest v), ← sum_mwp_assoc]
    | succ k =>
      have h2 : k < rest.length := by simpa using h
      simp only [List.set, List.get] at hx ⊢
      rw [evalFold_cons, evalFold_cons, ih k h2 hx, sum_mwp_assoc]

theorem sum_mwp_idem_left (a b : Scalar) :
    sum_mwp a (sum_mwp a b) = sum_mwp a b := by
  cases a <;> cases b <;> rfl

theorem sum_dup_mid (a b c : Scalar) :
    sum_mwp (sum_mwp a b) (sum_mwp b c) = sum_mwp (sum_mwp a b) c := by
  rw [sum_mwp_assoc a b (sum_mwp b c), sum_mwp_idem_left, ← sum_mwp_assoc]

theorem sum_absorb_mid {k r me M : Scalar} (h : sum_mwp M me = M) :
    sum_mwp (sum_mwp k (sum_mwp me r)) M = sum_mwp (sum_mwp k r) M := by
  rw [sum_mwp_assoc k (sum_mwp me r) M, sum_mwp_assoc me r M,
    sum_mwp_left_comm me r M, sum_mwp_comm me M, h, ← sum_mwp_assoc]

/-- The filtered list of `contains_filter` has the same `⊕`-sum as the
input, once joined with the filtering monomial: every removed element is
subsumed by it. -/
theorem cf_eval (rest : List Monomial) (kept : List Monomial)
    (mono : Monomial) (i : Nat) (v : List Nat) :
    sum_mwp (evalFold (containsFilterGo kept rest mono i).2.2 v)
        (mono.eval v)
      = sum_mwp (evalFold (kept ++ rest) v) (mono.eval v) := by
  induction rest generalizing kept i with
  | nil => simp [containsFilterGo]
  | cons m rest2 ih =>
    rw [containsFilterGo]
    cases hinc : Monomial.inclusion m mono with
    | contains =>
      have hsub : subsumes mono m = true :=
        (inclusion_contains_iff m mono).mp hinc
      have habs := subsumes_eval_absorb hsub v
      simp only
      split
      · rename_i hmem
        have hm : m ∈ kept := by simpa using hmem
        have hrm := evalFold_removeFirst hm v
        rw [ih, evalFold_append, evalFold_append, evalFold_cons,
          evalFold_nil, sum_mwp_z_right, evalFold_append, evalFold_cons,
          ← hrm, sum_dup_mid]
      · rw [ih, evalFold_append, evalFold_append, evalFold_cons,
          sum_absorb_mid habs]
    | included => simp only
    | empty =>
      simp only
      rw [ih]
      rw [List.append_assoc, List.singleton_append]

/-- A `CONTAINS` verdict of `contains_filter` pins a member of the
returned list that subsumes the candidate monomial. -/
theorem cf_contains_mem (rest kept : List Monomial) (mono : Monomial)
    (i : Nat)
    (h : (containsFilterGo kept rest mono i).1 = .contains) :
    ∃ x, x ∈ (containsFilterGo kept rest mono i).2.2 ∧
      subsumes x mono = true := by
  induction rest generalizing kept i with
  | nil => simp [containsFilterGo] at h
  | cons m rest2 ih =>
    rw [containsFilterGo] at h ⊢
    cases hinc : Monomial.inclusion m mono with
    | contains =>
      rw [hinc] at h
      simp only at h ⊢
      cases hmem : kept.contains m with
      | false =>
        simp only [hmem, Bool.false_eq_true, if_false] at h ⊢
        exact ih _ _ h
      | true =>
        simp only [hmem, if_true] at h ⊢
        exact ih _ _ h
    | included =>
      rw [hinc] at h
      simp only at h ⊢
      exact ⟨m, by simp, inclusion_included_imp hinc⟩
    | empty =>
      rw [hinc] at h
      simp only at h ⊢
      exact ih _ _ h

/-- When `Polynomial.inclusion` accepts the monomial, the filtered list and
the original input have the same `⊕`-sum once joined with the monomial. -/
theorem inclusionFn_true_eval {newList : List Monomial} {mono : Monomial}
    {i i2 : Nat} {nl2 : List Monomial}
    (h : inclusionFn newList mono i = (true, i2, nl2)) (v : List Nat) :
    sum_mwp (evalFold nl2 v) (mono.eval v)
      = sum_mwp (evalFold newList v) (mono.eval v) := by
  have hc := cf_eval newList [] mono i v
  unfold inclusionFn at h
  cases hgo : containsFilterGo [] newList mono i with
  | mk verdict pr =>
    obtain ⟨i3, l3⟩ := pr
    rw [hgo] at h hc
    simp only [List.nil_append] at hc
    cases verdict with
    | contains => simp at h
    | included =>
      simp only at h
      obtain ⟨rfl, rfl⟩ : i3 = i2 ∧ l3 = nl2 := by simpa using h
      exact hc
    | empty =>
      simp only at h
      obtain ⟨rfl, rfl⟩ : i3 = i2 ∧ l3 = nl2 := by simpa using h
      exact hc

/-- When `Polynomial.inclusion` rejects the monomial, the monomial is
already absorbed: the filtered list's `⊕`-sum swallows it. -/
theorem inclusionFn_false_eval {newList : List Monomial} {mono : Monomial}
    {i i2 : Nat} {nl2 : List Monomial}
    (h : inclusionFn newList mono i = (false, i2, nl2)) (v : List Nat) :
    evalFold nl2 v = sum_mwp (evalFold newList v) (mono.eval v) := by
  have hc := cf_eval newList [] mono i v
  unfold inclusionFn at h
  cases hgo : containsFilterGo [] newList mono i with
  | mk verdict pr =>
    obtain ⟨i3, l3⟩ := pr
    rw [hgo] at h hc
    simp only [List.nil_append] at hc
    cases verdict with
    | contains =>
      simp only at h
      obtain ⟨rfl, rfl⟩ : i3 = i2 ∧ l3 = nl2 := by simpa using h
      have hmem := cf_contains_mem newList [] mono i (by rw [hgo])
      rw [hgo] at hmem
      simp only at hmem
      obtain ⟨x, hx, hsub⟩ := hmem
      have habs := evalFold_absorb_of_mem hx hsub v
      rw [← habs, hc]
    | included => simp at h
    | empty => simp at h

theorem inclusionFn_true_eval_nil {newList : List Monomial}
    {mono : Monomial} {i i2 : Nat}
    (h : inclusionFn newList mono i = (true, i2, [])) (v : List Nat) :
    mono.eval v = sum_mwp (evalFold newList v) (mono.eval v) := by
  have hk := inclusionFn_true_eval h v
  rw [evalFold_nil, sum_mwp_z] at hk
  exact hk

theorem drop_get_cons {l : List Monomial} {j : Nat} (h : j < l.length) :
    l.drop j = l.get ⟨j, h⟩ :: l.drop (j + 1) := by
  induction l generalizing j with
  | nil => simp at h
  | cons a rest ih =>
    cases j with
    | zero => rfl
    | succ j =>
      have h2 : j < rest.length := by simpa using h
      simp only [List.drop_succ_cons, List.get]
      exact ih h2

theorem addRestFold_fold_eval (l : List Monomial) (nl : List Monomial)
    (i : Nat) (v : List Nat) :
    evalFold ((l.foldl (fun st m =>
      match inclusionFn st.1 m st.2 with
      | (true, i2, nl2) => (nl2 ++ [m], i2)
      | (false, i2, nl2) => (nl2, i2)) (nl, i)).1) v
      = sum_mwp (evalFold nl v) (evalFold l v) := by
  induction l generalizing nl i with
  | nil => simp [evalFold_nil, sum_mwp_z_right]
  | cons m rest ih =>
    simp only [List.foldl_cons]
    cases hfn : inclusionFn nl m i with
    | mk b pr =>
      obtain ⟨i2, nl2⟩ := pr
      cases b with
      | true =>
        simp only [hfn]
        rw [ih, evalFold_append, evalFold_cons, evalFold_nil,
          sum_mwp_z_right, inclusionFn_true_eval hfn v, evalFold_cons,
          sum_mwp_assoc]
      | false =>
        simp only [hfn]
        rw [ih, inclusionFn_false_eval hfn v, evalFold_cons, sum_mwp_assoc]

/-- The trailing `for m in polynomial.list[j:]` loop of `Polynomial.add`
adds exactly the `⊕`-sum of the remaining monomials. -/
theorem addRestFold_eval (qs : List Monomial) (j : Nat)
    (nl : List Monomial) (i : Nat) (v : List Nat) :
    evalFold (addRestFold qs j nl i) v
      = sum_mwp (evalFold nl v) (evalFold (qs.drop j) v) := by
  unfold addRestFold
  exact addRestFold_fold_eval (qs.drop j) nl i v

theorem sum_key_absorb {n2 a m2 r : Scalar}
    (key : sum_mwp n2 m2 = sum_mwp a m2) :
    sum_mwp n2 (sum_mwp m2 r) = sum_mwp a (sum_mwp m2 r) := by
  rw [← sum_mwp_assoc, key, sum_mwp_assoc]

theorem sum_key_absorb_bulk {a m2 r : Scalar}
    (key : m2 = sum_mwp a m2) :
    sum_mwp (sum_mwp m2 r) (sum_mwp m2 r) = sum_mwp a (sum_mwp m2 r) := by
  rw [sum_mwp_idem, ← sum_mwp_assoc, ← key]

theorem sum_bulk_insert (b r : Scalar) :
    sum_mwp (sum_mwp b (sum_mwp b r)) r = sum_mwp b r := by
  cases b <;> cases r <;> rfl

theorem sum_key_insert {n2 a m2 r : Scalar}
    (key : sum_mwp n2 m2 = sum_mwp a m2) :
    sum_mwp (sum_mwp m2 n2) r = sum_mwp a (sum_mwp m2 r) := by
  rw [sum_mwp_comm m2 n2, key, sum_mwp_assoc]

theorem sum_key_insert_bulk {a m2 r : Scalar}
    (key : m2 = sum_mwp a m2) :
    sum_mwp (sum_mwp m2 (sum_mwp m2 r)) r = sum_mwp a (sum_mwp m2 r) := by
  rw [sum_bulk_insert, ← sum_mwp_assoc, ← key]

theorem sum_bulk_set (b r : Scalar) :
    sum_mwp (sum_mwp (sum_mwp b r) b) r = sum_mwp b r := by
  cases b <;> cases r <;> rfl

theorem sum_key_set {n2 a m2 r : Scalar}
    (key : sum_mwp n2 m2 = sum_mwp a m2) :
    sum_mwp (sum_mwp n2 m2) r = sum_mwp a (sum_mwp m2 r) := by
  rw [key, sum_mwp_assoc]

theorem sum_key_set_bulk {a m2 r : Scalar}
    (key : m2 = sum_mwp a m2) :
    sum_mwp (sum_mwp (sum_mwp m2 r) m2) r = sum_mwp a (sum_mwp m2 r) := by
  rw [sum_bulk_set, ← sum_mwp_assoc, ← key]

theorem sum_exchange (a b c d : Scalar) :
    sum_mwp (sum_mwp a b) (sum_mwp c d)
      = sum_mwp (sum_mwp a c) (sum_mwp b d) := by
  rw [sum_mwp_assoc, sum_mwp_left_comm b c d, ← sum_mwp_assoc]

theorem sum_mwp_eq_z {a b : Scalar} (h : sum_mwp a b = Scalar.z) :
    a = Scalar.z ∧ b = Scalar.z := by
  cases a <;> cases b <;> revert h <;> decide

theorem monomial_eval_scalar_z {mo : Monomial} (h : mo.scalar = Scalar.z)
    (v : List Nat) : mo.eval v = Scalar.z := by
  unfold Monomial.eval
  rw [h]
  split <;> rfl

/-! Unfolding lemmas for the `while j < poly_len` loop of
`Polynomial.add`, one per reachable branch. -/

theorem addGo_step_done (qs newList : List Monomial) (i j : Nat)
    (h : ¬ j < qs.length) :
    addGo qs newList i j = newList := by
  rw [addGo, dif_neg h]

theorem addGo_step_false {qs newList : List Monomial} {i j : Nat}
    {i2 : Nat} {nl2 : List Monomial} (h : j < qs.length)
    (hinc : inclusionFn newList (qs.get ⟨j, h⟩) i = (false, i2, nl2)) :
    addGo qs newList i j = addGo qs nl2 i2 (j + 1) := by
  rw [addGo, dif_pos h]
  simp only [dite_eq_ite]
  split
  · rename_i i2b nl2b heq
    rw [hinc] at heq
    obtain ⟨rfl, rfl⟩ : i2 = i2b ∧ nl2 = nl2b := by simpa using heq
    rfl
  · rename_i i2b nl2b heq
    rw [hinc] at heq
    simp at heq

theorem addGo_step_rest {qs newList : List Monomial} {i j i2 : Nat}
    {nl2 : List Monomial} (h : j < qs.length)
    (hinc : inclusionFn newList (qs.get ⟨j, h⟩) i = (true, i2, nl2))
    (hlen : min i2 nl2.length
        = (if nl2 = [] then nl2 ++ qs.drop j else nl2).length) :
    addGo qs newList i j
      = addRestFold qs j (if nl2 = [] then nl2 ++ qs.drop j else nl2)
          (min i2 nl2.length) := by
  rw [addGo, dif_pos h]
  simp only [dite_eq_ite]
  split
  · rename_i i2b nl2b heq
    rw [hinc] at heq
    simp at heq
  · rename_i i2b nl2b heq
    rw [hinc] at heq
    obtain ⟨rfl, rfl⟩ : i2 = i2b ∧ nl2 = nl2b := by simpa using heq
    rw [if_pos hlen]

theorem addGo_step_smaller {qs newList : List Monomial} {i j i2 : Nat}
    {nl2 : List Monomial} (h : j < qs.length)
    (hinc : inclusionFn newList (qs.get ⟨j, h⟩) i = (true, i2, nl2))
    (hne : ¬ min i2 nl2.length
        = (if nl2 = [] then nl2 ++ qs.drop j else nl2).length)
    (h2 : min i2 nl2.length
        < (if nl2 = [] then nl2 ++ qs.drop j else nl2).length)
    (hcmp : Polynomial.compare
        (((if nl2 = [] then nl2 ++ qs.drop j else nl2).get
          ⟨min i2 nl2.length, h2⟩).deltas) ((qs.get ⟨j, h⟩).deltas)
        = .smaller) :
    addGo qs newList i j
      = addGo qs (if nl2 = [] then nl2 ++ qs.drop j else nl2)
          (min i2 nl2.length + 1) j := by
  rw [addGo, dif_pos h]
  simp only [dite_eq_ite]
  split
  · rename_i i2b nl2b heq
    rw [hinc] at heq
    simp at heq
  · rename_i i2b nl2b heq
    rw [hinc] at heq
    obtain ⟨rfl, rfl⟩ : i2 = i2b ∧ nl2 = nl2b := by simpa using heq
    rw [if_neg hne, dif_pos h2]
    split
    · rfl
    · rename_i heq2
      rw [hcmp] at heq2
      cases heq2
    · rename_i heq2
      rw [hcmp] at heq2
      cases heq2

theorem addGo_step_larger {qs newList : List Monomial} {i j i2 : Nat}
    {nl2 : List Monomial} (h : j < qs.length)
    (hinc : inclusionFn newList (qs.get ⟨j, h⟩) i = (true, i2, nl2))
    (hne : ¬ min i2 nl2.length
        = (if nl2 = [] then nl2 ++ qs.drop j else nl2).length)
    (h2 : min i2 nl2.length
        < (if nl2 = [] then nl2 ++ qs.drop j else nl2).length)
    (hcmp : Polynomial.compare
        (((if nl2 = [] then nl2 ++ qs.drop j else nl2).get
          ⟨min i2 nl2.length, h2⟩).deltas) ((qs.get ⟨j, h⟩).deltas)
        = .larger) :
    addGo qs newList i j
      = addGo qs ((if nl2 = [] then nl2 ++ qs.drop j else nl2).insertIdx
            (min i2 nl2.length) (qs.get ⟨j, h⟩))
          (min i2 nl2.length + 1) (j + 1) := by
  rw [addGo, dif_pos h]
  simp only [dite_eq_ite]
  split
  · rename_i i2b nl2b heq
    rw [hinc] at heq
    simp at heq
  · rename_i i2b nl2b heq
    rw [hinc] at heq
    obtain ⟨rfl, rfl⟩ : i2 = i2b ∧ nl2 = nl2b := by simpa using heq
    rw [if_neg hne, dif_pos h2]
    split
    · rename_i heq2
      rw [hcmp] at heq2
      cases heq2
    · rfl
    · rename_i heq2
      rw [hcmp] at heq2
      cases heq2

theorem addGo_step_equal {qs newList : List Monomial} {i j i2 : Nat}
    {nl2 : List Monomial} (h : j < qs.length)
    (hinc : inclusionFn newList (qs.get ⟨j, h⟩) i = (true, i2, nl2))
    (hne : ¬ min i2 nl2.length
        = (if nl2 = [] then nl2 ++ qs.drop j else nl2).length)
    (h2 : min i2 nl2.length
        < (if nl2 = [] then nl2 ++ qs.drop j else nl2).length)
    (hcmp : Polynomial.compare
        (((if nl2 = [] then nl2 ++ qs.drop j else nl2).get
          ⟨min i2 nl2.length, h2⟩).deltas) ((qs.get ⟨j, h⟩).deltas)
        = .equal) :
    addGo qs newList i j
      = addGo qs ((if nl2 = [] then nl2 ++ qs.drop j else nl2).set
            (min i2 nl2.length)
            ⟨sum_mwp (((if nl2 = [] then nl2 ++ qs.drop j else nl2).get
                ⟨min i2 nl2.length, h2⟩).scalar) ((qs.get ⟨j, h⟩).scalar),
              ((if nl2 = [] then nl2 ++ qs.drop j else nl2).get
                ⟨min i2 nl2.length, h2⟩).deltas⟩)
          (min i2 nl2.length) (j + 1) := by
  rw [addGo, dif_pos h]
  simp only [dite_eq_ite]
  split
  · rename_i i2b nl2b heq
    rw [hinc] at heq
    simp at heq
  · rename_i i2b nl2b heq
    rw [hinc] at heq
    obtain ⟨rfl, rfl⟩ : i2 = i2b ∧ nl2 = nl2b := by simpa using heq
    rw [if_neg hne, dif_pos h2]
    split
    · rename_i heq2
      rw [hcmp] at heq2
      cases heq2
    · rename_i heq2
      rw [hcmp] at heq2
      cases heq2
    · rfl

/-- Joining the (possibly bulk-extended) accumulator with the remainder of
the second polynomial has the same `⊕`-sum as joining the original
accumulator, once the filtering monomial's verdict was `true`. -/
theorem nl3_sum_eval {qs newList : List Monomial} {i j i2 : Nat}
    {nl2 : List Monomial} (h : j < qs.length)
    (hinc : inclusionFn newList (qs.get ⟨j, h⟩) i = (true, i2, nl2))
    (v : List Nat) :
    sum_mwp (evalFold (if nl2 = [] then nl2 ++ qs.drop j else nl2) v)
        (evalFold (qs.drop j) v)
      = sum_mwp (evalFold newList v) (evalFold (qs.drop j) v) := by
  by_cases hb : nl2 = []
  · subst hb
    have key2 := inclusionFn_true_eval_nil hinc v
    rw [if_pos rfl, List.nil_append, drop_get_cons h, evalFold_cons]
    exact sum_key_absorb_bulk key2
  · have key := inclusionFn_true_eval hinc v
    rw [if_neg hb, drop_get_cons h, evalFold_cons]
    exact sum_key_absorb key

/-- The main loop of `Polynomial.add` computes the `⊕`-sum of the
accumulator and the unprocessed tail of the second polynomial. -/
theorem addGo_eval (qs newList : List Monomial) (i j : Nat)
    (v : List Nat) :
    evalFold (addGo qs newList i j) v
      = sum_mwp (evalFold newList v) (evalFold (qs.drop j) v) := by
  induction newList, i, j using addGo.induct with
  | qs => exact qs
  | case1 newList i j h mono2 i2 nl2 hinc IH =>
    unfold_let mono2 at hinc
    rw [addGo_step_false h hinc, IH, inclusionFn_false_eval hinc v,
      drop_get_cons h, evalFold_cons, sum_mwp_assoc]
  | case2 newList i j h mono2 i2 nl2 hinc i3 nl3 hlen =>
    unfold_let mono2 at hinc
    unfold_let i3 nl3 at hlen
    simp only [dite_eq_ite] at hlen
    rw [addGo_step_rest h hinc hlen, addRestFold_eval]
    exact nl3_sum_eval h hinc v
  | case3 newList i j h mono2 i2 nl2 hinc i3 nl3 hne h2 mono1 hcmp IH =>
    unfold_let mono1 mono2 i3 nl3 at hcmp
    unfold_let i3 nl3 at hne h2 IH
    unfold_let mono2 at hinc
    simp only [dite_eq_ite] at hne h2 hcmp IH
    rw [addGo_step_smaller h hinc hne h2 hcmp, IH]
    exact nl3_sum_eval h hinc v
  | case4 newList i j h mono2 i2 nl2 hinc i3 nl3 hne h2 mono1 hcmp IH =>
    unfold_let mono1 mono2 i3 nl3 at hcmp
    unfold_let i3 nl3 at hne h2
    unfold_let mono2 i3 nl3 at IH
    unfold_let mono2 at hinc
    simp only [dite_eq_ite] at hne h2 hcmp IH
    rw [addGo_step_larger h hinc hne h2 hcmp, IH,
      evalFold_insertIdx _ _ _ _ (Nat.le_of_lt h2)]
    by_cases hb : nl2 = []
    · subst hb
      have key2 := inclusionFn_true_eval_nil hinc v
      rw [if_pos rfl, List.nil_append, drop_get_cons h, evalFold_cons]
      exact sum_key_insert_bulk key2
    · have key := inclusionFn_true_eval hinc v
      rw [if_neg hb, drop_get_cons h, evalFold_cons]
      exact sum_key_insert key
  | case5 newList i j h mono2 i2 nl2 hinc i3 nl3 hne h2 mono1 hcmp IH =>
    unfold_let mono1 mono2 i3 nl3 at hcmp
    unfold_let i3 nl3 at hne h2
    unfold_let mono1 mono2 i3 nl3 at IH
    unfold_let mono2 at hinc
    simp only [dite_eq_ite] at hne h2 hcmp IH
    have hcr := hcmp
    rw [compare_eq_compareRec] at hcr
    have hdel := compareRec_eq_equal hcr
    have hx : (⟨sum_mwp (((if nl2 = [] then nl2 ++ qs.drop j else nl2).get
            ⟨min i2 nl2.length, h2⟩).scalar) ((qs.get ⟨j, h⟩).scalar),
          ((if nl2 = [] then nl2 ++ qs.drop j else nl2).get
            ⟨min i2 nl2.length, h2⟩).deltas⟩ : Monomial).eval v
        = sum_mwp (((if nl2 = [] then nl2 ++ qs.drop j else nl2).get
            ⟨min i2 nl2.length, h2⟩).eval v) ((qs.get ⟨j, h⟩).eval v) := by
      rw [monomial_eval_fuse]
      nth_rewrite 2 [hdel]
      rfl
    rw [addGo_step_equal h hinc hne h2 hcmp, IH,
      evalFold_set_fuse _ _ _ h2 _ _ hx]
    by_cases hb : nl2 = []
    · subst hb
      have key2 := inclusionFn_true_eval_nil hinc v
      rw [if_pos rfl, List.nil_append, drop_get_cons h, evalFold_cons]
      exact sum_key_set_bulk key2
    · have key := inclusionFn_true_eval hinc v
      rw [if_neg hb, drop_get_cons h, evalFold_cons]
      exact sum_key_set key
  | case6 newList i j h mono2 i2 nl2 hinc i3 nl3 hne hnlt =>
    exfalso
    unfold_let i3 nl3 at hne hnlt
    simp only [dite_eq_ite] at hne hnlt
    by_cases hb : nl2 = []
    · subst hb
      simp only [if_pos rfl, List.nil_append, List.length_nil,
        Nat.min_zero, List.length_drop] at hne hnlt
      omega
    · simp only [if_neg hb] at hne hnlt
      have := Nat.min_le_right i2 nl2.length
      omega
  | case7 newList i j hj =>
    rw [addGo_step_done qs newList i j hj,
      List.drop_eq_nil_of_le (by omega), evalFold_nil, sum_mwp_z_right]

/-- The merging loop of `sort_monomials` computes the `⊕`-sum of its two
inputs: fusing equal-delta heads sums the scalars, and a fused zero-scalar
monomial evaluates to `0` and may be dropped. -/
theorem mergeMono_eval (l r : List Monomial) (v : List Nat) :
    evalFold (mergeMono l r) v
      = sum_mwp (evalFold l v) (evalFold r v) := by
  induction l, r using mergeMono.induct with
  | case1 right => simp [mergeMono, evalFold_nil, sum_mwp_z]
  | case2 lh lt => simp [mergeMono, evalFold_nil, sum_mwp_z_right]
  | case3 lh lt rh rt hcmp IH =>
    rw [mergeMono]
    simp only [hcmp]
    rw [evalFold_cons, IH, ← sum_mwp_assoc, ← evalFold_cons]
  | case4 lh lt rh rt hcmp IH =>
    rw [mergeMono]
    simp only [hcmp]
    rw [evalFold_cons, IH, sum_mwp_left_comm, ← evalFold_cons]
  | case5 lh lt rh rt hcmp s hs IH =>
    unfold_let s at hs
    have hcr := hcmp
    rw [compare_eq_compareRec] at hcr
    have hdel := compareRec_eq_equal hcr
    have hfe : (⟨sum_mwp lh.scalar rh.scalar, lh.deltas⟩ : Monomial).eval v
        = sum_mwp (lh.eval v) (rh.eval v) := by
      rw [monomial_eval_fuse]
      nth_rewrite 2 [hdel]
      rfl
    rw [mergeMono]
    simp only [hcmp]
    rw [if_pos hs, evalFold_cons, IH, hfe, evalFold_cons, evalFold_cons]
    exact sum_exchange _ _ _ _
  | case6 lh lt rh rt hcmp s hs IH =>
    unfold_let s at hs
    have hs0 : sum_mwp lh.scalar rh.scalar = Scalar.z := not_not.mp hs
    obtain ⟨hl0, hr0⟩ := sum_mwp_eq_z hs0
    rw [mergeMono]
    simp only [hcmp]
    rw [if_neg hs, IH, evalFold_cons, evalFold_cons,
      monomial_eval_scalar_z hl0, monomial_eval_scalar_z hr0,
      sum_mwp_z, sum_mwp_z]

/-- `sort_monomials` preserves the `⊕`-sum of the monomial list. -/
theorem sort_monomials_eval (l : List Monomial) (v : List Nat) :
    evalFold (sort_monomials l) v = evalFold l v := by
  induction l using sort_monomials.induct with
  | case1 h1 h2 =>
    rw [sort_monomials]
    rfl
  | case2 m0 rest h1 hz h2 => simp [monomialIsZeroStr] at hz
  | case3 m0 rest h1 hz h2 =>
    rw [sort_monomials, dif_pos h1]
    simp [monomialIsZeroStr]
  | case4 l hlen mid IH1 IH2 =>
    unfold_let mid at IH1 IH2
    rw [sort_monomials, dif_neg hlen]
    rw [mergeMono_eval, IH1, IH2, sum_mwp_comm, ← evalFold_append,
      List.take_append_drop]

/-- The `Polynomial` constructor's empty-list fallback does not change the
evaluation: the padding zero monomial evaluates to `0`. -/
theorem ofList_eval (l : List Monomial) (v : List Nat) :
    evalFold (Polynomial.ofList l) v = evalFold l v := by
  unfold Polynomial.ofList
  split
  · rename_i h
    subst h
    rw [evalFold_cons, evalFold_nil, sum_mwp_z_right,
      monomial_eval_scalar_z rfl]
  · rfl

/-- `Polynomial.add` is an evaluation homomorphism onto the scalar `⊕`. -/
theorem add_evalFold (p q : List Monomial) (v : List Nat) :
    evalFold (Polynomial.add p q) v
      = sum_mwp (evalFold p v) (evalFold q v) := by
  unfold Polynomial.add
  by_cases hpq : p = [] ∧ q = []
  · obtain ⟨rfl, rfl⟩ := hpq
    rw [if_pos ⟨rfl, rfl⟩, ofList_eval, evalFold_nil, sum_mwp_z]
  · rw [if_neg hpq]
    by_cases hp : p = []
    · subst hp
      rw [if_pos rfl, evalFold_nil, sum_mwp_z]
    · rw [if_neg hp]
      by_cases hq : q = []
      · subst hq
        rw [if_pos rfl, evalFold_nil, sum_mwp_z_right]
      · rw [if_neg hq, ofList_eval, sort_monomials_eval, addGo_eval,
          List.drop_zero, sum_mwp_comm]

/-! ## Evaluation of `Polynomial.times` -/

theorem prod_mwp_distrib_right (a b c : Scalar) :
    prod_mwp (sum_mwp a b) c = sum_mwp (prod_mwp a c) (prod_mwp b c) := by
  cases a <;> cases b <;> cases c <;> rfl

theorem bool_eq_of_iff {a b : Bool} (h : a = true ↔ b = true) : a = b := by
  cases a <;> cases b <;> simp_all

theorem sum_shuffle (a m r s : Scalar) :
    sum_mwp (sum_mwp a m) (sum_mwp r s)
      = sum_mwp a (sum_mwp (sum_mwp m r) s) := by
  cases a <;> cases m <;> cases r <;> cases s <;> rfl

theorem insertDelta_none {ds : List Delta} {d : Delta}
    (h : insertDelta ds d = none) :
    ∃ e ∈ ds, e.2 = d.2 ∧ e.1 ≠ d.1 := by
  induction ds with
  | nil => simp [insertDelta] at h
  | cons e es ih =>
    simp only [insertDelta] at h
    by_cases h1 : e.2 = d.2
    · rw [if_pos h1] at h
      by_cases h2 : e.1 = d.1
      · rw [if_pos h2] at h; cases h
      · exact ⟨e, by simp, h1, h2⟩
    · rw [if_neg h1] at h
      by_cases h3 : d.2 < e.2
      · rw [if_pos h3] at h; cases h
      · rw [if_neg h3] at h
        cases hrec : insertDelta es d with
        | none =>
          obtain ⟨x, hx, hp⟩ := ih hrec
          exact ⟨x, by simp [hx], hp⟩
        | some r => rw [hrec] at h; cases h

theorem insertDelta_some_mem {ds : List Delta} {d : Delta} {r : List Delta}
    (h : insertDelta ds d = some r) (x : Delta) :
    x ∈ r ↔ x = d ∨ x ∈ ds := by
  induction ds generalizing r with
  | nil =>
    simp only [insertDelta, Option.some.injEq] at h
    subst h
    simp
  | cons e es ih =>
    simp only [insertDelta] at h
    by_cases h1 : e.2 = d.2
    · rw [if_pos h1] at h
      by_cases h2 : e.1 = d.1
      · rw [if_pos h2] at h
        obtain rfl : e :: es = r := by simpa using h
        have hed : e = d := Prod.ext h2 h1
        subst hed
        simp only [List.mem_cons]
        tauto
      · rw [if_neg h2] at h; cases h
    · rw [if_neg h1] at h
      by_cases h3 : d.2 < e.2
      · rw [if_pos h3] at h
        obtain rfl : d :: e :: es = r := by simpa using h
        simp [List.mem_cons]
      · rw [if_neg h3] at h
        cases hrec : insertDelta es d with
        | none => rw [hrec] at h; cases h
        | some r2 =>
          rw [hrec] at h
          obtain rfl : e :: r2 = r := by simpa using h
          have hm := ih hrec
          simp only [List.mem_cons, hm]
          tauto

theorem deltaFold_cons (ds0 : List Delta) (d : Delta) (l : List Delta) :
    (d :: l).foldl (fun acc d => acc.bind (fun ds => insertDelta ds d))
        (some ds0)
      = l.foldl (fun acc d => acc.bind (fun ds => insertDelta ds d))
          (insertDelta ds0 d) := rfl

theorem deltaFold_none (l : List Delta) :
    l.foldl (fun acc d => acc.bind (fun ds => insertDelta ds d)) none
      = none := by
  induction l with
  | nil => rfl
  | cons d l ih => exact ih

theorem deltaFold_some_mem (l : List Delta) (ds0 ds : List Delta)
    (h : l.foldl (fun acc d => acc.bind (fun ds => insertDelta ds d))
        (some ds0) = some ds) (x : Delta) :
    x ∈ ds ↔ x ∈ ds0 ∨ x ∈ l := by
  induction l generalizing ds0 with
  | nil =>
    simp only [List.foldl_nil, Option.some.injEq] at h
    subst h
    simp
  | cons d l ih =>
    rw [deltaFold_cons] at h
    cases hid : insertDelta ds0 d with
    | none =>
      rw [hid, deltaFold_none] at h
      cases h
    | some ds1 =>
      rw [hid] at h
      have h1 := ih ds1 h
      have h2 := insertDelta_some_mem hid
      simp only [List.mem_cons, h1, h2]
      tauto

theorem deltaFold_none_conflict (l : List Delta) (ds0 : List Delta)
    (v : List Nat)
    (h : l.foldl (fun acc d => acc.bind (fun ds => insertDelta ds d))
        (some ds0) = none)
    (h0 : ds0.all (fun d => v.get? d.2 == some d.1) = true)
    (h1 : l.all (fun d => v.get? d.2 == some d.1) = true) : False := by
  induction l generalizing ds0 with
  | nil => simp at h
  | cons d l ih =>
    rw [deltaFold_cons] at h
    simp only [List.all_cons, Bool.and_eq_true] at h1
    cases hid : insertDelta ds0 d with
    | none =>
      obtain ⟨e, he, hidx, hne⟩ := insertDelta_none hid
      have hem : (v.get? e.2 == some e.1) = true := by
        simp only [List.all_eq_true] at h0
        exact h0 e he
      have hdm := h1.1
      rw [hidx] at hem
      simp only [beq_iff_eq] at hem hdm
      rw [hdm] at hem
      exact hne (by simpa using hem.symm)
    | some ds1 =>
      rw [hid] at h
      refine ih ds1 h ?_ h1.2
      simp only [List.all_eq_true]
      intro x hx
      rcases (insertDelta_some_mem hid x).mp hx with rfl | hx0
      · exact h1.1
      · simp only [List.all_eq_true] at h0
        exact h0 x hx0

/-- `Monomial.prod` is an evaluation homomorphism onto the scalar `⊗`. -/
theorem monomial_prod_eval (m1 m2 : Monomial) (v : List Nat) :
    (m1.prod m2).eval v = prod_mwp (m1.eval v) (m2.eval v) := by
  rcases m1 with ⟨s1, d1⟩
  rcases m2 with ⟨s2, d2⟩
  show (if prod_mwp s1 s2 = Scalar.z then Monomial.zeroM
    else match d2.foldl (fun acc d => acc.bind (fun ds => insertDelta ds d))
        (some d1) with
      | none => Monomial.zeroM
      | some ds => ⟨prod_mwp s1 s2, ds⟩).eval v
    = prod_mwp ((⟨s1, d1⟩ : Monomial).eval v) ((⟨s2, d2⟩ : Monomial).eval v)
  by_cases hs : prod_mwp s1 s2 = Scalar.z
  · rw [if_pos hs, monomial_eval_scalar_z rfl]
    simp only [Monomial.eval]
    cases hb1 : d1.all (fun d => v.get? d.2 == some d.1) <;>
      cases hb2 : d2.all (fun d => v.get? d.2 == some d.1) <;>
      simp [hb1, hb2, prod_mwp_z_left, prod_mwp_z_right, hs]
  · rw [if_neg hs]
    cases hfold : d2.foldl (fun acc d => acc.bind (fun ds => insertDelta ds d))
        (some d1) with
    | none =>
      simp only [hfold]
      rw [monomial_eval_scalar_z rfl]
      simp only [Monomial.eval]
      cases hb1 : d1.all (fun d => v.get? d.2 == some d.1) <;>
        cases hb2 : d2.all (fun d => v.get? d.2 == some d.1) <;>
        first
          | exact (deltaFold_none_conflict d2 d1 v hfold hb1 hb2).elim
          | simp [prod_mwp_z_left, prod_mwp_z_right]
    | some ds =>
      simp only [hfold]
      have hmem := deltaFold_some_mem d2 d1 ds hfold
      have hiff : ds.all (fun d => v.get? d.2 == some d.1)
          = (d1.all (fun d => v.get? d.2 == some d.1)
            && d2.all (fun d => v.get? d.2 == some d.1)) := by
        apply bool_eq_of_iff
        simp only [Bool.and_eq_true, List.all_eq_true]
        constructor
        · intro hall
          exact ⟨fun x hx => hall x ((hmem x).mpr (Or.inl hx)),
            fun x hx => hall x ((hmem x).mpr (Or.inr hx))⟩
        · intro hboth x hx
          rcases (hmem x).mp hx with hx1 | hx2
          · exact hboth.1 x hx1
          · exact hboth.2 x hx2
      simp only [Monomial.eval, hiff]
      cases hb1 : d1.all (fun d => v.get? d.2 == some d.1) <;>
        cases hb2 : d2.all (fun d => v.get? d.2 == some d.1) <;>
        simp [prod_mwp_z_left, prod_mwp_z_right]

/-- Finite `⊕`-sum of a list of scalars. -/
def scalarSum : List Scalar → Scalar
  | [] => Scalar.z
  | a :: l => sum_mwp a (scalarSum l)

theorem scalarSum_perm {l1 l2 : List Scalar} (h : l1.Perm l2) :
    scalarSum l1 = scalarSum l2 := by
  induction h with
  | nil => rfl
  | cons a h ih => simp only [scalarSum, ih]
  | swap a b l => simp only [scalarSum]; rw [sum_mwp_left_comm]
  | trans h1 h2 ih1 ih2 => rw [ih1, ih2]

theorem evalFold_eq_scalarSum (l : List Monomial) (v : List Nat) :
    evalFold l v = scalarSum (l.map (fun mo => mo.eval v)) := by
  induction l with
  | nil => rfl
  | cons m l ih =>
    rw [evalFold_cons, List.map_cons]
    simp only [scalarSum, ih]

theorem evalFold_filter_nonzero (l : List Monomial) (v : List Nat) :
    evalFold (l.filter (fun mo => mo.scalar ≠ Scalar.z)) v
      = evalFold l v := by
  induction l with
  | nil => rfl
  | cons m l ih =>
    by_cases hm : m.scalar = Scalar.z
    · simp only [List.filter_cons, hm]
      rw [if_neg (by simp)]
      rw [ih, evalFold_cons, monomial_eval_scalar_z hm, sum_mwp_z]
    · simp only [List.filter_cons]
      rw [if_pos (by simpa using hm)]
      rw [evalFold_cons, evalFold_cons, ih]

/-- One row of the product table of `Polynomial.times` evaluates to the
`⊗`-product of the first polynomial's value and the row monomial's value. -/
theorem row_eval (p : List Monomial) (m2 : Monomial) (v : List Nat) :
    evalFold ((p.map (fun m1 => m1.prod m2)).filter
        (fun mo => mo.scalar ≠ Scalar.z)) v
      = prod_mwp (evalFold p v) (m2.eval v) := by
  rw [evalFold_filter_nonzero]
  induction p with
  | nil => simp [evalFold_nil, prod_mwp_z_left]
  | cons m1 p ih =>
    rw [List.map_cons, evalFold_cons, ih, monomial_prod_eval,
      evalFold_cons, prod_mwp_distrib_right]

/-- The full product table of `Polynomial.times` sums (by rows) to the
`⊗`-product of the two polynomial values. -/
theorem prodTable_eval (p q : List Monomial) (v : List Nat) :
    scalarSum ((prodTable p q).map (fun row => evalFold row v))
      = prod_mwp (evalFold p v) (evalFold q v) := by
  unfold prodTable
  have hfilter : ∀ rows : List (List Monomial),
      scalarSum ((rows.filter (fun row => row ≠ [])).map
        (fun row => evalFold row v))
      = scalarSum (rows.map (fun row => evalFold row v)) := by
    intro rows
    induction rows with
    | nil => rfl
    | cons r rs ih =>
      by_cases hr : r = []
      · subst hr
        simp only [List.filter_cons]
        rw [if_neg (by simp)]
        simp only [List.map_cons, scalarSum, ih, evalFold_nil, sum_mwp_z]
      · simp only [List.filter_cons]
        rw [if_pos (by simpa using hr)]
        simp only [List.map_cons, scalarSum, ih]
  rw [hfilter, List.map_map]
  induction q with
  | nil => simp [scalarSum, evalFold_nil, prod_mwp_z_right]
  | cons m2 q ih =>
    simp only [List.map_cons, scalarSum, Function.comp_apply]
    rw [row_eval, ih, evalFold_cons, prod_mwp_distrib]

theorem getD_set_self {table : List (List Monomial)} {k : Nat}
    (hk : k < table.length) (row : List Monomial) :
    (table.set k row).getD k [] = row := by
  induction table generalizing k with
  | nil => simp at hk
  | cons r rs ih =>
    cases k with
    | zero => rfl
    | succ k =>
      simp only [List.set_cons_succ, List.getD_cons_succ]
      exact ih (by simpa using hk)

theorem getD_set_ne {table : List (List Monomial)} {k k2 : Nat}
    (h : k ≠ k2) (row : List Monomial) :
    (table.set k row).getD k2 [] = table.getD k2 [] := by
  induction table generalizing k k2 with
  | nil => rfl
  | cons r rs ih =>
    cases k with
    | zero =>
      cases k2 with
      | zero => exact absurd rfl h
      | succ k2 => rfl
    | succ k =>
      cases k2 with
      | zero => rfl
      | succ k2 =>
        simp only [List.set_cons_succ, List.getD_cons_succ]
        exact ih (by omega)

theorem reinsertIndex_perm (table : List (List Monomial)) (t1 : List Delta)
    (acc : List Nat) (s : Nat) :
    (reinsertIndex table t1 acc s).Perm (s :: acc) := by
  induction acc with
  | nil => exact List.Perm.refl _
  | cons k ks ih =>
    rw [reinsertIndex]
    split
    · exact List.Perm.refl _
    · exact (ih.cons k).trans (List.Perm.swap s k ks)

theorem rowSums_set_not_mem {table : List (List Monomial)} {k : Nat}
    {row : List Monomial} {il : List Nat} (h : k ∉ il) (v : List Nat) :
    scalarSum (il.map (fun idx =>
        evalFold ((table.set k row).getD idx []) v))
      = scalarSum (il.map (fun idx => evalFold (table.getD idx []) v)) := by
  induction il with
  | nil => rfl
  | cons a il ih =>
    simp only [List.map_cons, scalarSum]
    rw [getD_set_ne (by rintro rfl; exact h (List.mem_cons_self _ _)) row,
      ih (fun hm => h (List.mem_cons_of_mem _ hm))]

theorem timesGo_step_skip {table : List (List Monomial)} {k : Nat}
    {ks : List Nat} {res : List Monomial} (h : table.getD k [] = []) :
    timesGo table (k :: ks) res = timesGo table ks res := by
  rw [timesGo]
  split
  · rfl
  · rename_i mono2 row2 heq
    rw [h] at heq
    cases heq

theorem timesGo_step_main_true {table : List (List Monomial)} {k : Nat}
    {ks : List Nat} {res : List Monomial} {mono2 : Monomial}
    {row2 r2 : List Monomial} {i2 : Nat}
    (h : table.getD k [] = mono2 :: row2)
    (hfn : inclusionFn res mono2 0 = (true, i2, r2)) :
    timesGo table (k :: ks) res
      = timesGo (table.set k row2)
          (if row2 = [] then ks
            else reinsertIndex (table.set k row2)
              (((table.set k row2).getD k []).headD Monomial.zeroM).deltas
              ks k)
          (r2 ++ [mono2]) := by
  rw [timesGo]
  split
  · rename_i heq
    rw [h] at heq
    cases heq
  · rename_i mono2b row2b heq
    rw [h] at heq
    obtain ⟨rfl, rfl⟩ : mono2 = mono2b ∧ row2 = row2b := by simpa using heq
    simp only [dite_eq_ite]
    rw [hfn]

theorem timesGo_step_main_false {table : List (List Monomial)} {k : Nat}
    {ks : List Nat} {res : List Monomial} {mono2 : Monomial}
    {row2 r2 : List Monomial} {i2 : Nat}
    (h : table.getD k [] = mono2 :: row2)
    (hfn : inclusionFn res mono2 0 = (false, i2, r2)) :
    timesGo table (k :: ks) res
      = timesGo (table.set k row2)
          (if row2 = [] then ks
            else reinsertIndex (table.set k row2)
              (((table.set k row2).getD k []).headD Monomial.zeroM).deltas
              ks k)
          r2 := by
  rw [timesGo]
  split
  · rename_i heq
    rw [h] at heq
    cases heq
  · rename_i mono2b row2b heq
    rw [h] at heq
    obtain ⟨rfl, rfl⟩ : mono2 = mono2b ∧ row2 = row2b := by simpa using heq
    simp only [dite_eq_ite]
    rw [hfn]

/-- The merge loop of `Polynomial.times` accumulates the `⊕`-sum of all
rows reachable through the (duplicate-free) index list. -/
theorem timesGo_eval (table : List (List Monomial)) (il : List Nat)
    (res : List Monomial) (v : List Nat) :
    il.Nodup →
    evalFold (timesGo table il res) v
      = sum_mwp (evalFold res v)
          (scalarSum (il.map (fun idx => evalFold (table.getD idx []) v)))
    := by
  induction table, il, res using timesGo.induct with
  | case1 table res =>
    intro _
    rw [timesGo]
    simp [scalarSum, sum_mwp_z_right]
  | case2 table res k ks hrow ih =>
    intro hnd
    rw [timesGo_step_skip hrow, ih hnd.of_cons]
    simp only [List.map_cons, scalarSum, hrow, evalFold_nil, sum_mwp_z]
  | case3 table res k ks mono2 row2 hrow table2 res2 idx2 ih =>
    intro hnd
    unfold_let table2 res2 idx2 at ih
    simp only [dite_eq_ite] at ih
    have hk : k ∉ ks := (List.nodup_cons.mp hnd).1
    have hks : ks.Nodup := (List.nodup_cons.mp hnd).2
    have hklt : k < table.length := by
      by_contra hge
      rw [List.getD_eq_default _ _ (by omega)] at hrow
      cases hrow
    cases hfn : inclusionFn res mono2 0 with
    | mk b pr =>
      obtain ⟨i2, r2⟩ := pr
      simp only [hfn] at ih
      cases b with
      | true =>
        rw [timesGo_step_main_true hrow hfn]
        by_cases hr2 : row2 = []
        · subst hr2
          rw [if_pos rfl] at ih ⊢
          rw [ih hks, evalFold_append, evalFold_cons, evalFold_nil,
            sum_mwp_z_right, inclusionFn_true_eval hfn v,
            rowSums_set_not_mem hk v]
          simp only [List.map_cons, scalarSum, hrow]
          rw [evalFold_cons, evalFold_nil, sum_mwp_z_right, sum_mwp_assoc]
        · rw [if_neg hr2] at ih ⊢
          have hperm := reinsertIndex_perm (table.set k row2)
            (((table.set k row2).getD k []).headD Monomial.zeroM).deltas ks k
          have hnd2 := hperm.nodup_iff.mpr hnd
          rw [ih hnd2, scalarSum_perm (hperm.map _)]
          simp only [List.map_cons, scalarSum]
          rw [getD_set_self hklt row2, rowSums_set_not_mem hk v,
            evalFold_append, evalFold_cons, evalFold_nil, sum_mwp_z_right,
            inclusionFn_true_eval hfn v]
          simp only [List.map_cons, scalarSum, hrow]
          rw [evalFold_cons]
          exact sum_shuffle _ _ _ _
      | false =>
        rw [timesGo_step_main_false hrow hfn]
        by_cases hr2 : row2 = []
        · subst hr2
          rw [if_pos rfl] at ih ⊢
          rw [ih hks, inclusionFn_false_eval hfn v,
            rowSums_set_not_mem hk v]
          simp only [List.map_cons, scalarSum, hrow]
          rw [evalFold_cons, evalFold_nil, sum_mwp_z_right, sum_mwp_assoc]
        · rw [if_neg hr2] at ih ⊢
          have hperm := reinsertIndex_perm (table.set k row2)
            (((table.set k row2).getD k []).headD Monomial.zeroM).deltas ks k
          have hnd2 := hperm.nodup_iff.mpr hnd
          rw [ih hnd2, scalarSum_perm (hperm.map _)]
          simp only [List.map_cons, scalarSum]
          rw [getD_set_self hklt row2, rowSums_set_not_mem hk v,
            inclusionFn_false_eval hfn v]
          simp only [List.map_cons, scalarSum, hrow]
          rw [evalFold_cons]
          exact sum_shuffle _ _ _ _

theorem insertIndexList_perm (table : List (List Monomial))
    (t1 : List Delta) (acc : List Nat) (idx : Nat) :
    (insertIndexList table t1 acc idx).Perm (idx :: acc) := by
  induction acc with
  | nil => exact List.Perm.refl _
  | cons k ks ih =>
    rw [insertIndexList]
    split
    · exact List.Perm.refl _
    · exact (ih.cons k).trans (List.Perm.swap idx k ks)

theorem foldl_insert_perm (table : List (List Monomial)) (l : List Nat)
    (acc : List Nat) :
    (l.foldl (fun acc idx =>
      insertIndexList table
        (((table.getD idx []).headD Monomial.zeroM).deltas) acc idx)
      acc).Perm (acc ++ l) := by
  induction l generalizing acc with
  | nil => simp
  | cons a l ih =>
    rw [List.foldl_cons]
    refine (ih _).trans ?_
    exact ((insertIndexList_perm table _ acc a).append_right l).trans
      List.perm_middle.symm

/-- The index list built by step 2 of `Polynomial.times` is a permutation
of all the table positions. -/
theorem buildIndexList_perm {table : List (List Monomial)}
    (h : table ≠ []) :
    (buildIndexList table).Perm (List.range table.length) := by
  have h0 : (0 : Nat) :: (List.range table.length).drop 1
      = List.range table.length := by
    cases htl : table.length with
    | zero =>
      exact absurd (List.length_eq_zero.mp htl) h
    | succ n =>
      rw [List.range_succ_eq_map]
      rfl
  unfold buildIndexList
  refine (foldl_insert_perm table _ [0]).trans ?_
  rw [List.singleton_append, h0]

theorem range_map_getD (table : List (List Monomial)) (v : List Nat) :
    (List.range table.length).map
        (fun idx => evalFold (table.getD idx []) v)
      = table.map (fun row => evalFold row v) := by
  apply List.ext_getElem
  · simp
  · intro i h1 h2
    simp only [List.getElem_map, List.getElem_range]
    rw [List.getD_eq_getElem table [] (by simpa using h2)]

/-- `Polynomial.times` is an evaluation homomorphism onto the scalar
`⊗`. -/
theorem times_evalFold (p q : List Monomial) (v : List Nat) :
    evalFold (Polynomial.times p q) v
      = prod_mwp (evalFold p v) (evalFold q v) := by
  unfold Polynomial.times
  simp only
  by_cases ht : prodTable p q = []
  · rw [if_pos ht, ofList_eval, evalFold_nil]
    have hpt := prodTable_eval p q v
    rw [ht] at hpt
    simpa [scalarSum] using hpt
  · have hnd : (buildIndexList (prodTable p q)).Nodup :=
      ((buildIndexList_perm ht).nodup_iff).mpr (List.nodup_range _)
    rw [if_neg ht, ofList_eval, timesGo_eval _ _ _ v hnd, evalFold_nil,
      sum_mwp_z, scalarSum_perm ((buildIndexList_perm ht).map _),
      range_map_getD, prodTable_eval]

/-! ## Normal-form invariants: absorbed and sorted polynomials -/

/-- The monomial invariant of the spec: delta indices strictly increase. -/
abbrev WfMono (mo : Monomial) : Prop :=
  mo.deltas.Pairwise (fun a b => a.2 < b.2)

/-- Neither monomial subsumes the other. -/
abbrev NS (a b : Monomial) : Prop :=
  subsumes a b = false ∧ subsumes b a = false

/-- No monomial of the list subsumes another monomial of the list. -/
abbrev AbsorbedPoly (l : List Monomial) : Prop := l.Pairwise NS

/-- The monomial list is strictly ascending in the total order of
`Polynomial.compare`. -/
abbrev SortedPoly (l : List Monomial) : Prop :=
  l.Pairwise (fun a b => Polynomial.compare a.deltas b.deltas = .smaller)

/-- Every monomial of the list satisfies the spec's monomial invariant. -/
abbrev WfPoly (l : List Monomial) : Prop := ∀ mo ∈ l, WfMono mo

theorem subsumes_iff {a b : Monomial} :
    subsumes a b = true ↔
      (∀ d ∈ a.deltas, d ∈ b.deltas) ∧
        b.scalar.strength ≤ a.scalar.strength := by
  simp [subsumes]

theorem subsumes_refl (a : Monomial) : subsumes a a = true := by
  rw [subsumes_iff]
  exact ⟨fun d hd => hd, le_refl _⟩

theorem subsumes_trans {a b c : Monomial} (h1 : subsumes a b = true)
    (h2 : subsumes b c = true) : subsumes a c = true := by
  rw [subsumes_iff] at h1 h2 ⊢
  exact ⟨fun d hd => h2.1 d (h1.1 d hd), le_trans h2.2 h1.2⟩

theorem NS_symm {a b : Monomial} (h : NS a b) : NS b a := ⟨h.2, h.1⟩

theorem NS_symmetric : Symmetric NS := fun _ _ h => NS_symm h

theorem get_eq_of_some {l : List Monomial} {n : Nat} {x : Monomial}
    (hn : n < l.length) (h : l[n]? = some x) : l.get ⟨n, hn⟩ = x := by
  rw [List.getElem?_eq_getElem hn] at h
  simpa using h

theorem bulk_get_eq {qs : List Monomial} {i2 j : Nat} (h : j < qs.length)
    (h2 : min i2 ([] : List Monomial).length
      < (if ([] : List Monomial) = [] then [] ++ qs.drop j
          else ([] : List Monomial)).length) :
    (if ([] : List Monomial) = [] then [] ++ qs.drop j
        else ([] : List Monomial)).get
      ⟨min i2 ([] : List Monomial).length, h2⟩ = qs.get ⟨j, h⟩ := by
  apply get_eq_of_some
  rw [if_pos rfl]
  simp only [List.nil_append, List.length_nil, Nat.min_zero,
    List.getElem?_drop, Nat.add_zero]
  rw [List.getElem?_eq_getElem h]
  simp [List.get_eq_getElem]

theorem inclusion_empty_iff {a b : Monomial} :
    Monomial.inclusion a b = .empty ↔
      subsumes b a = false ∧ subsumes a b = false := by
  unfold Monomial.inclusion
  cases h1 : subsumes b a <;> cases h2 : subsumes a b <;> simp

/-- The list returned by `contains_filter` is a sublist of its input,
provided the input is absorbed (so the duplicate-reshuffling branch is
unreachable). -/
theorem cf_sublist (rest kept : List Monomial) (mono : Monomial) (i : Nat)
    (habs : (kept ++ rest).Pairwise NS) :
    (containsFilterGo kept rest mono i).2.2.Sublist (kept ++ rest) := by
  induction rest generalizing kept i with
  | nil => simp [containsFilterGo]
  | cons m rest2 ih =>
    rw [containsFilterGo]
    cases hinc : Monomial.inclusion m mono with
    | contains =>
      simp only
      cases hmem : kept.contains m with
      | true =>
        exfalso
        have hm : m ∈ kept := by simpa using hmem
        have hpair := (List.pairwise_append.mp habs).2.2
        have hNS : NS m m := hpair m hm m (List.mem_cons_self _ _)
        have := subsumes_refl m
        rw [hNS.1] at this
        cases this
      | false =>
        simp only [Bool.false_eq_true, if_false]
        have hsubl : (kept ++ rest2).Sublist (kept ++ m :: rest2) :=
          List.Sublist.append_left
            (List.Sublist.cons _ (List.Sublist.refl _)) kept
        have habs2 : (kept ++ rest2).Pairwise NS := habs.sublist hsubl
        exact (ih kept _ habs2).trans hsubl
    | included =>
      simp only
      exact List.Sublist.refl _
    | empty =>
      simp only
      have heq : (kept ++ [m]) ++ rest2 = kept ++ m :: rest2 := by
        rw [List.append_assoc]
        rfl
      have habs2 : ((kept ++ [m]) ++ rest2).Pairwise NS := by
        rw [heq]
        exact habs
      have := ih (kept ++ [m]) i habs2
      rw [heq] at this
      exact this

/-- When the scan of `contains_filter` completes without an early
`CONTAINS` verdict, every survivor is unrelated to the filtered monomial. -/
theorem cf_true_NS (rest kept : List Monomial) (mono : Monomial) (i : Nat)
    (habs : (kept ++ rest).Pairwise NS)
    (hkept : ∀ x ∈ kept, NS mono x)
    (hv : (containsFilterGo kept rest mono i).1 ≠ .contains) :
    ∀ x ∈ (containsFilterGo kept rest mono i).2.2, NS mono x := by
  induction rest generalizing kept i with
  | nil =>
    intro x hx
    exact hkept x (by simpa [containsFilterGo] using hx)
  | cons m rest2 ih =>
    rw [containsFilterGo] at hv ⊢
    cases hinc : Monomial.inclusion m mono with
    | contains =>
      rw [hinc] at hv
      simp only at hv ⊢
      cases hmem : kept.contains m with
      | true =>
        exfalso
        have hm : m ∈ kept := by simpa using hmem
        have hNSm := hkept m hm
        have hcm := (inclusion_contains_iff m mono).mp hinc
        rw [hNSm.1] at hcm
        cases hcm
      | false =>
        simp only [hmem, Bool.false_eq_true, if_false] at hv ⊢
        have hsubl : (kept ++ rest2).Sublist (kept ++ m :: rest2) :=
          List.Sublist.append_left
            (List.Sublist.cons _ (List.Sublist.refl _)) kept
        exact ih kept _ (habs.sublist hsubl) hkept hv
    | included =>
      rw [hinc] at hv
      simp only at hv
      exact absurd rfl hv
    | empty =>
      rw [hinc] at hv
      simp only at hv ⊢
      have hNSm : NS mono m := inclusion_empty_iff.mp hinc
      have heq : (kept ++ [m]) ++ rest2 = kept ++ m :: rest2 := by
        rw [List.append_assoc]
        rfl
      have habs2 : ((kept ++ [m]) ++ rest2).Pairwise NS := by
        rw [heq]
        exact habs
      have hkept2 : ∀ x ∈ kept ++ [m], NS mono x := by
        intro x hx
        rcases List.mem_append.mp hx with hx1 | hx2
        · exact hkept x hx1
        · obtain rfl : x = m := by simpa using hx2
          exact hNSm
      exact ih (kept ++ [m]) i habs2 hkept2 hv

theorem inclusionFn_sublist {nl : List Monomial} {mono : Monomial} {i : Nat}
    (habs : nl.Pairwise NS) :
    (inclusionFn nl mono i).2.2.Sublist nl := by
  have h := cf_sublist nl [] mono i (by simpa using habs)
  simp only [List.nil_append] at h
  unfold inclusionFn
  cases hgo : containsFilterGo [] nl mono i with
  | mk verdict pr =>
    obtain ⟨i3, l3⟩ := pr
    rw [hgo] at h
    cases verdict <;> simpa using h

theorem inclusionFn_true_NS {nl : List Monomial} {mono : Monomial}
    {i i2 : Nat} {nl2 : List Monomial} (habs : nl.Pairwise NS)
    (hinc : inclusionFn nl mono i = (true, i2, nl2)) :
    ∀ x ∈ nl2, NS mono x := by
  unfold inclusionFn at hinc
  cases hgo : containsFilterGo [] nl mono i with
  | mk verdict pr =>
    obtain ⟨i3, l3⟩ := pr
    rw [hgo] at hinc
    cases verdict with
    | contains => simp at hinc
    | included =>
      obtain ⟨rfl, rfl⟩ : i3 = i2 ∧ l3 = nl2 := by simpa using hinc
      have hv : (containsFilterGo [] nl mono i).1 ≠ .contains := by
        rw [hgo]
        simp
      have := cf_true_NS nl [] mono i (by simpa using habs)
        (by intro x hx; cases hx) hv
      rw [hgo] at this
      exact this
    | empty =>
      obtain ⟨rfl, rfl⟩ : i3 = i2 ∧ l3 = nl2 := by simpa using hinc
      have hv : (containsFilterGo [] nl mono i).1 ≠ .contains := by
        rw [hgo]
        simp
      have := cf_true_NS nl [] mono i (by simpa using habs)
        (by intro x hx; cases hx) hv
      rw [hgo] at this
      exact this

theorem pairwise_NS_append {l : List Monomial} {x : Monomial}
    (habs : l.Pairwise NS) (hx : ∀ z ∈ l, NS x z) :
    (l ++ [x]).Pairwise NS := by
  rw [List.pairwise_append]
  refine ⟨habs, List.pairwise_singleton _ _, ?_⟩
  intro a ha b hb
  obtain rfl : b = x := by simpa using hb
  exact NS_symm (hx a ha)

theorem insertIdx_perm_cons {l : List Monomial} {k : Nat} (x : Monomial)
    (hk : k ≤ l.length) : (l.insertIdx k x).Perm (x :: l) := by
  induction l generalizing k with
  | nil =>
    obtain rfl : k = 0 := by simpa using hk
    exact List.Perm.refl _
  | cons a l ih =>
    cases k with
    | zero => exact List.Perm.refl _
    | succ k =>
      have hk2 : k ≤ l.length := by simpa using hk
      simp only [List.insertIdx_succ_cons]
      exact ((ih hk2).cons a).trans (List.Perm.swap x a l)

theorem absorbed_insert {l : List Monomial} {k : Nat} {x : Monomial}
    (habs : l.Pairwise NS) (hx : ∀ z ∈ l, NS x z) (hk : k ≤ l.length) :
    (l.insertIdx k x).Pairwise NS := by
  rw [List.Perm.pairwise_iff (fun h => NS_symm h) (insertIdx_perm_cons x hk)]
  exact List.pairwise_cons.mpr ⟨hx, habs⟩

theorem pairwise_NS_get {l : List Monomial} (h : l.Pairwise NS)
    {a b : Nat} (ha : a < l.length) (hb : b < l.length) (hab : a ≠ b) :
    NS (l.get ⟨a, ha⟩) (l.get ⟨b, hb⟩) := by
  rw [List.pairwise_iff_getElem] at h
  rcases Nat.lt_or_ge a b with hlt | hge
  · exact h a b ha hb hlt
  · exact NS_symm (h b a hb ha (by omega))

theorem absorbed_set {l : List Monomial} {k : Nat} {x : Monomial}
    (habs : l.Pairwise NS) (hk : k < l.length)
    (hx : ∀ (b : Nat) (hb : b < l.length), b ≠ k → NS x (l.get ⟨b, hb⟩)) :
    (l.set k x).Pairwise NS := by
  rw [List.pairwise_iff_getElem]
  intro a b ha hb hab
  rw [List.length_set] at ha hb
  rw [List.getElem_set, List.getElem_set]
  by_cases hak : k = a
  · subst hak
    rw [if_pos rfl, if_neg (by omega)]
    exact hx b hb (by omega)
  · rw [if_neg hak]
    by_cases hbk : k = b
    · subst hbk
      rw [if_pos rfl]
      exact NS_symm (hx a ha (by omega))
    · rw [if_neg hbk]
      exact (List.pairwise_iff_getElem.mp habs) a b ha hb hab

theorem sum_strength (a b : Scalar) :
    (sum_mwp a b).strength = max a.strength b.strength := by
  cases a <;> cases b <;> rfl

/-- Fusing a monomial of the accumulator with an unrelated monomial with
the same deltas stays unrelated to the other accumulator entries. -/
theorem NS_fuse {m1 mono z : Monomial} (hd : m1.deltas = mono.deltas)
    (h1 : NS m1 z) (h2 : NS mono z) :
    NS (⟨sum_mwp m1.scalar mono.scalar, m1.deltas⟩ : Monomial) z := by
  constructor
  · by_contra hcon
    rw [Bool.not_eq_false, subsumes_iff] at hcon
    obtain ⟨hsub, hstr⟩ := hcon
    simp only at hsub hstr
    rw [sum_strength] at hstr
    rcases le_max_iff.mp hstr with hle | hle
    · have hst : subsumes m1 z = true := subsumes_iff.mpr ⟨hsub, hle⟩
      rw [h1.1] at hst
      cases hst
    · have hst : subsumes mono z = true := by
        rw [subsumes_iff]
        exact ⟨by rw [← hd]; exact hsub, hle⟩
      rw [h2.1] at hst
      cases hst
  · by_contra hcon
    rw [Bool.not_eq_false, subsumes_iff] at hcon
    obtain ⟨hsub, hstr⟩ := hcon
    simp only at hsub hstr
    rw [sum_strength] at hstr
    have h1le : m1.scalar.strength ≤ z.scalar.strength :=
      le_trans (le_max_left _ _) hstr
    have hst : subsumes z m1 = true := subsumes_iff.mpr ⟨hsub, h1le⟩
    rw [h1.2] at hst
    cases hst

theorem addRestFold_fold_absorbed (l : List Monomial) (nl : List Monomial)
    (i : Nat) (hnl : nl.Pairwise NS) :
    ((l.foldl (fun st m =>
      match inclusionFn st.1 m st.2 with
      | (true, i2, nl2) => (nl2 ++ [m], i2)
      | (false, i2, nl2) => (nl2, i2)) (nl, i)).1).Pairwise NS := by
  induction l generalizing nl i with
  | nil => exact hnl
  | cons m rest ih =>
    simp only [List.foldl_cons]
    cases hfn : inclusionFn nl m i with
    | mk b pr =>
      obtain ⟨i2, nl2⟩ := pr
      have hsubl : nl2.Sublist nl := by
        have := @inclusionFn_sublist nl m i hnl
        rw [hfn] at this
        simpa using this
      have hnl2 : nl2.Pairwise NS := hnl.sublist hsubl
      cases b with
      | true =>
        simp only [hfn]
        exact ih _ _ (pairwise_NS_append hnl2 (inclusionFn_true_NS hnl hfn))
      | false =>
        simp only [hfn]
        exact ih _ _ hnl2

theorem addRestFold_absorbed (qs : List Monomial) (j : Nat)
    (nl : List Monomial) (i : Nat) (hnl : nl.Pairwise NS) :
    (addRestFold qs j nl i).Pairwise NS := by
  unfold addRestFold
  exact addRestFold_fold_absorbed (qs.drop j) nl i hnl

/-- The main loop of `Polynomial.add` preserves absorbedness of the
accumulator. -/
theorem addGo_absorbed (qs newList : List Monomial) (i j : Nat)
    (hq : qs.Pairwise NS) :
    newList.Pairwise NS → (addGo qs newList i j).Pairwise NS := by
  induction newList, i, j using addGo.induct with
  | qs => exact qs
  | case1 newList i j h mono2 i2 nl2 hinc IH =>
    intro hnl
    unfold_let mono2 at hinc
    rw [addGo_step_false h hinc]
    have hsubl : nl2.Sublist newList := by
      have := @inclusionFn_sublist newList (qs.get ⟨j, h⟩) i hnl
      rw [hinc] at this
      simpa using this
    exact IH (hnl.sublist hsubl)
  | case2 newList i j h mono2 i2 nl2 hinc i3 nl3 hlen =>
    intro hnl
    unfold_let mono2 at hinc
    unfold_let i3 nl3 at hlen
    simp only [dite_eq_ite] at hlen
    rw [addGo_step_rest h hinc hlen]
    have hsubl : nl2.Sublist newList := by
      have := @inclusionFn_sublist newList (qs.get ⟨j, h⟩) i hnl
      rw [hinc] at this
      simpa using this
    apply addRestFold_absorbed
    by_cases hb : nl2 = []
    · subst hb
      rw [if_pos rfl, List.nil_append]
      exact hq.sublist (List.drop_sublist j qs)
    · rw [if_neg hb]
      exact hnl.sublist hsubl
  | case3 newList i j h mono2 i2 nl2 hinc i3 nl3 hne h2 mono1 hcmp IH =>
    intro hnl
    unfold_let mono1 mono2 i3 nl3 at hcmp
    unfold_let i3 nl3 at hne h2 IH
    unfold_let mono2 at hinc
    simp only [dite_eq_ite] at hne h2 hcmp IH
    rw [addGo_step_smaller h hinc hne h2 hcmp]
    have hsubl : nl2.Sublist newList := by
      have := @inclusionFn_sublist newList (qs.get ⟨j, h⟩) i hnl
      rw [hinc] at this
      simpa using this
    apply IH
    by_cases hb : nl2 = []
    · subst hb
      rw [if_pos rfl, List.nil_append]
      exact hq.sublist (List.drop_sublist j qs)
    · rw [if_neg hb]
      exact hnl.sublist hsubl
  | case4 newList i j h mono2 i2 nl2 hinc i3 nl3 hne h2 mono1 hcmp IH =>
    intro hnl
    unfold_let mono1 mono2 i3 nl3 at hcmp
    unfold_let i3 nl3 at hne h2
    unfold_let mono2 i3 nl3 at IH
    unfold_let mono2 at hinc
    simp only [dite_eq_ite] at hne h2 hcmp IH
    by_cases hb : nl2 = []
    · exfalso
      subst hb
      rw [bulk_get_eq h h2, compare_self] at hcmp
      cases hcmp
    · rw [addGo_step_larger h hinc hne h2 hcmp]
      have hsubl : nl2.Sublist newList := by
        have := @inclusionFn_sublist newList (qs.get ⟨j, h⟩) i hnl
        rw [hinc] at this
        simpa using this
      have hnl2 : nl2.Pairwise NS := hnl.sublist hsubl
      apply IH
      rw [if_neg hb] at h2 ⊢
      exact absorbed_insert hnl2 (inclusionFn_true_NS hnl hinc)
        (Nat.le_of_lt h2)
  | case5 newList i j h mono2 i2 nl2 hinc i3 nl3 hne h2 mono1 hcmp IH =>
    intro hnl
    unfold_let mono1 mono2 i3 nl3 at hcmp
    unfold_let i3 nl3 at hne h2
    unfold_let mono1 mono2 i3 nl3 at IH
    unfold_let mono2 at hinc
    simp only [dite_eq_ite] at hne h2 hcmp IH
    have hcr := hcmp
    rw [compare_eq_compareRec] at hcr
    have hdel := compareRec_eq_equal hcr
    rw [addGo_step_equal h hinc hne h2 hcmp]
    have hsubl : nl2.Sublist newList := by
      have := @inclusionFn_sublist newList (qs.get ⟨j, h⟩) i hnl
      rw [hinc] at this
      simpa using this
    have hNSall := inclusionFn_true_NS hnl hinc
    apply IH
    by_cases hb : nl2 = []
    · subst hb
      rw [bulk_get_eq h h2, sum_mwp_idem,
        show (⟨(qs.get ⟨j, h⟩).scalar, (qs.get ⟨j, h⟩).deltas⟩ : Monomial)
          = qs.get ⟨j, h⟩ from rfl]
      rw [if_pos rfl]
      simp only [List.nil_append, List.length_nil, Nat.min_zero]
      rw [drop_get_cons h, List.set_cons_zero]
      rw [← drop_get_cons h]
      exact hq.sublist (List.drop_sublist j qs)
    · have h2n := h2
      rw [if_neg hb] at h2n
      have hget2 : (if nl2 = [] then nl2 ++ qs.drop j else nl2).get
          ⟨min i2 nl2.length, h2⟩ = nl2.get ⟨min i2 nl2.length, h2n⟩ := by
        apply get_eq_of_some
        rw [if_neg hb, List.getElem?_eq_getElem h2n]
        simp [List.get_eq_getElem]
      rw [hget2] at hdel ⊢
      rw [if_neg hb]
      have hnl2 : nl2.Pairwise NS := hnl.sublist hsubl
      apply absorbed_set hnl2 h2n
      intro b hb2 hbne
      exact NS_fuse hdel
        (pairwise_NS_get hnl2 h2n hb2 (fun he => hbne he.symm))
        (hNSall _ (List.get_mem _ _ _))
  | case6 newList i j h mono2 i2 nl2 hinc i3 nl3 hne hnlt =>
    intro _
    exfalso
    unfold_let i3 nl3 at hne hnlt
    simp only [dite_eq_ite] at hne hnlt
    by_cases hb : nl2 = []
    · subst hb
      simp only [if_pos rfl, List.nil_append, List.length_nil,
        Nat.min_zero, List.length_drop] at hne hnlt
      omega
    · simp only [if_neg hb] at hne hnlt
      have := Nat.min_le_right i2 nl2.length
      omega
  | case7 newList i j hj =>
    intro hnl
    rw [addGo_step_done qs newList i j hj]
    exact hnl

theorem compare_smaller_trans {a b c : List Delta}
    (h1 : Polynomial.compare a b = .smaller)
    (h2 : Polynomial.compare b c = .smaller) :
    Polynomial.compare a c = .smaller := by
  rw [compare_eq_compareRec] at h1 h2 ⊢
  exact compareRec_trans h1 h2

theorem compare_larger_flip {a b : List Delta}
    (h : Polynomial.compare a b = .larger) :
    Polynomial.compare b a = .smaller := by
  rw [compare_eq_compareRec] at h ⊢
  exact (compareRec_swap b a).mpr h

/-- Every monomial of a merge takes its delta list from one of the two
inputs (scalar fusion keeps the left head's deltas). -/
theorem mergeMono_deltas_sub (l r : List Monomial) :
    ∀ x ∈ mergeMono l r,
      (∃ y ∈ l, x.deltas = y.deltas) ∨ (∃ y ∈ r, x.deltas = y.deltas) := by
  induction l, r using mergeMono.induct with
  | case1 right =>
    intro x hx
    exact Or.inr ⟨x, by simpa [mergeMono] using hx, rfl⟩
  | case2 lh lt =>
    intro x hx
    exact Or.inl ⟨x, by simpa [mergeMono] using hx, rfl⟩
  | case3 lh lt rh rt hcmp IH =>
    intro x hx
    simp only [mergeMono, hcmp] at hx
    rcases List.mem_cons.mp hx with rfl | hx2
    · exact Or.inl ⟨x, List.mem_cons_self _ _, rfl⟩
    · rcases IH x hx2 with ⟨y, hy, he⟩ | ⟨y, hy, he⟩
      · exact Or.inl ⟨y, List.mem_cons_of_mem _ hy, he⟩
      · exact Or.inr ⟨y, hy, he⟩
  | case4 lh lt rh rt hcmp IH =>
    intro x hx
    simp only [mergeMono, hcmp] at hx
    rcases List.mem_cons.mp hx with rfl | hx2
    · exact Or.inr ⟨x, List.mem_cons_self _ _, rfl⟩
    · rcases IH x hx2 with ⟨y, hy, he⟩ | ⟨y, hy, he⟩
      · exact Or.inl ⟨y, hy, he⟩
      · exact Or.inr ⟨y, List.mem_cons_of_mem _ hy, he⟩
  | case5 lh lt rh rt hcmp s hs IH =>
    unfold_let s at hs
    intro x hx
    simp only [mergeMono, hcmp] at hx
    rw [if_pos hs] at hx
    rcases List.mem_cons.mp hx with rfl | hx2
    · exact Or.inl ⟨lh, List.mem_cons_self _ _, rfl⟩
    · rcases IH x hx2 with ⟨y, hy, he⟩ | ⟨y, hy, he⟩
      · exact Or.inl ⟨y, List.mem_cons_of_mem _ hy, he⟩
      · exact Or.inr ⟨y, List.mem_cons_of_mem _ hy, he⟩
  | case6 lh lt rh rt hcmp s hs IH =>
    unfold_let s at hs
    intro x hx
    simp only [mergeMono, hcmp] at hx
    rw [if_neg hs] at hx
    rcases IH x hx with ⟨y, hy, he⟩ | ⟨y, hy, he⟩
    · exact Or.inl ⟨y, List.mem_cons_of_mem _ hy, he⟩
    · exact Or.inr ⟨y, List.mem_cons_of_mem _ hy, he⟩

/-- The merge of two strictly sorted lists is strictly sorted. -/
theorem mergeMono_sorted {l r : List Monomial} (hl : SortedPoly l)
    (hr : SortedPoly r) : SortedPoly (mergeMono l r) := by
  induction l, r using mergeMono.induct with
  | case1 right => simpa [mergeMono] using hr
  | case2 lh lt => simpa [mergeMono] using hl
  | case3 lh lt rh rt hcmp IH =>
    simp only [mergeMono, hcmp]
    refine List.pairwise_cons.mpr ⟨?_, ?_⟩
    · intro x hx
      rcases mergeMono_deltas_sub _ _ x hx with ⟨y, hy, he⟩ | ⟨y, hy, he⟩
      · rw [he]
        exact (List.pairwise_cons.mp hl).1 y hy
      · rcases List.mem_cons.mp hy with rfl | hy2
        · rw [he]
          exact hcmp
        · rw [he]
          exact compare_smaller_trans hcmp
            ((List.pairwise_cons.mp hr).1 y hy2)
    · exact IH (List.pairwise_cons.mp hl).2 hr
  | case4 lh lt rh rt hcmp IH =>
    simp only [mergeMono, hcmp]
    refine List.pairwise_cons.mpr ⟨?_, ?_⟩
    · intro x hx
      rcases mergeMono_deltas_sub _ _ x hx with ⟨y, hy, he⟩ | ⟨y, hy, he⟩
      · rcases List.mem_cons.mp hy with rfl | hy2
        · rw [he]
          exact compare_larger_flip hcmp
        · rw [he]
          exact compare_smaller_trans (compare_larger_flip hcmp)
            ((List.pairwise_cons.mp hl).1 y hy2)
      · rw [he]
        exact (List.pairwise_cons.mp hr).1 y hy
    · exact IH hl (List.pairwise_cons.mp hr).2
  | case5 lh lt rh rt hcmp s hs IH =>
    unfold_let s at hs
    have hdel : lh.deltas = rh.deltas := by
      have hc := hcmp
      rw [compare_eq_compareRec] at hc
      exact compareRec_eq_equal hc
    simp only [mergeMono, hcmp]
    rw [if_pos hs]
    refine List.pairwise_cons.mpr ⟨?_, ?_⟩
    · intro x hx
      rcases mergeMono_deltas_sub _ _ x hx with ⟨y, hy, he⟩ | ⟨y, hy, he⟩
      · rw [he]
        exact (List.pairwise_cons.mp hl).1 y hy
      · rw [he]
        have hry := (List.pairwise_cons.mp hr).1 y hy
        show Polynomial.compare lh.deltas y.deltas = .smaller
        rw [hdel]
        exact hry
    · exact IH (List.pairwise_cons.mp hl).2 (List.pairwise_cons.mp hr).2
  | case6 lh lt rh rt hcmp s hs IH =>
    unfold_let s at hs
    simp only [mergeMono, hcmp]
    rw [if_neg hs]
    exact IH (List.pairwise_cons.mp hl).2 (List.pairwise_cons.mp hr).2

/-- `sort_monomials` always produces a strictly sorted list. -/
theorem sort_monomials_sorted (l : List Monomial) :
    SortedPoly (sort_monomials l) := by
  induction l using sort_monomials.induct with
  | case1 h1 h2 =>
    rw [sort_monomials]
    exact List.Pairwise.nil
  | case2 m0 rest h1 hz h2 => simp [monomialIsZeroStr] at hz
  | case3 m0 rest h1 hz h2 =>
    rw [sort_monomials, dif_pos h1]
    have hrest : rest = [] := by
      simp only [List.length_cons] at h1
      exact List.length_eq_zero.mp (by omega)
    subst hrest
    simp [monomialIsZeroStr]
  | case4 l hlen mid IH1 IH2 =>
    unfold_let mid at IH1 IH2
    rw [sort_monomials, dif_neg hlen]
    exact mergeMono_sorted IH1 IH2

/-- In an absorbed list, delta lists are pairwise distinct (equal delta
lists force a subsumption one way by totality of the scalar strength). -/
theorem absorbed_distinct {l : List Monomial} (h : l.Pairwise NS) :
    l.Pairwise (fun a b => a.deltas ≠ b.deltas) := by
  refine h.imp ?_
  intro a b hNS he
  rcases Nat.le_total b.scalar.strength a.scalar.strength with hle | hle
  · have hst : subsumes a b = true :=
      subsumes_iff.mpr ⟨fun d hd => by rw [← he]; exact hd, hle⟩
    rw [hNS.1] at hst
    cases hst
  · have hst : subsumes b a = true :=
      subsumes_iff.mpr ⟨fun d hd => by rw [he]; exact hd, hle⟩
    rw [hNS.2] at hst
    cases hst

/-- When no two monomials across the inputs carry the same delta list, the
merge never fuses and is a permutation of the concatenation. -/
theorem mergeMono_perm {l r : List Monomial}
    (hcross : ∀ x ∈ l, ∀ y ∈ r, x.deltas ≠ y.deltas) :
    (mergeMono l r).Perm (l ++ r) := by
  induction l, r using mergeMono.induct with
  | case1 right => simp [mergeMono]
  | case2 lh lt => simp [mergeMono]
  | case3 lh lt rh rt hcmp IH =>
    simp only [mergeMono, hcmp]
    exact (IH (fun x hx y hy =>
      hcross x (List.mem_cons_of_mem _ hx) y hy)).cons lh
  | case4 lh lt rh rt hcmp IH =>
    simp only [mergeMono, hcmp]
    refine ((IH ?_).cons rh).trans ?_
    · intro x hx y hy
      exact hcross x hx y (List.mem_cons_of_mem _ hy)
    · exact List.perm_middle.symm
  | case5 lh lt rh rt hcmp s hs IH =>
    exfalso
    have hc := hcmp
    rw [compare_eq_compareRec] at hc
    exact hcross lh (List.mem_cons_self _ _) rh (List.mem_cons_self _ _)
      (compareRec_eq_equal hc)
  | case6 lh lt rh rt hcmp s hs IH =>
    exfalso
    have hc := hcmp
    rw [compare_eq_compareRec] at hc
    exact hcross lh (List.mem_cons_self _ _) rh (List.mem_cons_self _ _)
      (compareRec_eq_equal hc)

/-- On a list with pairwise distinct delta lists, `sort_monomials` is a
permutation of its input. -/
theorem sort_monomials_perm {l : List Monomial}
    (h : l.Pairwise (fun a b => a.deltas ≠ b.deltas)) :
    (sort_monomials l).Perm l := by
  induction l using sort_monomials.induct with
  | case1 h1 h2 =>
    rw [sort_monomials]
    exact List.Perm.nil
  | case2 m0 rest h1 hz h2 => simp [monomialIsZeroStr] at hz
  | case3 m0 rest h1 hz h2 =>
    rw [sort_monomials, dif_pos h1]
    simp [monomialIsZeroStr]
  | case4 x hlen mid IH1 IH2 =>
    unfold_let mid at IH1 IH2
    rw [sort_monomials, dif_neg hlen]
    have hd : (x.drop (x.length / 2)).Pairwise
        (fun a b => a.deltas ≠ b.deltas) :=
      h.sublist (List.drop_sublist _ _)
    have ht : (x.take (x.length / 2)).Pairwise
        (fun a b => a.deltas ≠ b.deltas) :=
      h.sublist (List.take_sublist _ _)
    have hperm1 := IH1 hd
    have hperm2 := IH2 ht
    have hx2 : ((x.take (x.length / 2)) ++ x.drop (x.length / 2)).Pairwise
        (fun a b => a.deltas ≠ b.deltas) := by
      rw [List.take_append_drop]
      exact h
    have hcross : ∀ a ∈ sort_monomials (x.drop (x.length / 2)),
        ∀ b ∈ sort_monomials (x.take (x.length / 2)),
        a.deltas ≠ b.deltas := by
      intro a ha b hb he
      have ha2 : a ∈ x.drop (x.length / 2) := hperm1.mem_iff.mp ha
      have hb2 : b ∈ x.take (x.length / 2) := hperm2.mem_iff.mp hb
      exact (List.pairwise_append.mp hx2).2.2 b hb2 a ha2 he.symm
    refine (mergeMono_perm hcross).trans
      ((hperm1.append hperm2).trans ?_)
    refine (@List.perm_append_comm _ (x.drop (x.length / 2))
      (x.take (x.length / 2))).trans ?_
    rw [List.take_append_drop]

/-- C4 (confirmed): the sum of two sorted, absorbed polynomials is in
normal form — no monomial of `P.add Q` subsumes another monomial of the
result, and the result's monomial list is sorted in the total order of
`Polynomial.compare`. -/
theorem claim_c4_add_normal_form (p q : List Monomial)
    (hps : SortedPoly p) (hpa : AbsorbedPoly p)
    (hqs : SortedPoly q) (hqa : AbsorbedPoly q) :
    AbsorbedPoly (Polynomial.add p q) ∧ SortedPoly (Polynomial.add p q)
    := by
  unfold Polynomial.add
  by_cases hpq : p = [] ∧ q = []
  · rw [if_pos hpq]
    refine ⟨?_, ?_⟩ <;> simp [Polynomial.ofList]
  · rw [if_neg hpq]
    by_cases hp : p = []
    · rw [if_pos hp]
      exact ⟨hqa, hqs⟩
    · rw [if_neg hp]
      by_cases hq : q = []
      · rw [if_pos hq]
        exact ⟨hpa, hps⟩
      · rw [if_neg hq]
        have habsGo : (addGo q p 0 0).Pairwise NS :=
          addGo_absorbed q p 0 0 hqa hpa
        have hperm := sort_monomials_perm (absorbed_distinct habsGo)
        have habsS : (sort_monomials (addGo q p 0 0)).Pairwise NS :=
          (List.Perm.pairwise_iff (fun h => NS_symm h) hperm).mpr habsGo
        have hsortS := sort_monomials_sorted (addGo q p 0 0)
        unfold Polynomial.ofList
        split
        · refine ⟨?_, ?_⟩ <;> simp
        · exact ⟨habsS, hsortS⟩

theorem claim_c4_add_normal_form_witness :
    (SortedPoly [(⟨.m, [(0, 0)]⟩ : Monomial)] ∧
      AbsorbedPoly [(⟨.m, [(0, 0)]⟩ : Monomial)] ∧
      SortedPoly [(⟨.w, [(0, 1)]⟩ : Monomial)] ∧
      AbsorbedPoly [(⟨.w, [(0, 1)]⟩ : Monomial)]) ∧
    (AbsorbedPoly (Polynomial.add [⟨.m, [(0, 0)]⟩] [⟨.w, [(0, 1)]⟩]) ∧
      SortedPoly (Polynomial.add [⟨.m, [(0, 0)]⟩] [⟨.w, [(0, 1)]⟩])) :=
  ⟨⟨by decide, by decide, by decide, by decide⟩,
    claim_c4_add_normal_form _ _ (by decide) (by decide) (by decide)
      (by decide)⟩

/-! ## Lattice idempotence of `Polynomial.add` -/

theorem strength_inj {a b : Scalar} (h : a.strength = b.strength) :
    a = b := by
  cases a <;> cases b <;> revert h <;> decide

theorem sorted_mem_eq {l1 : List Delta} :
    ∀ {l2 : List Delta}, l1.Pairwise (fun a b => a.2 < b.2) →
      l2.Pairwise (fun a b => a.2 < b.2) →
      (∀ x ∈ l1, x ∈ l2) → (∀ x ∈ l2, x ∈ l1) → l1 = l2 := by
  induction l1 with
  | nil =>
    intro l2 h1 h2 hs1 hs2
    cases l2 with
    | nil => rfl
    | cons b ys => exact absurd (hs2 b (List.mem_cons_self _ _)) (by simp)
  | cons a xs ih =>
    intro l2 h1 h2 hs1 hs2
    cases l2 with
    | nil => exact absurd (hs1 a (List.mem_cons_self _ _)) (by simp)
    | cons b ys =>
      have hab : a = b := by
        by_contra hne
        have ha2 : a ∈ ys := by
          rcases List.mem_cons.mp (hs1 a (List.mem_cons_self _ _)) with h | h
          · exact absurd h hne
          · exact h
        have hb2 : b ∈ xs := by
          rcases List.mem_cons.mp (hs2 b (List.mem_cons_self _ _)) with h | h
          · exact absurd h.symm hne
          · exact h
        have hlt1 := (List.pairwise_cons.mp h2).1 a ha2
        have hlt2 := (List.pairwise_cons.mp h1).1 b hb2
        omega
      subst hab
      congr 1
      apply ih (List.pairwise_cons.mp h1).2 (List.pairwise_cons.mp h2).2
      · intro x hx
        rcases List.mem_cons.mp (hs1 x (List.mem_cons_of_mem _ hx))
          with rfl | h
        · exfalso
          have := (List.pairwise_cons.mp h1).1 _ hx
          omega
        · exact h
      · intro x hx
        rcases List.mem_cons.mp (hs2 x (List.mem_cons_of_mem _ hx))
          with rfl | h
        · exfalso
          have := (List.pairwise_cons.mp h2).1 _ hx
          omega
        · exact h

/-- Two well-formed monomials that subsume each other are equal. -/
theorem mutual_subsumes_eq {a b : Monomial} (hwa : WfMono a)
    (hwb : WfMono b) (h1 : subsumes a b = true)
    (h2 : subsumes b a = true) : a = b := by
  rw [subsumes_iff] at h1 h2
  rcases a with ⟨s1, d1⟩
  rcases b with ⟨s2, d2⟩
  simp only [Monomial.mk.injEq]
  exact ⟨strength_inj (Nat.le_antisymm h2.2 h1.2),
    sorted_mem_eq hwa hwb h1.1 h2.1⟩

theorem NS_ne_deltas {a b : Monomial} (h : NS a b) :
    a.deltas ≠ b.deltas := by
  intro he
  rcases Nat.le_total b.scalar.strength a.scalar.strength with hle | hle
  · have hst : subsumes a b = true :=
      subsumes_iff.mpr ⟨fun d hd => by rw [← he]; exact hd, hle⟩
    rw [h.1] at hst
    cases hst
  · have hst : subsumes b a = true :=
      subsumes_iff.mpr ⟨fun d hd => by rw [he]; exact hd, hle⟩
    rw [h.2] at hst
    cases hst

/-- A scan over monomials unrelated to the filtered one changes nothing. -/
theorem cf_no_change (rest kept : List Monomial) (mono : Monomial)
    (i : Nat) (h : ∀ z ∈ rest, NS mono z) :
    containsFilterGo kept rest mono i = (.empty, i, kept ++ rest) := by
  induction rest generalizing kept with
  | nil => simp [containsFilterGo]
  | cons m rest2 ih =>
    rw [containsFilterGo]
    have hNSm : NS mono m := h m (List.mem_cons_self _ _)
    have hincm : Monomial.inclusion m mono = .empty :=
      inclusion_empty_iff.mpr ⟨hNSm.1, hNSm.2⟩
    rw [hincm]
    simp only
    rw [ih (kept ++ [m]) (fun z hz => h z (List.mem_cons_of_mem _ hz))]
    rw [List.append_assoc]
    rfl

theorem inclusionFn_no_change {nl : List Monomial} {mono : Monomial}
    (i : Nat) (h : ∀ z ∈ nl, NS mono z) :
    inclusionFn nl mono i = (true, i, nl) := by
  unfold inclusionFn
  rw [cf_no_change nl [] mono i h]
  simp

theorem perm_cons_removeFirst {l : List Monomial} {m : Monomial}
    (h : m ∈ l) : l.Perm (m :: removeFirst l m) := by
  induction l with
  | nil => cases h
  | cons a rest ih =>
    by_cases ha : a = m
    · subst ha
      simp [removeFirst]
    · have hm : m ∈ rest := by
        rcases List.mem_cons.mp h with rfl | hr
        · exact absurd rfl ha
        · exact hr
      simp only [removeFirst, if_neg ha]
      exact ((ih hm).cons a).trans (List.Perm.swap m a _)

theorem sortedPoly_eq_of_perm {l1 l2 : List Monomial} (hp : l1.Perm l2)
    (h1 : SortedPoly l1) (h2 : SortedPoly l2) : l1 = l2 := by
  haveI : IsAntisymm Monomial
      (fun a b => Polynomial.compare a.deltas b.deltas = .smaller) := by
    constructor
    intro a b hab hba
    exfalso
    rw [compare_eq_compareRec] at hab hba
    have hsw := (compareRec_swap b.deltas a.deltas).mp hba
    rw [hab] at hsw
    cases hsw
  exact List.eq_of_perm_of_sorted hp h1 h2

/-- The `contains_filter` scan against an absorbed, well-formed list that
holds a subsumer of the monomial: either an early `CONTAINS` verdict with
the list unchanged, or the monomial itself was the (unique, mutual)
subsumer and exactly its first copy is removed. -/
theorem cf_c5_go (rest : List Monomial) :
    ∀ (kept : List Monomial) (mono : Monomial) (i : Nat),
    (kept ++ rest).Pairwise NS →
    (∀ z ∈ kept ++ rest, WfMono z) → WfMono mono →
    (∀ z ∈ kept, NS mono z) →
    (∃ y ∈ rest, subsumes y mono = true) →
    ((containsFilterGo kept rest mono i).1 = .contains ∧
      (containsFilterGo kept rest mono i).2.2 = kept ++ rest)
    ∨ (mono ∈ rest ∧
      (containsFilterGo kept rest mono i).1 ≠ .contains ∧
      (containsFilterGo kept rest mono i).2.2
        = kept ++ removeFirst rest mono) := by
  induction rest with
  | nil =>
    intro kept mono i habs hwf hwm hkept hy
    obtain ⟨y, hy0, _⟩ := hy
    cases hy0
  | cons m rest2 ih =>
    intro kept mono i habs hwf hwm hkept hy
    rw [containsFilterGo]
    cases hinc : Monomial.inclusion m mono with
    | contains =>
      simp only
      have hsmm := (inclusion_contains_iff m mono).mp hinc
      have hmem_m : m ∈ kept ++ m :: rest2 := by simp
      have hm_eq : m = mono := by
        obtain ⟨y, hy0, hysub⟩ := hy
        rcases List.mem_cons.mp hy0 with rfl | hy2
        · exact mutual_subsumes_eq (hwf y hmem_m) hwm hysub hsmm
        · exfalso
          have hym := subsumes_trans hysub hsmm
          have hNSmy : NS m y :=
            (List.pairwise_cons.mp
              (List.pairwise_append.mp habs).2.1).1 y hy2
          rw [hNSmy.2] at hym
          cases hym
      subst hm_eq
      cases hmem : kept.contains m with
      | true =>
        exfalso
        have hm2 : m ∈ kept := by simpa using hmem
        have hc := (hkept m hm2).1
        rw [subsumes_refl] at hc
        cases hc
      | false =>
        simp only [Bool.false_eq_true, if_false]
        have hrest2NS : ∀ z ∈ rest2, NS m z := fun z hz =>
          (List.pairwise_cons.mp
            (List.pairwise_append.mp habs).2.1).1 z hz
        rw [cf_no_change rest2 kept m _ hrest2NS]
        right
        refine ⟨List.mem_cons_self _ _, by simp, ?_⟩
        simp [removeFirst]
    | included =>
      simp only
      left
      exact ⟨by trivial, by trivial⟩
    | empty =>
      simp only
      have hNSm : NS mono m := inclusion_empty_iff.mp hinc
      have heq : (kept ++ [m]) ++ rest2 = kept ++ m :: rest2 := by
        rw [List.append_assoc]
        rfl
      have hy2 : ∃ y ∈ rest2, subsumes y mono = true := by
        obtain ⟨y, hy0, hysub⟩ := hy
        rcases List.mem_cons.mp hy0 with rfl | hyr
        · rw [hNSm.2] at hysub
          cases hysub
        · exact ⟨y, hyr, hysub⟩
      have habs2 : ((kept ++ [m]) ++ rest2).Pairwise NS := by
        rw [heq]
        exact habs
      have hwf2 : ∀ z ∈ (kept ++ [m]) ++ rest2, WfMono z := by
        rw [heq]
        exact hwf
      have hkept2 : ∀ z ∈ kept ++ [m], NS mono z := by
        intro z hz
        rcases List.mem_append.mp hz with hz1 | hz2
        · exact hkept z hz1
        · obtain rfl : z = m := by simpa using hz2
          exact hNSm
      have hres := ih (kept ++ [m]) mono i habs2 hwf2 hwm hkept2 hy2
      have hne : m ≠ mono := by
        intro he
        have h0 := hNSm.2
        rw [he, subsumes_refl] at h0
        cases h0
      rcases hres with ⟨hv, hres2⟩ | ⟨hmem2, hv, hres2⟩
      · left
        rw [heq] at hres2
        exact ⟨hv, hres2⟩
      · right
        refine ⟨List.mem_cons_of_mem _ hmem2, hv, ?_⟩
        rw [hres2,
          show removeFirst (m :: rest2) mono = m :: removeFirst rest2 mono
            from by simp [removeFirst, hne],
          List.append_assoc]
        rfl

/-- `Polynomial.inclusion` against an absorbed, well-formed accumulator
holding a subsumer: either rejection with the accumulator unchanged, or
the monomial equals its subsumer and that single copy is swapped out. -/
theorem inclusionFn_c5 {nl : List Monomial} {mono : Monomial} {i : Nat}
    (habs : nl.Pairwise NS) (hwf : ∀ z ∈ nl, WfMono z) (hwm : WfMono mono)
    (hy : ∃ y ∈ nl, subsumes y mono = true) :
    (∃ i2, inclusionFn nl mono i = (false, i2, nl))
    ∨ (mono ∈ nl ∧
      ∃ i2, inclusionFn nl mono i = (true, i2, removeFirst nl mono)) := by
  have hres := cf_c5_go nl [] mono i (by simpa using habs)
    (by simpa using hwf) hwm (by intro z hz; cases hz) hy
  unfold inclusionFn
  cases hgo : containsFilterGo [] nl mono i with
  | mk verdict pr =>
    obtain ⟨i3, l3⟩ := pr
    rw [hgo] at hres
    rcases hres with ⟨hv, hres2⟩ | ⟨hmem, hv, hres2⟩
    · left
      simp only at hv hres2
      subst hv
      simp only [List.nil_append] at hres2
      subst hres2
      exact ⟨i3, rfl⟩
    · right
      simp only [List.nil_append] at hres2 hv
      refine ⟨hmem, i3, ?_⟩
      subst hres2
      cases verdict with
      | contains => exact absurd rfl hv
      | included => rfl
      | empty => rfl

theorem bulk_get_eq2 {qs nl2 : List Monomial} {i2 j : Nat}
    (h : j < qs.length) (hb : nl2 = [])
    (h2 : min i2 nl2.length
      < (if nl2 = [] then nl2 ++ qs.drop j else nl2).length) :
    (if nl2 = [] then nl2 ++ qs.drop j else nl2).get
      ⟨min i2 nl2.length, h2⟩ = qs.get ⟨j, h⟩ := by
  apply get_eq_of_some
  rw [if_pos hb, hb]
  simp only [List.nil_append, List.length_nil, Nat.min_zero,
    List.getElem?_drop, Nat.add_zero]
  rw [List.getElem?_eq_getElem h]
  simp [List.get_eq_getElem]

/-- Each step of the trailing loop of `Polynomial.add` keeps the
accumulator a permutation of `p` when every processed monomial has a
subsumer in `p`. -/
theorem fold_c5 (p : List Monomial) (hpa : AbsorbedPoly p) (hwp : WfPoly p)
    (l : List Monomial) : ∀ (acc : List Monomial) (i : Nat),
    acc.Perm p →
    (∀ x ∈ l, (∃ y ∈ p, subsumes y x = true) ∧ WfMono x) →
    ((l.foldl (fun st m =>
      match inclusionFn st.1 m st.2 with
      | (true, i2, nl2) => (nl2 ++ [m], i2)
      | (false, i2, nl2) => (nl2, i2)) (acc, i)).1).Perm p := by
  induction l with
  | nil =>
    intro acc i hacc _
    exact hacc
  | cons m rest ihl =>
    intro acc i hacc hl
    simp only [List.foldl_cons]
    have haccabs : acc.Pairwise NS :=
      (List.Perm.pairwise_iff (fun hx => NS_symm hx) hacc).mpr hpa
    have haccwf : ∀ z ∈ acc, WfMono z := fun z hz =>
      hwp z (hacc.mem_iff.mp hz)
    have hym : ∃ y ∈ acc, subsumes y m = true := by
      obtain ⟨⟨y, hy, hs⟩, _⟩ := hl m (List.mem_cons_self _ _)
      exact ⟨y, hacc.mem_iff.mpr hy, hs⟩
    rcases inclusionFn_c5 (i := i) haccabs haccwf
        (hl m (List.mem_cons_self _ _)).2 hym with
      ⟨i2, hfn⟩ | ⟨hmem, i2, hfn⟩
    · simp only [hfn]
      exact ihl acc i2 hacc (fun x hx => hl x (List.mem_cons_of_mem _ hx))
    · simp only [hfn]
      refine ihl _ i2 ?_ (fun x hx => hl x (List.mem_cons_of_mem _ hx))
      exact (List.perm_append_comm.trans
        (perm_cons_removeFirst hmem).symm).trans hacc

/-- Entering the trailing loop of `Polynomial.add` while the current
monomial is pending re-insertion restores the permutation invariant. -/
theorem rest_pending (qs p : List Monomial)
    (hpa : AbsorbedPoly p) (hwp : WfPoly p) (hwq : WfPoly qs)
    (hle : ∀ x ∈ qs, ∃ y ∈ p, subsumes y x = true)
    {j : Nat} (h : j < qs.length) (acc : List Monomial) (i : Nat)
    (hpend : ((qs.get ⟨j, h⟩) :: acc).Perm p) :
    (addRestFold qs j acc i).Perm p := by
  unfold addRestFold
  rw [drop_get_cons h, List.foldl_cons]
  have hNSall : ∀ z ∈ acc, NS (qs.get ⟨j, h⟩) z :=
    (List.pairwise_cons.mp
      ((List.Perm.pairwise_iff (fun hx => NS_symm hx) hpend).mpr hpa)).1
  simp only [inclusionFn_no_change i hNSall]
  apply fold_c5 p hpa hwp
  · exact List.perm_append_comm.trans hpend
  · intro x hx
    have hxq : x ∈ qs := (List.drop_sublist _ _).subset hx
    exact ⟨hle x hxq, hwq x hxq⟩

/-- If a monomial of the list subsumes every monomial of the list, an
absorbed list is that singleton. -/
theorem qs_singleton {qs : List Monomial} {j : Nat} (hj : j < qs.length)
    (hqa : AbsorbedPoly qs)
    (hall : ∀ x ∈ qs, subsumes (qs.get ⟨j, hj⟩) x = true) :
    qs = [qs.get ⟨j, hj⟩] ∧ j = 0 := by
  have hlen : qs.length = 1 := by
    by_contra hne
    have hk : ∃ k, k < qs.length ∧ k ≠ j := by
      rcases Nat.eq_zero_or_pos j with rfl | hj0
      · exact ⟨1, by omega, by omega⟩
      · exact ⟨0, by omega, by omega⟩
    obtain ⟨k, hk1, hk2⟩ := hk
    have hNS := pairwise_NS_get hqa hj hk1 (fun he => hk2 he.symm)
    have hs := hall (qs.get ⟨k, hk1⟩) (List.get_mem _ _ _)
    rw [hNS.1] at hs
    cases hs
  have hj0 : j = 0 := by omega
  subst hj0
  cases qs with
  | nil => cases hj
  | cons a rest =>
    have hr : rest = [] := by
      simp only [List.length_cons] at hlen
      exact List.length_eq_zero.mp (by omega)
    subst hr
    exact ⟨rfl, rfl⟩

/-- Permutation invariant of the main loop of `Polynomial.add` when every
monomial of the second polynomial is subsumed by one of `p`: from a state
whose accumulator is a permutation of `p` (or lacks exactly the pending
current monomial) the loop returns a permutation of `p`. -/
theorem addGo_c5 (qs p : List Monomial)
    (hpa : AbsorbedPoly p) (hwp : WfPoly p)
    (hqa : AbsorbedPoly qs) (hwq : WfPoly qs)
    (hle : ∀ x ∈ qs, ∃ y ∈ p, subsumes y x = true)
    (newList : List Monomial) (i j : Nat) :
    (newList.Perm p → (addGo qs newList i j).Perm p) ∧
    (∀ (hj : j < qs.length),
      ((qs.get ⟨j, hj⟩) :: newList).Perm p →
        (addGo qs newList i j).Perm p) := by
  induction newList, i, j using addGo.induct with
  | qs => exact qs
  | case1 newList i j h mono2 i2 nl2 hinc IH =>
    unfold_let mono2 at hinc
    constructor
    · intro hperm
      have habs := (List.Perm.pairwise_iff (fun hx => NS_symm hx)
        hperm).mpr hpa
      have hwfl : ∀ z ∈ newList, WfMono z := fun z hz =>
        hwp z (hperm.mem_iff.mp hz)
      have hwm : WfMono (qs.get ⟨j, h⟩) := hwq _ (List.get_mem _ _ _)
      have hym : ∃ y ∈ newList, subsumes y (qs.get ⟨j, h⟩) = true := by
        obtain ⟨y, hy, hs⟩ := hle _ (List.get_mem qs j h)
        exact ⟨y, hperm.mem_iff.mpr hy, hs⟩
      rcases inclusionFn_c5 (i := i) habs hwfl hwm hym with
        ⟨i2b, hfn⟩ | ⟨hmem, i2b, hfn⟩
      · rw [hinc] at hfn
        obtain ⟨hi2, hnl⟩ : i2 = i2b ∧ nl2 = newList := by simpa using hfn
        rw [addGo_step_false h hinc]
        refine IH.1 ?_
        rw [hnl]
        exact hperm
      · rw [hinc] at hfn
        simp at hfn
    · intro hj hperm
      have hNSall : ∀ z ∈ newList, NS (qs.get ⟨j, h⟩) z :=
        (List.pairwise_cons.mp ((List.Perm.pairwise_iff
          (fun hx => NS_symm hx) hperm).mpr hpa)).1
      have hfn := inclusionFn_no_change i hNSall
      rw [hinc] at hfn
      simp at hfn
  | case2 newList i j h mono2 i2 nl2 hinc i3 nl3 hlen =>
    unfold_let mono2 at hinc
    unfold_let i3 nl3 at hlen
    simp only [dite_eq_ite] at hlen
    constructor
    · intro hperm
      have habs := (List.Perm.pairwise_iff (fun hx => NS_symm hx)
        hperm).mpr hpa
      have hwfl : ∀ z ∈ newList, WfMono z := fun z hz =>
        hwp z (hperm.mem_iff.mp hz)
      have hwm : WfMono (qs.get ⟨j, h⟩) := hwq _ (List.get_mem _ _ _)
      have hym : ∃ y ∈ newList, subsumes y (qs.get ⟨j, h⟩) = true := by
        obtain ⟨y, hy, hs⟩ := hle _ (List.get_mem qs j h)
        exact ⟨y, hperm.mem_iff.mpr hy, hs⟩
      rcases inclusionFn_c5 (i := i) habs hwfl hwm hym with
        ⟨i2b, hfn⟩ | ⟨hmem, i2b, hfn⟩
      · rw [hinc] at hfn
        simp at hfn
      · rw [hinc] at hfn
        obtain ⟨hi2, hnl⟩ :
            i2 = i2b ∧ nl2 = removeFirst newList (qs.get ⟨j, h⟩) := by
          simpa using hfn
        by_cases hb : nl2 = []
        · exfalso
          rw [hb] at hlen
          simp at hlen
          omega
        · rw [addGo_step_rest h hinc hlen, if_neg hb]
          refine rest_pending qs p hpa hwp hwq hle h _ _ ?_
          rw [hnl]
          exact (perm_cons_removeFirst hmem).symm.trans hperm
    · intro hj hperm
      have hNSall : ∀ z ∈ newList, NS (qs.get ⟨j, h⟩) z :=
        (List.pairwise_cons.mp ((List.Perm.pairwise_iff
          (fun hx => NS_symm hx) hperm).mpr hpa)).1
      have hfn := inclusionFn_no_change i hNSall
      rw [hinc] at hfn
      obtain ⟨hi2, hnl⟩ : i2 = i ∧ nl2 = newList := by simpa using hfn
      by_cases hb : nl2 = []
      · exfalso
        rw [hb] at hlen
        simp at hlen
        omega
      · rw [addGo_step_rest h hinc hlen, if_neg hb]
        refine rest_pending qs p hpa hwp hwq hle h _ _ ?_
        rw [hnl]
        exact hperm
  | case3 newList i j h mono2 i2 nl2 hinc i3 nl3 hne h2 mono1 hcmp IH =>
    unfold_let mono1 mono2 i3 nl3 at hcmp
    unfold_let i3 nl3 at hne h2 IH
    unfold_let mono2 at hinc
    simp only [dite_eq_ite] at hne h2 hcmp IH
    constructor
    · intro hperm
      have habs := (List.Perm.pairwise_iff (fun hx => NS_symm hx)
        hperm).mpr hpa
      have hwfl : ∀ z ∈ newList, WfMono z := fun z hz =>
        hwp z (hperm.mem_iff.mp hz)
      have hwm : WfMono (qs.get ⟨j, h⟩) := hwq _ (List.get_mem _ _ _)
      have hym : ∃ y ∈ newList, subsumes y (qs.get ⟨j, h⟩) = true := by
        obtain ⟨y, hy, hs⟩ := hle _ (List.get_mem qs j h)
        exact ⟨y, hperm.mem_iff.mpr hy, hs⟩
      rcases inclusionFn_c5 (i := i) habs hwfl hwm hym with
        ⟨i2b, hfn⟩ | ⟨hmem, i2b, hfn⟩
      · rw [hinc] at hfn
        simp at hfn
      · rw [hinc] at hfn
        obtain ⟨hi2, hnl⟩ :
            i2 = i2b ∧ nl2 = removeFirst newList (qs.get ⟨j, h⟩) := by
          simpa using hfn
        by_cases hb : nl2 = []
        · exfalso
          rw [bulk_get_eq2 h hb, compare_self] at hcmp
          cases hcmp
        · rw [addGo_step_smaller h hinc hne h2 hcmp]
          refine IH.2 h ?_
          rw [if_neg hb, hnl]
          exact (perm_cons_removeFirst hmem).symm.trans hperm
    · intro hj hperm
      have hNSall : ∀ z ∈ newList, NS (qs.get ⟨j, h⟩) z :=
        (List.pairwise_cons.mp ((List.Perm.pairwise_iff
          (fun hx => NS_symm hx) hperm).mpr hpa)).1
      have hfn := inclusionFn_no_change i hNSall
      rw [hinc] at hfn
      obtain ⟨hi2, hnl⟩ : i2 = i ∧ nl2 = newList := by simpa using hfn
      by_cases hb : nl2 = []
      · exfalso
        rw [bulk_get_eq2 h hb, compare_self] at hcmp
        cases hcmp
      · rw [addGo_step_smaller h hinc hne h2 hcmp]
        refine IH.2 h ?_
        rw [if_neg hb, hnl]
        exact hperm
  | case4 newList i j h mono2 i2 nl2 hinc i3 nl3 hne h2 mono1 hcmp IH =>
    unfold_let mono1 mono2 i3 nl3 at hcmp
    unfold_let i3 nl3 at hne h2
    unfold_let mono2 i3 nl3 at IH
    unfold_let mono2 at hinc
    simp only [dite_eq_ite] at hne h2 hcmp IH
    constructor
    · intro hperm
      have habs := (List.Perm.pairwise_iff (fun hx => NS_symm hx)
        hperm).mpr hpa
      have hwfl : ∀ z ∈ newList, WfMono z := fun z hz =>
        hwp z (hperm.mem_iff.mp hz)
      have hwm : WfMono (qs.get ⟨j, h⟩) := hwq _ (List.get_mem _ _ _)
      have hym : ∃ y ∈ newList, subsumes y (qs.get ⟨j, h⟩) = true := by
        obtain ⟨y, hy, hs⟩ := hle _ (List.get_mem qs j h)
        exact ⟨y, hperm.mem_iff.mpr hy, hs⟩
      rcases inclusionFn_c5 (i := i) habs hwfl hwm hym with
        ⟨i2b, hfn⟩ | ⟨hmem, i2b, hfn⟩
      · rw [hinc] at hfn
        simp at hfn
      · rw [hinc] at hfn
        obtain ⟨hi2, hnl⟩ :
            i2 = i2b ∧ nl2 = removeFirst newList (qs.get ⟨j, h⟩) := by
          simpa using hfn
        by_cases hb : nl2 = []
        · exfalso
          rw [bulk_get_eq2 h hb, compare_self] at hcmp
          cases hcmp
        · rw [addGo_step_larger h hinc hne h2 hcmp]
          apply IH.1
          have h2n := h2
          rw [if_neg hb] at h2n
          rw [if_neg hb]
          refine (insertIdx_perm_cons _ (Nat.le_of_lt h2n)).trans ?_
          rw [hnl]
          exact (perm_cons_removeFirst hmem).symm.trans hperm
    · intro hj hperm
      have hNSall : ∀ z ∈ newList, NS (qs.get ⟨j, h⟩) z :=
        (List.pairwise_cons.mp ((List.Perm.pairwise_iff
          (fun hx => NS_symm hx) hperm).mpr hpa)).1
      have hfn := inclusionFn_no_change i hNSall
      rw [hinc] at hfn
      obtain ⟨hi2, hnl⟩ : i2 = i ∧ nl2 = newList := by simpa using hfn
      by_cases hb : nl2 = []
      · exfalso
        rw [bulk_get_eq2 h hb, compare_self] at hcmp
        cases hcmp
      · rw [addGo_step_larger h hinc hne h2 hcmp]
        apply IH.1
        have h2n := h2
        rw [if_neg hb] at h2n
        rw [if_neg hb]
        refine (insertIdx_perm_cons _ (Nat.le_of_lt h2n)).trans ?_
        rw [hnl]
        exact hperm
  | case5 newList i j h mono2 i2 nl2 hinc i3 nl3 hne h2 mono1 hcmp IH =>
    unfold_let mono1 mono2 i3 nl3 at hcmp
    unfold_let i3 nl3 at hne h2
    unfold_let mono1 mono2 i3 nl3 at IH
    unfold_let mono2 at hinc
    simp only [dite_eq_ite] at hne h2 hcmp IH
    have hcr := hcmp
    rw [compare_eq_compareRec] at hcr
    have hdel := compareRec_eq_equal hcr
    constructor
    · intro hperm
      have habs := (List.Perm.pairwise_iff (fun hx => NS_symm hx)
        hperm).mpr hpa
      have hwfl : ∀ z ∈ newList, WfMono z := fun z hz =>
        hwp z (hperm.mem_iff.mp hz)
      have hwm : WfMono (qs.get ⟨j, h⟩) := hwq _ (List.get_mem _ _ _)
      have hym : ∃ y ∈ newList, subsumes y (qs.get ⟨j, h⟩) = true := by
        obtain ⟨y, hy, hs⟩ := hle _ (List.get_mem qs j h)
        exact ⟨y, hperm.mem_iff.mpr hy, hs⟩
      rcases inclusionFn_c5 (i := i) habs hwfl hwm hym with
        ⟨i2b, hfn⟩ | ⟨hmem, i2b, hfn⟩
      · rw [hinc] at hfn
        simp at hfn
      · rw [hinc] at hfn
        obtain ⟨hi2, hnl⟩ :
            i2 = i2b ∧ nl2 = removeFirst newList (qs.get ⟨j, h⟩) := by
          simpa using hfn
        by_cases hb : nl2 = []
        · have hrf : removeFirst newList (qs.get ⟨j, h⟩) = [] := by
            rw [← hnl]
            exact hb
          have hrm := perm_cons_removeFirst hmem
          rw [hrf] at hrm
          have hp1 : p.Perm [qs.get ⟨j, h⟩] := hperm.symm.trans hrm
          have hall : ∀ x ∈ qs, subsumes (qs.get ⟨j, h⟩) x = true := by
            intro x hx
            obtain ⟨y, hy, hs⟩ := hle x hx
            have hy2 : y = qs.get ⟨j, h⟩ := by
              simpa using hp1.mem_iff.mp hy
            rwa [hy2] at hs
          obtain ⟨hqs, hj0⟩ := qs_singleton h hqa hall
          rw [addGo_step_equal h hinc hne h2 hcmp]
          apply IH.1
          rw [bulk_get_eq2 h hb, sum_mwp_idem,
            show (⟨(qs.get ⟨j, h⟩).scalar, (qs.get ⟨j, h⟩).deltas⟩
              : Monomial) = qs.get ⟨j, h⟩ from rfl]
          rw [if_pos hb, hb]
          simp only [List.nil_append, List.length_nil, Nat.min_zero]
          rw [drop_get_cons h, List.set_cons_zero, ← drop_get_cons h]
          subst hj0
          rw [List.drop_zero, hqs]
          exact hp1.symm
        · exfalso
          have h2n := h2
          rw [if_neg hb] at h2n
          have hget2 : (if nl2 = [] then nl2 ++ qs.drop j else nl2).get
              ⟨min i2 nl2.length, h2⟩
              = nl2.get ⟨min i2 nl2.length, h2n⟩ := by
            apply get_eq_of_some
            rw [if_neg hb, List.getElem?_eq_getElem h2n]
            simp [List.get_eq_getElem]
          rw [hget2] at hdel
          have hm1mem : nl2.get ⟨min i2 nl2.length, h2n⟩ ∈ newList := by
            have h0 : nl2.get ⟨min i2 nl2.length, h2n⟩
                ∈ removeFirst newList (qs.get ⟨j, h⟩) := by
              rw [← hnl]
              exact List.get_mem _ _ _
            exact ((perm_cons_removeFirst hmem).symm.mem_iff).mp
              (List.mem_cons_of_mem _ h0)
          have hNS : NS (qs.get ⟨j, h⟩)
              (nl2.get ⟨min i2 nl2.length, h2n⟩) := by
            have hp2 := (List.Perm.pairwise_iff (fun hx => NS_symm hx)
              ((perm_cons_removeFirst hmem).symm.trans hperm)).mpr hpa
            refine (List.pairwise_cons.mp hp2).1 _ ?_
            rw [← hnl]
            exact List.get_mem _ _ _
          exact NS_ne_deltas hNS hdel.symm
    · intro hj hperm
      have hNSall : ∀ z ∈ newList, NS (qs.get ⟨j, h⟩) z :=
        (List.pairwise_cons.mp ((List.Perm.pairwise_iff
          (fun hx => NS_symm hx) hperm).mpr hpa)).1
      have hfn := inclusionFn_no_change i hNSall
      rw [hinc] at hfn
      obtain ⟨hi2, hnl⟩ : i2 = i ∧ nl2 = newList := by simpa using hfn
      by_cases hb : nl2 = []
      · have hnle : newList = [] := by
          rw [← hnl]
          exact hb
        have hp1 : p.Perm [qs.get ⟨j, h⟩] := by
          rw [hnle] at hperm
          exact hperm.symm
        have hall : ∀ x ∈ qs, subsumes (qs.get ⟨j, h⟩) x = true := by
          intro x hx
          obtain ⟨y, hy, hs⟩ := hle x hx
          have hy2 : y = qs.get ⟨j, h⟩ := by
            simpa using hp1.mem_iff.mp hy
          rwa [hy2] at hs
        obtain ⟨hqs, hj0⟩ := qs_singleton h hqa hall
        rw [addGo_step_equal h hinc hne h2 hcmp]
        apply IH.1
        rw [bulk_get_eq2 h hb, sum_mwp_idem,
          show (⟨(qs.get ⟨j, h⟩).scalar, (qs.get ⟨j, h⟩).deltas⟩
            : Monomial) = qs.get ⟨j, h⟩ from rfl]
        rw [if_pos hb, hb]
        simp only [List.nil_append, List.length_nil, Nat.min_zero]
        rw [drop_get_cons h, List.set_cons_zero, ← drop_get_cons h]
        subst hj0
        rw [List.drop_zero, hqs]
        exact hp1.symm
      · exfalso
        have h2n := h2
        rw [if_neg hb] at h2n
        have hget2 : (if nl2 = [] then nl2 ++ qs.drop j else nl2).get
            ⟨min i2 nl2.length, h2⟩
            = nl2.get ⟨min i2 nl2.length, h2n⟩ := by
          apply get_eq_of_some
          rw [if_neg hb, List.getElem?_eq_getElem h2n]
          simp [List.get_eq_getElem]
        rw [hget2] at hdel
        have hNS : NS (qs.get ⟨j, h⟩)
            (nl2.get ⟨min i2 nl2.length, h2n⟩) := by
          refine hNSall _ ?_
          rw [← hnl]
          exact List.get_mem _ _ _
        exact NS_ne_deltas hNS hdel.symm
  | case6 newList i j h mono2 i2 nl2 hinc i3 nl3 hne hnlt =>
    unfold_let i3 nl3 at hne hnlt
    simp only [dite_eq_ite] at hne hnlt
    have hfalse : False := by
      by_cases hb : nl2 = []
      · subst hb
        simp only [if_pos rfl, List.nil_append, List.length_nil,
          Nat.min_zero, List.length_drop] at hne hnlt
        omega
      · simp only [if_neg hb] at hne hnlt
        have := Nat.min_le_right i2 nl2.length
        omega
    exact hfalse.elim
  | case7 newList i j hj =>
    constructor
    · intro hperm
      rw [addGo_step_done qs newList i j hj]
      exact hperm
    · intro hj2 _
      exact absurd hj2 hj

/-- C5 (confirmed): lattice idempotence of `Polynomial.add` — for
polynomials `p` and `q` satisfying the invariants the spec maintains for
every constructed polynomial (non-empty, sorted, absorbed, well-formed
delta lists), if every monomial of `q` is subsumed by some monomial of `p`
then `p.add q = p`. -/
theorem claim_c5_add_subsumed (p q : List Monomial)
    (hpne : p ≠ []) (hps : SortedPoly p) (hpa : AbsorbedPoly p)
    (hwp : WfPoly p) (hqa : AbsorbedPoly q) (hwq : WfPoly q)
    (hle : ∀ x ∈ q, ∃ y ∈ p, subsumes y x = true) :
    Polynomial.add p q = p := by
  rw [Polynomial.add]
  rw [if_neg (fun hand => hpne hand.1), if_neg hpne]
  by_cases hq : q = []
  · rw [if_pos hq]
  · rw [if_neg hq]
    have hmain : (addGo q p 0 0).Perm p :=
      (addGo_c5 q p hpa hwp hqa hwq hle p 0 0).1 (List.Perm.refl p)
    have habsGo : AbsorbedPoly (addGo q p 0 0) :=
      (List.Perm.pairwise_iff (fun hx => NS_symm hx) hmain).mpr hpa
    have hperm := sort_monomials_perm (absorbed_distinct habsGo)
    have heq : sort_monomials (addGo q p 0 0) = p :=
      sortedPoly_eq_of_perm (hperm.trans hmain) (sort_monomials_sorted _) hps
    rw [heq, Polynomial.ofList, if_neg hpne]

/-- Concrete instance of C5: a `w`-monomial polynomial absorbs a subsumed
`m`-monomial polynomial on the same delta. -/
theorem claim_c5_add_subsumed_witness :
    ([⟨Scalar.w, [(0, 0)]⟩] : List Monomial) ≠ [] ∧
      Polynomial.add [⟨Scalar.w, [(0, 0)]⟩] [⟨Scalar.m, [(0, 0)]⟩]
        = [⟨Scalar.w, [(0, 0)]⟩] :=
  ⟨by decide, claim_c5_add_subsumed _ _ (by decide) (by decide) (by decide)
    (by decide) (by decide) (by decide) (by decide)⟩

/-- C1 (code bug): the derivation is **not** total over the given sources.
`Analysis.create_vector` calls `Polynomial.from_scalars`, but the
`Polynomial` class of src/pymwp/polynomial.py defines no such method, so
every binary-operation assignment raises `AttributeError`; and
`Analysis.while_loop` calls `relations.while_correction(dg)` with one
argument while `RelationList.while_correction` in src/pymwp/relation_list.py
takes none beyond `self`, so every while loop raises `TypeError`.  The
theorem records both source facts: `from_scalars` is not among the methods
of the `Polynomial` class, and the argument count at the call site differs
from the parameter count of the callee. -/
theorem claim_c1_totality_violated :
    polynomialClassMethods.contains "from_scalars" = false ∧
    whileLoopWhileCorrectionArgs ≠ relationListWhileCorrectionParams := by
  decide

set_option maxRecDepth 4000 in
/-- C2 (code bug): for the assignment `X1 = X2` the derivation leaves the
index unchanged, but `RelationList.replace_column` produces one relation per
**element** of the vector, so `Analysis.id` returns a relation list with
two relations, not one. -/
theorem claim_c2_two_relations :
    (Analysis.idRule 0 "X1" (Atom.var "X2")).1 = 0 ∧
    (Analysis.idRule 0 "X1" (Atom.var "X2")).2.1.list.length = 2 := by
  decide

/-- C3 (code bug): for a while loop whose body is a skip statement the delta
graph ends with **no** clauses, yet `Analysis.while_loop` returns
`dg.is_empty` as the exit flag, which is then `true` — the claim (and the
spec) require `false` when no infinity clauses exist. -/
theorem claim_c3_flag_inverted :
    (Analysis.compute_relation 0 (Node.whileLoop Node.empty)
      ⟨[]⟩).2.2.1 = true ∧
    (Analysis.compute_relation 0 (Node.whileLoop Node.empty)
      ⟨[]⟩).2.2.2.clauses = [] := by
  have h2 : Analysis.compute_relation 0 Node.empty ⟨[]⟩
      = (0, RelationList.empty, false, (⟨[]⟩ : DeltaGraph)) := by
    rw [Analysis.compute_relation]
  have h1 : Analysis.compute_relation 0 (Node.whileLoop Node.empty) ⟨[]⟩
      = Analysis.while_loop 0 Node.empty ⟨[]⟩ := by
    rw [Analysis.compute_relation]
  rw [h1, Analysis.while_loop, h2]
  decide

set_option maxRecDepth 8000 in
set_option maxHeartbeats 2000000 in
/-- C6 (code bug): adding the zero polynomial `Polynomial()` (the single
zero monomial) to `P = m·δ(0,0)` does **not** return `P`: the zero monomial
is inserted and `sort_monomials` fails to strip it (its base case compares
a monomial object against the scalar string `'0'`), so
`P + 0 = 0·∅ + m·δ(0,0) ≠ P`. -/
theorem claim_c6_zero_not_neutral :
    Polynomial.add [⟨Scalar.m, [(0, 0)]⟩] [Monomial.zeroM]
      = [Monomial.zeroM, ⟨Scalar.m, [(0, 0)]⟩] ∧
    Polynomial.equal
      (Polynomial.add [⟨Scalar.m, [(0, 0)]⟩] [Monomial.zeroM])
      [⟨Scalar.m, [(0, 0)]⟩] = false := by
  have h : Polynomial.add [⟨Scalar.m, [(0, 0)]⟩] [Monomial.zeroM]
      = [Monomial.zeroM, ⟨Scalar.m, [(0, 0)]⟩] := by
    simp [Polynomial.add, addGo, inclusionFn, containsFilterGo,
      Monomial.inclusion, subsumes, Scalar.strength, Monomial.zeroM,
      sort_monomials, mergeMono, Polynomial.compare, deltaBelow,
      monomialIsZeroStr, Polynomial.ofList, removeFirst, List.find?]
  refine ⟨h, ?_⟩
  rw [h]
  decide

/-- C7 (confirmed): evaluation is a semiring homomorphism — for all
polynomials `P` and `Q` (given by their monomial lists) and every choice
vector `v`, `(P.add Q).eval v = P.eval v ⊕ Q.eval v` and
`(P.times Q).eval v = P.eval v ⊗ Q.eval v`. -/
theorem claim_c7_eval_homomorphism (p q : List Monomial) (v : List Nat) :
    Polynomial.eval (Polynomial.add p q) v
      = sum_mwp (Polynomial.eval p v) (Polynomial.eval q v)
    ∧ Polynomial.eval (Polynomial.times p q) v
      = prod_mwp (Polynomial.eval p v) (Polynomial.eval q v) := by
  constructor
  · rw [eval_eq_evalFold, eval_eq_evalFold, eval_eq_evalFold]
    exact add_evalFold p q v
  · rw [eval_eq_evalFold, eval_eq_evalFold, eval_eq_evalFold]
    exact times_evalFold p q v

/-- C8 (code bug): the combining loop of `sort_monomials` destructively
writes `sum_mwp(lhead.scalar, rhead.scalar)` into the monomial object
`lhead` that belongs to the input list.  On the input
`[p·δ(0,0), m·δ(0,0)]` the instrumented sort logs exactly one write,
targeting the input monomial `m·δ(0,0)` and storing the scalar `p` — a
value different from the monomial's own, i.e. an observable mutation of the
input, contradicting "the original list argument is not mutated".  The
instrumented result agrees with `sort_monomials`. -/
theorem claim_c8_sort_mutates_input :
    (sortMonomialsWrites [⟨Scalar.p, [(0, 0)]⟩, ⟨Scalar.m, [(0, 0)]⟩]).2
      = [(⟨Scalar.m, [(0, 0)]⟩, Scalar.p)] ∧
    (⟨Scalar.m, [(0, 0)]⟩ : Monomial).scalar ≠ Scalar.p ∧
    (sortMonomialsWrites [⟨Scalar.p, [(0, 0)]⟩, ⟨Scalar.m, [(0, 0)]⟩]).1
      = sort_monomials [⟨Scalar.p, [(0, 0)]⟩, ⟨Scalar.m, [(0, 0)]⟩] := by
  have hw : sortMonomialsWrites [⟨Scalar.p, [(0, 0)]⟩, ⟨Scalar.m, [(0, 0)]⟩]
      = ([⟨Scalar.p, [(0, 0)]⟩], [(⟨Scalar.m, [(0, 0)]⟩, Scalar.p)]) := by
    simp [sortMonomialsWrites, mergeMonoWrites, Polynomial.compare,
      monomialIsZeroStr, sum_mwp, Scalar.strength, List.find?]
  have hs : sort_monomials [⟨Scalar.p, [(0, 0)]⟩, ⟨Scalar.m, [(0, 0)]⟩]
      = [⟨Scalar.p, [(0, 0)]⟩] := by
    simp [sort_monomials, mergeMono, Polynomial.compare,
      monomialIsZeroStr, sum_mwp, Scalar.strength, List.find?]
  rw [hw, hs]
  exact ⟨rfl, by decide, rfl⟩

/-- C9 (code bug): `main` exits with 1 when the input file argument is
missing, as claimed; but with a valid input file it also exits 1, because
it passes six positional arguments to `Analysis.run`, which accepts four —
the `TypeError` escapes and the interpreter exit status is nonzero, never
the claimed 0. -/
theorem claim_c9_exit_codes :
    mainExitCode none = 1 ∧
    mainExitCode (some "input.c") = 1 := by
  decide

/-- C10 (confirmed): the delta index never decreases under
`Analysis.compute_relation`; `Analysis.create_vector` returns `index + 1`
for every operator and operand shape; and the skip-like rules, the constant
assignment rule and the `x = y` rule return the index unchanged. -/
theorem claim_c10_index_monotone :
    (∀ (index : Nat) (op : String)
      (vars3 : Option String × Option String × Option String),
      (Analysis.create_vector index op vars3).1 = index + 1) ∧
    (∀ (index : Nat) (node : Node) (dg : DeltaGraph),
      index ≤ (Analysis.compute_relation index node dg).1) ∧
    (∀ (index : Nat) (dg : DeltaGraph),
      (Analysis.compute_relation index Node.ret dg).1 = index ∧
      (Analysis.compute_relation index Node.brk dg).1 = index ∧
      (Analysis.compute_relation index Node.cont dg).1 = index ∧
      (Analysis.compute_relation index Node.empty dg).1 = index ∧
      (Analysis.compute_relation index Node.decl dg).1 = index) ∧
    (∀ (index : Nat) (x : String) (c : Int) (dg : DeltaGraph),
      (Analysis.compute_relation index
        (Node.assign x (Rhs.constE c)) dg).1 = index) ∧
    (∀ (index : Nat) (x y : String) (dg : DeltaGraph),
      (Analysis.compute_relation index
        (Node.assign x (Rhs.varE y)) dg).1 = index) := by
  refine ⟨create_vector_index, ?_, ?_, ?_, ?_⟩
  · intro index node dg
    exact (mono_all (sizeOf node)).1 node index dg (Nat.le_refl _)
  · intro index dg
    refine ⟨?_, ?_, ?_, ?_, ?_⟩ <;> rw [Analysis.compute_relation]
  · intro index x c dg
    rw [Analysis.compute_relation]
    exact constant_index index x
  · intro index x y dg
    rw [Analysis.compute_relation]
    simp [idRule_index]

end PyMwp
